import Mathlib

/-!
Verification of the vyper kernel core against its specification.

Each section embeds one subsystem of the source tree (src/vcore/src) as
executable Lean definitions and proves the specification's claims about it:
file-descriptor tables (vfs/fd.rs), open flags and FAT32 file handles
(vfs/types.rs, vfs/fat32.rs), the syscall return-value conventions
(cpu/syscall.rs), path normalisation and mount resolution (vfs/mod.rs),
the physical bitmap allocator (mem/pmm.rs), the scheduler state machine
(sched/mod.rs, sched/task.rs), and the FAT32 cluster-chain and directory
machinery (vfs/fat32.rs).  Machine integers are modelled as Nat; byte
buffers as List Nat; fallible Rust functions return Except.
-/

set_option linter.unusedVariables false

namespace Vfs

/-- Error taxonomy of VfsError in src/vcore/src/vfs/types.rs. -/
inductive VfsError where
  | NotFound
  | AlreadyExists
  | NotADirectory
  | IsADirectory
  | NotEmpty
  | InvalidPath
  | PermissionDenied
  | NoSpace
  | InvalidFd
  | NotSupported
  | IoError
  deriving DecidableEq, Repr

/-- Result alias VfsResult of src/vcore/src/vfs/types.rs. -/
abbrev VfsResult (α : Type) := Except VfsError α

/-- The OpenFlags bitfield of src/vcore/src/vfs/types.rs (a u32 newtype). -/
structure OpenFlags where
  bits : Nat
  deriving DecidableEq, Repr

namespace OpenFlags

def O_RDONLY : OpenFlags := ⟨0⟩

def O_WRONLY : OpenFlags := ⟨1⟩

def O_RDWR : OpenFlags := ⟨2⟩

def O_CREAT : OpenFlags := ⟨0o100⟩

def O_EXCL : OpenFlags := ⟨0o200⟩

def O_TRUNC : OpenFlags := ⟨0o1000⟩

def O_APPEND : OpenFlags := ⟨0o2000⟩

def O_DIRECTORY : OpenFlags := ⟨0o200000⟩

/-- OpenFlags::contains: the all-zero flag is contained iff the access-mode
bits are zero, otherwise ordinary bitmask containment. -/
def contains (f g : OpenFlags) : Bool :=
  if g.bits == 0 then f.bits &&& 3 == 0 else (f.bits &&& g.bits) == g.bits

def access_mode (f : OpenFlags) : Nat := f.bits &&& 3

def is_readable (f : OpenFlags) : Bool :=
  f.access_mode == 0 || f.access_mode == 2

def is_writable (f : OpenFlags) : Bool :=
  f.access_mode == 1 || f.access_mode == 2

end OpenFlags

/-- File types of src/vcore/src/vfs/types.rs. -/
inductive FileType where
  | File
  | Directory
  | Device
  deriving DecidableEq, Repr

/-- Directory entry returned by readdir (src/vcore/src/vfs/types.rs). -/
structure DirEntry where
  name : String
  file_type : FileType
  deriving DecidableEq, Repr

/-- Mutable state of FatFileHandle from src/vcore/src/vfs/fat32.rs.  The fs
pointer, path, cluster and size fields play no part in read/write/seek, so
only the buffer, position, dirty flag and open flags are modelled. -/
structure FatFileHandle where
  data : List Nat
  position : Nat
  dirty : Bool
  flags : OpenFlags
  deriving DecidableEq, Repr

namespace FatFileHandle

/-- FatFileHandle::read: copies min(buf.len, data.len - position) bytes from
the in-memory buffer and advances the position; it never consults the open
flags.  Returns (count, bytes copied, updated handle). -/
def read (h : FatFileHandle) (bufLen : Nat) : VfsResult (Nat × List Nat × FatFileHandle) :=
  let available := h.data.length - h.position
  let toRead := min bufLen available
  Except.ok (toRead, (h.data.drop h.position).take toRead,
    { h with position := h.position + toRead })

/-- FatFileHandle::write: PermissionDenied unless the flags are writable;
otherwise grow the buffer to position + buf.len if needed, overwrite that
range, advance the position, and mark the handle dirty. -/
def write (h : FatFileHandle) (buf : List Nat) : VfsResult (Nat × FatFileHandle) :=
  if h.flags.is_writable then
    let endPos := h.position + buf.length
    let grown := if h.data.length < endPos
      then h.data ++ List.replicate (endPos - h.data.length) 0
      else h.data
    Except.ok (buf.length,
      { h with data := grown.take h.position ++ buf ++ grown.drop endPos,
               position := endPos, dirty := true })
  else Except.error VfsError.PermissionDenied

end FatFileHandle

/-- FdKind of src/vcore/src/vfs/fd.rs; the File variant carries the concrete
FAT32 handle model and the Directory variant its snapshot fields. -/
inductive FdKind where
  | File (handle : FatFileHandle)
  | Directory (path : String) (entries : List DirEntry) (position : Nat)
  | Stdin
  | Stdout
  | Stderr
  deriving DecidableEq, Repr

def MAX_FDS : Nat := 64

/-- FdTable of src/vcore/src/vfs/fd.rs: 64 optional slots. -/
structure FdTable where
  fds : List (Option FdKind)
  deriving DecidableEq, Repr

namespace FdTable

/-- FdTable::new: all slots empty except 0, 1, 2 = Stdin, Stdout, Stderr. -/
def new : FdTable :=
  { fds := ((((List.replicate MAX_FDS (none : Option FdKind)).set 0
      (some FdKind.Stdin)).set 1 (some FdKind.Stdout)).set 2 (some FdKind.Stderr)) }

/-- The linear scan inside FdTable::alloc: index of the first empty slot. -/
def firstFree : List (Option FdKind) → Option Nat
  | [] => none
  | none :: _ => some 0
  | some _ :: rest => (firstFree rest).map (· + 1)

/-- FdTable::alloc: place the kind in the first empty slot and return its
index, or NoSpace when every slot is taken. -/
def alloc (t : FdTable) (kind : FdKind) : VfsResult (Nat × FdTable) :=
  match firstFree t.fds with
  | some i => Except.ok (i, { fds := t.fds.set i (some kind) })
  | none => Except.error VfsError.NoSpace

/-- FdTable::get (and get_mut): InvalidFd for out-of-range or empty slots. -/
def get (t : FdTable) (fd : Nat) : VfsResult FdKind :=
  if MAX_FDS ≤ fd then Except.error VfsError.InvalidFd
  else match t.fds.getD fd none with
    | some k => Except.ok k
    | none => Except.error VfsError.InvalidFd

/-- FdTable::close: InvalidFd out of range or empty, PermissionDenied below 3. -/
def close (t : FdTable) (fd : Nat) : VfsResult FdTable :=
  if MAX_FDS ≤ fd then Except.error VfsError.InvalidFd
  else if fd < 3 then Except.error VfsError.PermissionDenied
  else match t.fds.getD fd none with
    | none => Except.error VfsError.InvalidFd
    | some _ => Except.ok { fds := t.fds.set fd none }

end FdTable

end Vfs

namespace Pmm

def PAGE_SIZE : Nat := 4096

/-- BitmapAllocator of src/vcore/src/mem/pmm.rs: bit i of the bitmap is
bits[i] (true = frame in use); total_pages is bits.length. -/
structure BitmapAllocator where
  bits : List Bool
  free_pages : Nat
  deriving DecidableEq, Repr

/-- The linear scan inside alloc_page: index of the first clear bit. -/
def firstClear : List Bool → Option Nat
  | [] => none
  | false :: _ => some 0
  | true :: rest => (firstClear rest).map (· + 1)

/-- BitmapAllocator::alloc_page: find the first clear bit, set it, decrement
the free count and return the page address; None when every bit is set. -/
def alloc_page (a : BitmapAllocator) : Option (Nat × BitmapAllocator) :=
  match firstClear a.bits with
  | some i =>
      some (i * PAGE_SIZE, { bits := a.bits.set i true, free_pages := a.free_pages - 1 })
  | none => none

/-- BitmapAllocator::free_page: clear the bit and increment the free count
only when the bit is currently set (defensive double-free). -/
def free_page (a : BitmapAllocator) (addr : Nat) : BitmapAllocator :=
  let page := addr / PAGE_SIZE
  if page < a.bits.length ∧ a.bits.getD page false = true then
    { bits := a.bits.set page false, free_pages := a.free_pages + 1 }
  else a

end Pmm

namespace Pmm

theorem firstClear_some {l : List Bool} {i : Nat} (h : firstClear l = some i) :
    l.getD i true = false ∧ ∀ j, j < i → l.getD j true = true := by
  induction l generalizing i with
  | nil => simp [firstClear] at h
  | cons b rest ih =>
    cases b with
    | false =>
      simp [firstClear] at h
      subst h
      exact ⟨rfl, fun j hj => absurd hj (Nat.not_lt_zero j)⟩
    | true =>
      simp [firstClear, Option.map_eq_some'] at h
      obtain ⟨k, hk, rfl⟩ := h
      obtain ⟨hget, hall⟩ := ih hk
      refine ⟨hget, fun j hj => ?_⟩
      cases j with
      | zero => rfl
      | succ j' => exact hall j' (Nat.lt_of_succ_lt_succ hj)

theorem firstClear_none {l : List Bool} (h : firstClear l = none) :
    ∀ j, j < l.length → l.getD j true = true := by
  induction l with
  | nil => intro j hj; simp at hj
  | cons b rest ih =>
    cases b with
    | false => simp [firstClear] at h
    | true =>
      simp [firstClear] at h
      intro j hj
      cases j with
      | zero => rfl
      | succ j' => exact ih h j' (by simpa using Nat.lt_of_succ_lt_succ hj)

theorem firstClear_of_all_set {l : List Bool} (h : ∀ j, j < l.length → l.getD j true = true) :
    firstClear l = none := by
  induction l with
  | nil => rfl
  | cons b rest ih =>
    have hb := h 0 (Nat.succ_pos _)
    simp [List.getD] at hb
    subst hb
    simp [firstClear]
    exact ih (fun j hj => h (j + 1) (Nat.succ_lt_succ hj))

end Pmm

/-- C8: the physical allocator's alloc returns an address only for a page
whose bitmap bit was clear before the call (the first such bit), marking it
set and decrementing the free count, and returns none exactly when no bit
in the bitmap is clear. -/
theorem pmm_alloc_only_clear_bits (a : Pmm.BitmapAllocator) (addr : Nat)
    (a' : Pmm.BitmapAllocator) (h : Pmm.alloc_page a = some (addr, a')) :
    (∃ i, a.bits.getD i true = false ∧ addr = i * Pmm.PAGE_SIZE ∧
      (∀ j, j < i → a.bits.getD j true = true) ∧
      a'.bits = a.bits.set i true ∧ a'.free_pages = a.free_pages - 1)
    ∧ ∀ b : Pmm.BitmapAllocator,
        (Pmm.alloc_page b = none ↔ ∀ j, j < b.bits.length → b.bits.getD j true = true) := by
  constructor
  · unfold Pmm.alloc_page at h
    cases hfc : Pmm.firstClear a.bits with
    | none => rw [hfc] at h; exact absurd h (by simp)
    | some i =>
      rw [hfc] at h
      obtain ⟨hget, hall⟩ := Pmm.firstClear_some hfc
      refine ⟨i, hget, ?_, hall, ?_, ?_⟩
      · cases h; rfl
      · cases h; rfl
      · cases h; rfl
  · intro b
    constructor
    · intro hb
      unfold Pmm.alloc_page at hb
      cases hfc : Pmm.firstClear b.bits with
      | none => exact Pmm.firstClear_none hfc
      | some i => rw [hfc] at hb; exact absurd hb (by simp)
    · intro hall
      unfold Pmm.alloc_page
      rw [Pmm.firstClear_of_all_set hall]

/-- Witness for pmm_alloc_only_clear_bits at a concrete two-page bitmap. -/
theorem pmm_alloc_only_clear_bits_witness :
    (∃ i, (Pmm.BitmapAllocator.mk [true, false] 1).bits.getD i true = false ∧
      1 * Pmm.PAGE_SIZE = i * Pmm.PAGE_SIZE ∧
      (∀ j, j < i → (Pmm.BitmapAllocator.mk [true, false] 1).bits.getD j true = true) ∧
      (Pmm.BitmapAllocator.mk [true, true] 0).bits =
        (Pmm.BitmapAllocator.mk [true, false] 1).bits.set i true ∧
      (Pmm.BitmapAllocator.mk [true, true] 0).free_pages =
        (Pmm.BitmapAllocator.mk [true, false] 1).free_pages - 1)
    ∧ ∀ b : Pmm.BitmapAllocator,
        (Pmm.alloc_page b = none ↔ ∀ j, j < b.bits.length → b.bits.getD j true = true) :=
  pmm_alloc_only_clear_bits (Pmm.BitmapAllocator.mk [true, false] 1) (1 * Pmm.PAGE_SIZE)
    (Pmm.BitmapAllocator.mk [true, true] 0) (by decide)

namespace Vfs.FdTable

theorem firstFree_some {l : List (Option Vfs.FdKind)} {i : Nat}
    (h : firstFree l = some i) :
    l[i]? = some none ∧ ∀ j, j < i → l[j]? ≠ some none := by
  induction l generalizing i with
  | nil => simp [firstFree] at h
  | cons o rest ih =>
    cases o with
    | none =>
      simp [firstFree] at h
      subst h
      exact ⟨by simp, fun j hj => absurd hj (Nat.not_lt_zero j)⟩
    | some k =>
      simp [firstFree, Option.map_eq_some'] at h
      obtain ⟨m, hm, rfl⟩ := h
      obtain ⟨hget, hall⟩ := ih hm
      refine ⟨by simpa using hget, fun j hj => ?_⟩
      cases j with
      | zero => simp
      | succ j' => simpa using hall j' (Nat.lt_of_succ_lt_succ hj)

end Vfs.FdTable

/-- C9: FdTable::alloc always returns the smallest index whose slot is empty,
and on a freshly created table (slots 0, 1, 2 pre-filled with Stdin, Stdout,
Stderr) the first allocation returns fd 3. -/
theorem fd_alloc_returns_smallest (t : Vfs.FdTable) (k k2 : Vfs.FdKind) (i : Nat)
    (t' : Vfs.FdTable) (h : t.alloc k = Except.ok (i, t')) :
    t.fds[i]? = some none ∧ (∀ j, j < i → t.fds[j]? ≠ some none) ∧
      t' = { fds := t.fds.set i (some k) } ∧
      ∃ u, Vfs.FdTable.new.alloc k2 = Except.ok (3, u) := by
  unfold Vfs.FdTable.alloc at h
  cases hff : Vfs.FdTable.firstFree t.fds with
  | none => rw [hff] at h; exact absurd h (by simp)
  | some m =>
    rw [hff] at h
    have hmi : m = i ∧ t' = { fds := t.fds.set m (some k) } := by
      constructor
      · cases h; rfl
      · cases h; rfl
    obtain ⟨rfl, rfl⟩ := hmi
    obtain ⟨hget, hall⟩ := Vfs.FdTable.firstFree_some hff
    refine ⟨hget, hall, rfl, ?_⟩
    refine ⟨{ fds := Vfs.FdTable.new.fds.set 3 (some k2) }, ?_⟩
    have : Vfs.FdTable.firstFree Vfs.FdTable.new.fds = some 3 := by decide
    unfold Vfs.FdTable.alloc
    rw [this]

/-- Witness for fd_alloc_returns_smallest on a fresh table. -/
theorem fd_alloc_returns_smallest_witness :
    Vfs.FdTable.new.fds[3]? = some none ∧
      (∀ j, j < 3 → Vfs.FdTable.new.fds[j]? ≠ some none) ∧
      ({ fds := Vfs.FdTable.new.fds.set 3 (some Vfs.FdKind.Stdin) } : Vfs.FdTable) =
        { fds := Vfs.FdTable.new.fds.set 3 (some Vfs.FdKind.Stdin) } ∧
      ∃ u, Vfs.FdTable.new.alloc Vfs.FdKind.Stderr = Except.ok (3, u) :=
  fd_alloc_returns_smallest Vfs.FdTable.new Vfs.FdKind.Stdin Vfs.FdKind.Stderr 3
    { fds := Vfs.FdTable.new.fds.set 3 (some Vfs.FdKind.Stdin) } (by rfl)

/-- C10: a FAT32 file handle's read never checks the access-mode flags: on
every handle, including one opened O_WRONLY, read succeeds and returns
min(buf.len, remaining) bytes of the file contents, whereas write on a
handle whose flags are not writable fails with PermissionDenied. -/
theorem fat_read_ignores_access_mode (h hw : Vfs.FatFileHandle) (bufLen : Nat)
    (buf : List Nat) (hnw : hw.flags.is_writable = false) :
    h.read bufLen = Except.ok (min bufLen (h.data.length - h.position),
      (h.data.drop h.position).take (min bufLen (h.data.length - h.position)),
      { h with position := h.position + min bufLen (h.data.length - h.position) })
    ∧ hw.write buf = Except.error Vfs.VfsError.PermissionDenied := by
  constructor
  · rfl
  · unfold Vfs.FatFileHandle.write
    rw [hnw]
    simp

/-- Witness for fat_read_ignores_access_mode: a write-only handle reads
fine; a read-only handle's write is denied. -/
theorem fat_read_ignores_access_mode_witness :
    (Vfs.FatFileHandle.mk [7, 8, 9] 1 false Vfs.OpenFlags.O_WRONLY).read 5 =
      Except.ok (min 5 ((Vfs.FatFileHandle.mk [7, 8, 9] 1 false
          Vfs.OpenFlags.O_WRONLY).data.length - 1),
        ([7, 8, 9].drop 1).take (min 5 ((Vfs.FatFileHandle.mk [7, 8, 9] 1 false
          Vfs.OpenFlags.O_WRONLY).data.length - 1)),
        { Vfs.FatFileHandle.mk [7, 8, 9] 1 false Vfs.OpenFlags.O_WRONLY with
            position := 1 + min 5 ((Vfs.FatFileHandle.mk [7, 8, 9] 1 false
              Vfs.OpenFlags.O_WRONLY).data.length - 1) })
    ∧ (Vfs.FatFileHandle.mk [] 0 false Vfs.OpenFlags.O_RDONLY).write [1, 2] =
        Except.error Vfs.VfsError.PermissionDenied :=
  fat_read_ignores_access_mode (Vfs.FatFileHandle.mk [7, 8, 9] 1 false Vfs.OpenFlags.O_WRONLY)
    (Vfs.FatFileHandle.mk [] 0 false Vfs.OpenFlags.O_RDONLY) 5 [1, 2] (by decide)

namespace Syscall

def U64_MAX : Nat := 2 ^ 64 - 1

/-- Modelled from the spec: sched::with_fd_table is declared outside src/
(only its call sites in cpu/syscall.rs appear); per section 4.7 syscalls
operate on the current task's per-process fd table, so the helper applies
the closure to that table and passes its VfsResult through. -/
def with_fd_table {α : Type} (table : Vfs.FdTable)
    (f : Vfs.FdTable → Vfs.VfsResult (α × Vfs.FdTable)) : Vfs.VfsResult (α × Vfs.FdTable) :=
  f table

/-- In-place mutation of one fd slot (the effect of get_mut on the table). -/
def setFd (t : Vfs.FdTable) (fd : Nat) (k : Vfs.FdKind) : Vfs.FdTable :=
  { fds := t.fds.set fd (some k) }

/-- The stdin read loop of SYS_READ: consume bytes until a newline is
consumed or len bytes were read (keyboard ring buffer as a byte list). -/
def readStdin : List Nat → Nat → List Nat
  | _, 0 => []
  | [], _ => []
  | c :: rest, n + 1 => if c == 10 then [c] else c :: readStdin rest n

/-- SYS_WRITE branch of syscall_handler in src/vcore/src/cpu/syscall.rs:
fd 1 and 2 short-circuit to the console; otherwise the fd-table closure
runs and its result collapses with unwrap_or(0).  Returns the u64 handed
to userland together with the table state after the call. -/
def sys_write (table : Vfs.FdTable) (fd : Nat) (buf : List Nat) : Nat × Vfs.FdTable :=
  if fd == 1 || fd == 2 then (buf.length % 2 ^ 64, table)
  else
    let result := with_fd_table table (fun t =>
      match t.get fd with
      | Except.error e => Except.error e
      | Except.ok (Vfs.FdKind.File h) =>
        match h.write buf with
        | Except.ok (n, h') => Except.ok (n, setFd t fd (Vfs.FdKind.File h'))
        | Except.error e => Except.error e
      | Except.ok Vfs.FdKind.Stdout => Except.ok (buf.length, t)
      | Except.ok Vfs.FdKind.Stderr => Except.ok (buf.length, t)
      | Except.ok _ => Except.error Vfs.VfsError.PermissionDenied)
    match result with
    | Except.ok (n, t) => (n % 2 ^ 64, t)
    | Except.error _ => (0, table)

/-- SYS_READ branch of syscall_handler: fd 0 short-circuits to the keyboard
buffer; otherwise the fd-table closure runs and its result collapses with
unwrap_or(0).  The pending keyboard bytes are passed explicitly. -/
def sys_read (table : Vfs.FdTable) (fd : Nat) (bufLen : Nat) (kbd : List Nat) :
    Nat × Vfs.FdTable :=
  if fd == 0 then ((readStdin kbd bufLen).length % 2 ^ 64, table)
  else
    let result := with_fd_table table (fun t =>
      match t.get fd with
      | Except.error e => Except.error e
      | Except.ok (Vfs.FdKind.File h) =>
        match h.read bufLen with
        | Except.ok (n, _, h') => Except.ok (n, setFd t fd (Vfs.FdKind.File h'))
        | Except.error e => Except.error e
      | Except.ok Vfs.FdKind.Stdin => Except.ok ((readStdin kbd bufLen).length, t)
      | Except.ok _ => Except.error Vfs.VfsError.PermissionDenied)
    match result with
    | Except.ok (n, t) => (n % 2 ^ 64, t)
    | Except.error _ => (0, table)

/-- The dirent-packing loop of SYS_GETDENTS: starting at the given output
offset, pack entries (1 type byte + 2 length bytes + name bytes each) while
they fit in buf_len; returns the final offset and how many were packed. -/
def fillDirents : List Vfs.DirEntry → Nat → Nat → Nat × Nat
  | [], offset, _ => (offset, 0)
  | e :: rest, offset, bufLen =>
    let esz := 1 + 2 + e.name.utf8ByteSize
    if bufLen < offset + esz then (offset, 0)
    else
      let fc := fillDirents rest (offset + esz) bufLen
      (fc.1, fc.2 + 1)

/-- SYS_GETDENTS branch of syscall_handler: a Directory fd packs entries
from its snapshot cursor; any other kind is NotADirectory; the result
collapses with unwrap_or(0). -/
def sys_getdents (table : Vfs.FdTable) (fd : Nat) (bufLen : Nat) : Nat × Vfs.FdTable :=
  let result := with_fd_table table (fun t =>
    match t.get fd with
    | Except.error e => Except.error e
    | Except.ok (Vfs.FdKind.Directory path entries position) =>
      let fc := fillDirents (entries.drop position) 0 bufLen
      Except.ok (fc.1, setFd t fd (Vfs.FdKind.Directory path entries (position + fc.2)))
    | Except.ok _ => Except.error Vfs.VfsError.NotADirectory)
  match result with
  | Except.ok (n, t) => (n % 2 ^ 64, t)
  | Except.error _ => (0, table)

/-- SYS_CLOSE branch of syscall_handler: 0 on success, u64::MAX on error. -/
def sys_close (table : Vfs.FdTable) (fd : Nat) : Nat × Vfs.FdTable :=
  match table.close fd with
  | Except.ok t => (0, t)
  | Except.error _ => (U64_MAX, table)

end Syscall

/-- C1 counterexample: on the fresh fd table, writing to the unused fd 5
fails the fd lookup with InvalidFd, yet SYS_WRITE returns 0 to userland,
not u64::MAX. -/
theorem syscall_write_error_not_u64_max :
    (Syscall.sys_write Vfs.FdTable.new 5 [65]).1 = 0 ∧
      (Syscall.sys_write Vfs.FdTable.new 5 [65]).1 ≠ Syscall.U64_MAX := by
  constructor
  · rfl
  · intro hcontra
    have h0 : (Syscall.sys_write Vfs.FdTable.new 5 [65]).1 = 0 := rfl
    rw [h0] at hcontra
    exact absurd hcontra (by decide)

/-- C1 amended: SYS_WRITE, SYS_READ and SYS_GETDENTS collapse every error of
the fd lookup or of the handle operation to 0 (not u64::MAX), leaving the
table unchanged, while SYS_CLOSE does return u64::MAX on error. -/
theorem syscall_error_collapses_to_zero (table : Vfs.FdTable) (fd bufLen : Nat)
    (buf kbd : List Nat) (e : Vfs.VfsError) (h0 : fd ≠ 0) (h1 : fd ≠ 1) (h2 : fd ≠ 2)
    (hget : table.get fd = Except.error e) :
    Syscall.sys_write table fd buf = (0, table) ∧
    Syscall.sys_read table fd bufLen kbd = (0, table) ∧
    Syscall.sys_getdents table fd bufLen = (0, table) ∧
    (∀ t : Vfs.FdTable, ∀ g : Nat, ∀ h : Vfs.FatFileHandle,
      t.get g = Except.ok (Vfs.FdKind.File h) → g ≠ 1 → g ≠ 2 →
      h.flags.is_writable = false → Syscall.sys_write t g buf = (0, t)) ∧
    (∀ t : Vfs.FdTable, ∀ g : Nat, ∀ e2 : Vfs.VfsError, t.close g = Except.error e2 →
      Syscall.sys_close t g = (Syscall.U64_MAX, t)) := by
  have hcond : (fd == 1 || fd == 2) = false := by simp [h1, h2]
  refine ⟨?_, ?_, ?_, ?_, ?_⟩
  · simp only [Syscall.sys_write, hcond, Bool.false_eq_true, if_false,
      Syscall.with_fd_table, hget]
  · have hcond0 : (fd == 0) = false := by simp [h0]
    simp only [Syscall.sys_read, hcond0, Bool.false_eq_true, if_false,
      Syscall.with_fd_table, hget]
  · simp only [Syscall.sys_getdents, Syscall.with_fd_table, hget]
  · intro t g h hgetg hg1 hg2 hnw
    have hcondg : (g == 1 || g == 2) = false := by simp [hg1, hg2]
    have hwr : h.write buf = Except.error Vfs.VfsError.PermissionDenied := by
      unfold Vfs.FatFileHandle.write
      rw [hnw]
      simp
    simp only [Syscall.sys_write, hcondg, Bool.false_eq_true, if_false,
      Syscall.with_fd_table, hgetg, hwr]
  · intro t g e2 hclose
    simp only [Syscall.sys_close, hclose]

/-- Witness for syscall_error_collapses_to_zero at fd 5 of the fresh table. -/
theorem syscall_error_collapses_to_zero_witness :
    Syscall.sys_write Vfs.FdTable.new 5 [65] = (0, Vfs.FdTable.new) ∧
    Syscall.sys_read Vfs.FdTable.new 5 16 [104, 105] = (0, Vfs.FdTable.new) ∧
    Syscall.sys_getdents Vfs.FdTable.new 5 64 = (0, Vfs.FdTable.new) ∧
    (∀ t : Vfs.FdTable, ∀ g : Nat, ∀ h : Vfs.FatFileHandle,
      t.get g = Except.ok (Vfs.FdKind.File h) → g ≠ 1 → g ≠ 2 →
      h.flags.is_writable = false → Syscall.sys_write t g [65] = (0, t)) ∧
    (∀ t : Vfs.FdTable, ∀ g : Nat, ∀ e2 : Vfs.VfsError, t.close g = Except.error e2 →
      Syscall.sys_close t g = (Syscall.U64_MAX, t)) :=
  syscall_error_collapses_to_zero Vfs.FdTable.new 5 16 [65] [104, 105]
    Vfs.VfsError.InvalidFd (by decide) (by decide) (by decide) (by rfl)

namespace VfsPath

/-- The split performed by path.split in normalize_path
(src/vcore/src/vfs/mod.rs): list of the slash-separated segments,
empty segments included. -/
def splitSlash : List Char → List (List Char)
  | [] => [[]]
  | c :: rest =>
    if c = '/' then [] :: splitSlash rest
    else
      match splitSlash rest with
      | s :: ss => (c :: s) :: ss
      | [] => [[c]]

/-- The accumulation loop of normalize_path: skip empty and dot segments,
pop on dot-dot, push everything else. -/
def collectParts (segs : List (List Char)) : List (List Char) :=
  segs.foldl (fun acc p =>
    if p = [] ∨ p = ['.'] then acc
    else if p = ['.', '.'] then acc.dropLast
    else acc ++ [p]) []

/-- The reconstruction loop of normalize_path: a bare slash when no parts
remain, otherwise a slash before every part. -/
def renderParts (parts : List (List Char)) : List Char :=
  if parts = [] then ['/']
  else parts.foldl (fun acc p => acc ++ '/' :: p) []

/-- normalize_path of src/vcore/src/vfs/mod.rs. -/
def normalize_path (p : String) : String :=
  ⟨renderParts (collectParts (splitSlash p.data))⟩

/-- resolve_path of src/vcore/src/vfs/mod.rs: absolute paths are normalised
directly, relative ones are appended to the cwd first. -/
def resolve_path (path cwd : String) : String :=
  if path.data.head? = some '/' then normalize_path path
  else
    let full := if cwd.data.getLast? = some '/' then cwd.data else cwd.data ++ ['/']
    normalize_path ⟨full ++ path.data⟩

/-- Whether two consecutive slashes occur in the character list. -/
def hasDoubleSlash : List Char → Bool
  | c :: d :: rest => (c == '/' && d == '/') || hasDoubleSlash (d :: rest)
  | _ => false

/-- Desugared form of renderParts on a non-empty part list. -/
def renderJoin (parts : List (List Char)) : List Char :=
  (parts.map (fun p => '/' :: p)).flatten

theorem splitSlash_slashFree (cs : List Char) : ∀ s ∈ splitSlash cs, '/' ∉ s := by
  induction cs with
  | nil =>
    intro s hs
    simp [splitSlash] at hs
    simp [hs]
  | cons c rest ih =>
    intro s hs
    by_cases hc : c = '/'
    · rw [splitSlash, if_pos hc] at hs
      rcases List.mem_cons.mp hs with rfl | hs
      · simp
      · exact ih s hs
    · rw [splitSlash, if_neg hc] at hs
      cases hr : splitSlash rest with
      | nil =>
        rw [hr] at hs
        simp at hs
        subst hs
        intro hmem
        exact hc ((List.mem_singleton.mp hmem).symm)
      | cons t ts =>
        rw [hr] at hs
        rcases List.mem_cons.mp hs with rfl | hs
        · intro hmem
          rcases List.mem_cons.mp hmem with h | h
          · exact hc h.symm
          · exact ih t (by rw [hr]; exact List.mem_cons_self t ts) h
        · exact ih s (by rw [hr]; exact List.mem_cons_of_mem t hs)

theorem collectParts_aux_good (segs : List (List Char)) (acc : List (List Char))
    (hsf : ∀ s ∈ segs, '/' ∉ s)
    (hacc : ∀ p ∈ acc, p ≠ [] ∧ p ≠ ['.'] ∧ p ≠ ['.', '.'] ∧ '/' ∉ p) :
    ∀ p ∈ segs.foldl (fun acc p =>
        if p = [] ∨ p = ['.'] then acc
        else if p = ['.', '.'] then acc.dropLast
        else acc ++ [p]) acc,
      p ≠ [] ∧ p ≠ ['.'] ∧ p ≠ ['.', '.'] ∧ '/' ∉ p := by
  induction segs generalizing acc with
  | nil => intro p hp; exact hacc p hp
  | cons s rest ih =>
    intro p hp
    simp only [List.foldl_cons] at hp
    by_cases h1 : s = [] ∨ s = ['.']
    · rw [if_pos h1] at hp
      exact ih acc (fun q hq => hsf q (List.mem_cons_of_mem s hq)) hacc p hp
    · rw [if_neg h1] at hp
      by_cases h2 : s = ['.', '.']
      · rw [if_pos h2] at hp
        exact ih acc.dropLast (fun q hq => hsf q (List.mem_cons_of_mem s hq))
          (fun q hq => hacc q (List.mem_of_mem_dropLast hq)) p hp
      · rw [if_neg h2] at hp
        refine ih (acc ++ [s]) (fun q hq => hsf q (List.mem_cons_of_mem s hq)) ?_ p hp
        intro q hq
        rcases List.mem_append.mp hq with hq | hq
        · exact hacc q hq
        · simp at hq
          subst hq
          push_neg at h1
          exact ⟨h1.1, h1.2, h2, hsf q (List.mem_cons_self q rest)⟩

theorem collectParts_good (segs : List (List Char)) (hsf : ∀ s ∈ segs, '/' ∉ s) :
    ∀ p ∈ collectParts segs, p ≠ [] ∧ p ≠ ['.'] ∧ p ≠ ['.', '.'] ∧ '/' ∉ p :=
  collectParts_aux_good segs [] hsf (by intro p hp; simp at hp)

theorem foldl_render (parts : List (List Char)) (acc : List Char) :
    parts.foldl (fun a q => a ++ '/' :: q) acc = acc ++ renderJoin parts := by
  induction parts generalizing acc with
  | nil => simp [renderJoin]
  | cons p ps ih =>
    simp only [List.foldl_cons, ih, renderJoin, List.map_cons, List.flatten_cons]
    simp

theorem splitSlash_append (p xs : List Char) (hp : '/' ∉ p) (s : List Char)
    (ss : List (List Char)) (hxs : splitSlash xs = s :: ss) :
    splitSlash (p ++ xs) = (p ++ s) :: ss := by
  induction p with
  | nil => simpa using hxs
  | cons c p' ih =>
    have hc : c ≠ '/' := fun hcc => hp (by rw [hcc]; exact List.mem_cons_self _ _)
    have hp' : '/' ∉ p' := fun hmem => hp (List.mem_cons_of_mem c hmem)
    rw [List.cons_append, splitSlash, if_neg hc, ih hp']
    rfl

theorem splitSlash_renderJoin (parts : List (List Char))
    (hgood : ∀ q ∈ parts, q ≠ [] ∧ '/' ∉ q) (hne : parts ≠ []) :
    splitSlash (renderJoin parts) = [] :: parts := by
  induction parts with
  | nil => exact absurd rfl hne
  | cons p ps ih =>
    have hjoin : renderJoin (p :: ps) = '/' :: (p ++ renderJoin ps) := by
      simp [renderJoin]
    rw [hjoin, splitSlash, if_pos rfl]
    have hpns : '/' ∉ p := (hgood p (List.mem_cons_self p ps)).2
    cases hps : ps with
    | nil =>
      have : renderJoin ([] : List (List Char)) = [] := by simp [renderJoin]
      rw [splitSlash_append p (renderJoin ([] : List (List Char))) hpns [] []
        (by rw [this]; rfl)]
      simp
    | cons r rs =>
      rw [← hps]
      have hih : splitSlash (renderJoin ps) = [] :: ps := by
        refine ih (fun q hq => hgood q (List.mem_cons_of_mem p hq)) ?_
        rw [hps]; simp
      rw [splitSlash_append p (renderJoin ps) hpns [] ps hih]
      simp

theorem hasDoubleSlash_append (p rest : List Char) (hp : '/' ∉ p)
    (hr : hasDoubleSlash rest = false) : hasDoubleSlash (p ++ rest) = false := by
  induction p with
  | nil => simpa using hr
  | cons c p' ih =>
    have hc : c ≠ '/' := fun hcc => hp (by rw [hcc]; exact List.mem_cons_self _ _)
    have hp' : '/' ∉ p' := fun hmem => hp (List.mem_cons_of_mem c hmem)
    have htail : hasDoubleSlash (p' ++ rest) = false := ih hp'
    cases hpr : p' ++ rest with
    | nil =>
      rw [List.cons_append, hpr]
      rfl
    | cons d ds =>
      rw [List.cons_append, hpr, hasDoubleSlash]
      rw [hpr] at htail
      simp [htail, hc]

theorem renderJoin_noDoubleSlash (parts : List (List Char))
    (hgood : ∀ q ∈ parts, q ≠ [] ∧ '/' ∉ q) :
    hasDoubleSlash (renderJoin parts) = false := by
  induction parts with
  | nil => simp [renderJoin, hasDoubleSlash]
  | cons p ps ih =>
    obtain ⟨hpne, hpns⟩ := hgood p (List.mem_cons_self p ps)
    obtain ⟨c, p', rfl⟩ := List.exists_cons_of_ne_nil hpne
    have hjoin : renderJoin ((c :: p') :: ps) = '/' :: ((c :: p') ++ renderJoin ps) := by
      simp [renderJoin]
    have htail : hasDoubleSlash ((c :: p') ++ renderJoin ps) = false :=
      hasDoubleSlash_append (c :: p') (renderJoin ps) hpns
        (ih fun q hq => hgood q (List.mem_cons_of_mem _ hq))
    have hc : c ≠ '/' := fun hcc => hpns (by rw [hcc]; exact List.mem_cons_self _ _)
    rw [hjoin, List.cons_append, hasDoubleSlash]
    rw [List.cons_append] at htail
    simp [htail, hc]

end VfsPath

/-- C7: for every input string P, normalize_path(P) begins with a slash,
contains no double slash (hence no empty segment), and none of its
slash-separated segments is a dot or a dot-dot. -/
theorem normalize_path_well_formed (p : String) :
    (VfsPath.normalize_path p).data.head? = some '/' ∧
    VfsPath.hasDoubleSlash (VfsPath.normalize_path p).data = false ∧
    ∀ s ∈ VfsPath.splitSlash (VfsPath.normalize_path p).data,
      s ≠ ['.'] ∧ s ≠ ['.', '.'] := by
  have hsf := VfsPath.splitSlash_slashFree p.data
  have hgood := VfsPath.collectParts_good (VfsPath.splitSlash p.data) hsf
  have hdata : (VfsPath.normalize_path p).data
      = VfsPath.renderParts (VfsPath.collectParts (VfsPath.splitSlash p.data)) := rfl
  cases hparts : VfsPath.collectParts (VfsPath.splitSlash p.data) with
  | nil =>
    rw [hdata, hparts]
    refine ⟨rfl, rfl, ?_⟩
    intro s hs
    have : VfsPath.splitSlash (VfsPath.renderParts []) = [[], []] := rfl
    rw [this] at hs
    rcases List.mem_cons.mp hs with rfl | hs
    · exact ⟨by decide, by decide⟩
    · simp at hs; subst hs; exact ⟨by decide, by decide⟩
  | cons q qs =>
    have hgood' : ∀ r ∈ q :: qs, r ≠ [] ∧ '/' ∉ r := by
      intro r hr
      have := hgood r (by rw [hparts]; exact hr)
      exact ⟨this.1, this.2.2.2⟩
    have hrender : VfsPath.renderParts (q :: qs) = VfsPath.renderJoin (q :: qs) := by
      rw [VfsPath.renderParts, if_neg (by simp)]
      simpa using VfsPath.foldl_render (q :: qs) []
    rw [hdata, hparts, hrender]
    refine ⟨?_, ?_, ?_⟩
    · have : VfsPath.renderJoin (q :: qs) = '/' :: (q ++ VfsPath.renderJoin qs) := by
        simp [VfsPath.renderJoin]
      rw [this]; rfl
    · exact VfsPath.renderJoin_noDoubleSlash (q :: qs) hgood'
    · rw [VfsPath.splitSlash_renderJoin (q :: qs) hgood' (by simp)]
      intro s hs
      rcases List.mem_cons.mp hs with rfl | hs
      · exact ⟨by decide, by decide⟩
      · have := hgood s (by rw [hparts]; exact hs)
        exact ⟨this.2.1, this.2.2.1⟩

namespace VfsMount

/-- One entry of the VFS mount table (src/vcore/src/vfs/mod.rs): the
normalised mount path and a numeric tag standing for the boxed filesystem
object. -/
structure Mount where
  path : List Char
  fs : Nat
  deriving DecidableEq, Repr

/-- Rust str::starts_with on character lists: the first list begins with
the second. -/
def startsWithList : List Char → List Char → Bool
  | _, [] => true
  | [], _ :: _ => false
  | c :: cs, d :: ds => c == d && startsWithList cs ds

/-- The descending mount-path-length order of Vfs::mount's sort_by. -/
def byLenDesc (a b : Mount) : Prop := b.path.length ≤ a.path.length

instance : DecidableRel byLenDesc := fun _ _ => Nat.decLe _ _

instance : IsTotal Mount byLenDesc := ⟨fun a b => Nat.le_total b.path.length a.path.length⟩

instance : IsTrans Mount byLenDesc := ⟨fun _ _ _ hab hbc => le_trans hbc hab⟩

/-- Vfs::mount: normalise the path, reject duplicates, push the new mount
and re-sort the table by path length descending. -/
def mount (ms : List Mount) (path : String) (fsId : Nat) : Vfs.VfsResult (List Mount) :=
  let p := (VfsPath.normalize_path path).data
  if ms.any (fun m => m.path == p) then Except.error Vfs.VfsError.AlreadyExists
  else Except.ok (List.insertionSort byLenDesc (ms ++ [Mount.mk p fsId]))

/-- The scan of Vfs::resolve over the mount list, on a normalised path:
a root mount matches everything with the whole path; an exact match yields
the root subpath; a prefix match whose remainder begins with a slash yields
that remainder; anything else continues down the list. -/
def resolveScan : List Mount → List Char → Option (Mount × List Char)
  | [], _ => none
  | m :: rest, p =>
    if m.path = ['/'] then some (m, p)
    else if p = m.path then some (m, ['/'])
    else if startsWithList p m.path then
      let r := p.drop m.path.length
      if r = [] ∨ r = ['/'] then some (m, ['/'])
      else if r.head? = some '/' then some (m, r)
      else resolveScan rest p
    else resolveScan rest p

/-- Vfs::resolve: normalise, then take the first matching mount. -/
def resolve (ms : List Mount) (path : String) : Vfs.VfsResult (Mount × List Char) :=
  match resolveScan ms (VfsPath.normalize_path path).data with
  | some r => Except.ok r
  | none => Except.error Vfs.VfsError.NotFound

/-- Vfs::mount leaves the table sorted by path length descending. -/
theorem mount_sorted (ms : List Mount) (path : String) (fsId : Nat) (ms' : List Mount)
    (h : mount ms path fsId = Except.ok ms') : List.Pairwise byLenDesc ms' := by
  unfold mount at h
  by_cases hdup : ms.any (fun m =>
      m.path == (VfsPath.normalize_path path).data) = true
  · rw [if_pos hdup] at h
    exact absurd h (by simp)
  · rw [if_neg hdup] at h
    have := List.sorted_insertionSort byLenDesc
      (ms ++ [Mount.mk (VfsPath.normalize_path path).data fsId])
    cases h
    exact this

theorem startsWithList_drop (q p : List Char) (h : startsWithList p q = true) :
    q ++ p.drop q.length = p := by
  induction q generalizing p with
  | nil => simp
  | cons d ds ih =>
    cases p with
    | nil => simp [startsWithList] at h
    | cons c cs =>
      simp [startsWithList] at h
      obtain ⟨rfl, hsw⟩ := h
      simpa using ih cs hsw

theorem startsWithList_append_left (q r p : List Char)
    (h : startsWithList p (q ++ r) = true) : startsWithList p q = true := by
  induction q generalizing p with
  | nil => cases p <;> rfl
  | cons d ds ih =>
    cases p with
    | nil => simp [startsWithList] at h
    | cons c cs =>
      simp [startsWithList] at h ⊢
      exact ⟨h.1, ih cs h.2⟩

theorem startsWithList_slash_head (q p : List Char)
    (h : startsWithList p (q ++ ['/']) = true) :
    (p.drop q.length).head? = some '/' := by
  induction q generalizing p with
  | nil =>
    cases p with
    | nil => simp [startsWithList] at h
    | cons c cs =>
      simp [startsWithList] at h
      simp [h]
  | cons d ds ih =>
    cases p with
    | nil => simp [startsWithList] at h
    | cons c cs =>
      simp [startsWithList] at h
      simpa using ih cs h.2

end VfsMount

/-- C4 counterexample: with mounts /, /a and /a/b present, take M1 = the
root mount and M2 = the /a mount; M1.path is a proper parent of M2.path and
the path /a/b/c is under M2's path, yet resolution dispatches to the deeper
/a/b mount, not to M2. -/
theorem mount_resolution_counterexample :
    VfsMount.resolve
        [⟨"/a/b".data, 3⟩, ⟨"/a".data, 2⟩, ⟨"/".data, 1⟩] "/a/b/c"
      = Except.ok (⟨"/a/b".data, 3⟩, "/c".data) ∧
    (⟨"/a/b".data, 3⟩ : VfsMount.Mount) ≠ ⟨"/a".data, 2⟩ := by
  exact ⟨by rfl, by decide⟩

/-- C4 amended: in a mount table sorted by path length descending, for every
mount M2 and every path equal to or under M2's path, the scan stops at a
mount at least as deep as M2 — so never at any mount M1 whose path is a
proper (hence shorter) prefix of M2's path — and the returned subpath is
rooted at the mount that matched. -/
theorem mount_resolution_never_parent (ms : List VfsMount.Mount) (m2 : VfsMount.Mount)
    (p : List Char) (hsorted : List.Pairwise VfsMount.byLenDesc ms) (hm2 : m2 ∈ ms)
    (hunder : p = m2.path ∨ VfsMount.startsWithList p (m2.path ++ ['/']) = true) :
    ∃ m r, VfsMount.resolveScan ms p = some (m, r) ∧
      m2.path.length ≤ m.path.length ∧
      (∀ m1 : VfsMount.Mount, m1.path.length < m2.path.length → m ≠ m1) ∧
      ((m.path = ['/'] ∧ r = p) ∨ r = ['/'] ∨ m.path ++ r = p) := by
  induction ms with
  | nil => simp at hm2
  | cons m rest ih =>
    have hlen_ne : ∀ mm : VfsMount.Mount, m2.path.length ≤ mm.path.length →
        ∀ m1 : VfsMount.Mount, m1.path.length < m2.path.length → mm ≠ m1 := by
      intro mm hle m1 hlt heq
      rw [heq] at hle
      exact absurd (lt_of_lt_of_le hlt hle) (lt_irrefl _)
    rcases List.mem_cons.mp hm2 with rfl | hm2rest
    · -- m2 is the head of the list: the scan matches here
      by_cases hroot : m2.path = ['/']
      · refine ⟨m2, p, ?_, le_refl _, hlen_ne m2 (le_refl _), Or.inl ⟨hroot, rfl⟩⟩
        simp only [VfsMount.resolveScan, if_pos hroot]
      · by_cases heq : p = m2.path
        · refine ⟨m2, ['/'], ?_, le_refl _, hlen_ne m2 (le_refl _), Or.inr (Or.inl rfl)⟩
          simp only [VfsMount.resolveScan, if_neg hroot, if_pos heq]
        · have hsw2 : VfsMount.startsWithList p (m2.path ++ ['/']) = true := by
            rcases hunder with h | h
            · exact absurd h heq
            · exact h
          have hsw : VfsMount.startsWithList p m2.path = true :=
            VfsMount.startsWithList_append_left m2.path ['/'] p hsw2
          have hhead : (p.drop m2.path.length).head? = some '/' :=
            VfsMount.startsWithList_slash_head m2.path p hsw2
          by_cases htriv : p.drop m2.path.length = [] ∨ p.drop m2.path.length = ['/']
          · refine ⟨m2, ['/'], ?_, le_refl _, hlen_ne m2 (le_refl _), Or.inr (Or.inl rfl)⟩
            simp only [VfsMount.resolveScan, if_neg hroot, if_neg heq, if_pos hsw,
              if_pos htriv]
          · refine ⟨m2, p.drop m2.path.length, ?_, le_refl _, hlen_ne m2 (le_refl _),
              Or.inr (Or.inr (VfsMount.startsWithList_drop m2.path p hsw))⟩
            simp only [VfsMount.resolveScan, if_neg hroot, if_neg heq, if_pos hsw,
              if_neg htriv, if_pos hhead]
    · -- m2 is further down: the head is at least as long as m2
      have hmlong : m2.path.length ≤ m.path.length :=
        (List.pairwise_cons.mp hsorted).1 m2 hm2rest
      have htail : List.Pairwise VfsMount.byLenDesc rest :=
        (List.pairwise_cons.mp hsorted).2
      by_cases hroot : m.path = ['/']
      · exact ⟨m, p, by simp only [VfsMount.resolveScan, if_pos hroot], hmlong,
          hlen_ne m hmlong, Or.inl ⟨hroot, rfl⟩⟩
      · by_cases heq : p = m.path
        · exact ⟨m, ['/'], by simp only [VfsMount.resolveScan, if_neg hroot, if_pos heq],
            hmlong, hlen_ne m hmlong, Or.inr (Or.inl rfl)⟩
        · by_cases hsw : VfsMount.startsWithList p m.path = true
          · by_cases htriv : p.drop m.path.length = [] ∨ p.drop m.path.length = ['/']
            · exact ⟨m, ['/'], by simp only [VfsMount.resolveScan, if_neg hroot,
                if_neg heq, if_pos hsw, if_pos htriv], hmlong, hlen_ne m hmlong,
                Or.inr (Or.inl rfl)⟩
            · by_cases hhead : (p.drop m.path.length).head? = some '/'
              · exact ⟨m, p.drop m.path.length, by simp only [VfsMount.resolveScan,
                  if_neg hroot, if_neg heq, if_pos hsw, if_neg htriv, if_pos hhead],
                  hmlong, hlen_ne m hmlong,
                  Or.inr (Or.inr (VfsMount.startsWithList_drop m.path p hsw))⟩
              · obtain ⟨mm, r, hscan, hle, hne, hsub⟩ := ih htail hm2rest
                exact ⟨mm, r, by simp only [VfsMount.resolveScan, if_neg hroot,
                  if_neg heq, if_pos hsw, if_neg htriv, if_neg hhead]; exact hscan,
                  hle, hne, hsub⟩
          · obtain ⟨mm, r, hscan, hle, hne, hsub⟩ := ih htail hm2rest
            refine ⟨mm, r, ?_, hle, hne, hsub⟩
            simp only [VfsMount.resolveScan, if_neg hroot, if_neg heq]
            rw [if_neg (by simpa using hsw)]
            exact hscan

/-- Witness for mount_resolution_never_parent on the three-mount table. -/
theorem mount_resolution_never_parent_witness :
    ∃ m r, VfsMount.resolveScan
        [⟨"/a/b".data, 3⟩, ⟨"/a".data, 2⟩, ⟨"/".data, 1⟩] "/a/b/c".data = some (m, r) ∧
      ("/a".data : List Char).length ≤ m.path.length ∧
      (∀ m1 : VfsMount.Mount, m1.path.length < ("/a".data : List Char).length → m ≠ m1) ∧
      ((m.path = ['/'] ∧ r = "/a/b/c".data) ∨ r = ['/'] ∨ m.path ++ r = "/a/b/c".data) :=
  mount_resolution_never_parent
    [⟨"/a/b".data, 3⟩, ⟨"/a".data, 2⟩, ⟨"/".data, 1⟩] ⟨"/a".data, 2⟩ "/a/b/c".data
    (by decide) (by decide) (by decide)

namespace Sched

/-- Task states of src/vcore/src/sched/task.rs. -/
inductive TaskState where
  | Ready
  | Running
  | Sleeping
  | Dead
  deriving DecidableEq, Repr

/-- The queue-relevant fields of Task (src/vcore/src/sched/task.rs): id,
state and wake tick.  The stack pointer, mode, entry addresses and owned
stack do not influence the queue transitions. -/
structure Task where
  id : Nat
  state : TaskState
  wake_at : Option Nat
  deriving DecidableEq, Repr

/-- Default for out-of-range getD reads (never hit on real states). -/
def noTask : Task := { id := 0, state := TaskState.Dead, wake_at := none }

/-- Scheduler of src/vcore/src/sched/mod.rs: run queue plus current index. -/
structure Scheduler where
  tasks : List Task
  current : Nat
  deriving DecidableEq, Repr

/-- Task::kernel_task(): the initial Running kernel task. -/
def kernel_task : Task := { id := 0, state := TaskState.Running, wake_at := none }

/-- sched::init(): a queue holding only the kernel task. -/
def init : Scheduler := { tasks := [kernel_task], current := 0 }

/-- Scheduler::add_task via spawn / spawn_user / spawn_elf: tasks created by
Task::new and Task::new_user enter the queue Ready. -/
def add_task (s : Scheduler) (id : Nat) : Scheduler :=
  { s with tasks := s.tasks ++ [{ id := id, state := TaskState.Ready, wake_at := none }] }

/-- The downward loop of Scheduler::reap_dead: process index i-1, ..., 0,
removing each Dead non-current task and shifting current down when the
removal was below it. -/
def reapLoop : Scheduler → Nat → Scheduler
  | s, 0 => s
  | s, i + 1 =>
    if i ≠ s.current ∧ (s.tasks.getD i noTask).state = TaskState.Dead then
      reapLoop { tasks := s.tasks.eraseIdx i,
                 current := if i < s.current then s.current - 1 else s.current } i
    else reapLoop s i

/-- Scheduler::reap_dead: walk from the top removing Dead tasks, never the
current one. -/
def reap_dead (s : Scheduler) : Scheduler := reapLoop s s.tasks.length

/-- The wake pass of schedule(): a Sleeping task whose wake tick has been
reached becomes Ready with its wake tick cleared. -/
def wakeTask (tick : Nat) (t : Task) : Task :=
  if t.state = TaskState.Sleeping then
    match t.wake_at with
    | some w => if w ≤ tick then { t with state := TaskState.Ready, wake_at := none } else t
    | none => t
  else t

/-- Scheduler::next_ready: probe (current+i) mod len for i = 1..=len and
return the first index holding a Ready task (fuel = probes left). -/
def nextReadyScan (tasks : List Task) (cur : Nat) : Nat → Nat → Option Nat
  | _, 0 => none
  | i, fuel + 1 =>
    let idx := (cur + i) % tasks.length
    if (tasks.getD idx noTask).state = TaskState.Ready then some idx
    else nextReadyScan tasks cur (i + 1) fuel

def next_ready (s : Scheduler) : Option Nat :=
  nextReadyScan s.tasks s.current 1 s.tasks.length

/-- The switch step of schedule() once next_ready produced an index: demote
a still-Running current task to Ready, promote the pick to Running, and
move current to it. -/
def pickNext (s2 : Scheduler) (next : Nat) : Scheduler :=
  let cur := s2.current
  let curReady : Task := { s2.tasks.getD cur noTask with state := TaskState.Ready }
  let t1 := if (s2.tasks.getD cur noTask).state = TaskState.Running
    then s2.tasks.set cur curReady
    else s2.tasks
  let nextRun : Task := { t1.getD next noTask with state := TaskState.Running }
  { tasks := t1.set next nextRun, current := next }

/-- schedule() of src/vcore/src/sched/mod.rs at a given tick: reap, wake,
pick the next Ready task and switch to it; if none is Ready the queue is
left as the reap and wake passes produced it.  The context switch itself
does not change the queue. -/
def schedule (s : Scheduler) (tick : Nat) : Scheduler :=
  let s1 := reap_dead s
  let s2 : Scheduler := { tasks := s1.tasks.map (wakeTask tick), current := s1.current }
  match next_ready s2 with
  | none => s2
  | some next => pickNext s2 next

/-- sched::sleep: mark the current task Sleeping with wake tick now+ticks,
then schedule (the scheduler may read a later tick, hence tick2). -/
def sleep (s : Scheduler) (ticks tick tick2 : Nat) : Scheduler :=
  let t := s.tasks.getD s.current noTask
  let t2 : Task := { t with wake_at := some (tick + ticks), state := TaskState.Sleeping }
  schedule { s with tasks := s.tasks.set s.current t2 } tick2

/-- sched::exit: mark the current task Dead, then schedule. -/
def exit (s : Scheduler) (tick : Nat) : Scheduler :=
  let t := s.tasks.getD s.current noTask
  let t2 : Task := { t with state := TaskState.Dead }
  schedule { s with tasks := s.tasks.set s.current t2 } tick

/-- The operations of the claim: add_task, schedule, sleep, exit. -/
inductive Op where
  | add (id : Nat)
  | schedule (tick : Nat)
  | sleep (ticks tick tick2 : Nat)
  | exit (tick : Nat)
  deriving DecidableEq, Repr

def applyOp (s : Scheduler) : Op → Scheduler
  | Op.add id => add_task s id
  | Op.schedule tick => schedule s tick
  | Op.sleep ticks tick tick2 => sleep s ticks tick tick2
  | Op.exit tick => exit s tick

/-- The stable state reached by a sequence of operations from init (every
operation runs inside the interrupts-disabled critical section, so the
states between operations are exactly the stable points). -/
def run (ops : List Op) : Scheduler := ops.foldl applyOp init

/-- Number of Running tasks in a queue. -/
def countRunning (tasks : List Task) : Nat :=
  (tasks.filter (fun t => t.state == TaskState.Running)).length

/-- Only the task at index current may be Running. -/
def OnlyCurrentRuns (s : Scheduler) : Prop :=
  ∀ j, j ≠ s.current → (s.tasks.getD j noTask).state ≠ TaskState.Running

theorem getD_set_ne (l : List Task) (i j : Nat) (a : Task) (h : i ≠ j) :
    (l.set i a).getD j noTask = l.getD j noTask := by
  simp [List.getD_eq_getElem?_getD, List.getElem?_set_ne h]

theorem getD_eraseIdx (l : List Task) (i j : Nat) :
    (l.eraseIdx i).getD j noTask
      = if j < i then l.getD j noTask else l.getD (j + 1) noTask := by
  rw [List.getD_eq_getElem?_getD, List.getElem?_eraseIdx]
  split <;> rw [List.getD_eq_getElem?_getD]

theorem wakeTask_not_running (tick : Nat) (t : Task)
    (h : t.state ≠ TaskState.Running) : (wakeTask tick t).state ≠ TaskState.Running := by
  unfold wakeTask
  split
  · split
    · split
      · simp
      · exact h
    · exact h
  · exact h

theorem reapStep_inv (s : Scheduler) (i : Nat) (hi : i ≠ s.current)
    (hinv : OnlyCurrentRuns s) :
    OnlyCurrentRuns { tasks := s.tasks.eraseIdx i,
                      current := if i < s.current then s.current - 1 else s.current } := by
  intro j hj
  show ((s.tasks.eraseIdx i).getD j noTask).state ≠ TaskState.Running
  replace hj : j ≠ (if i < s.current then s.current - 1 else s.current) := hj
  rw [getD_eraseIdx]
  by_cases hji : j < i
  · rw [if_pos hji]
    refine hinv j ?_
    intro hjc
    subst hjc
    by_cases hic : i < s.current
    · omega
    · rw [if_neg hic] at hj
      exact hj rfl
  · rw [if_neg hji]
    refine hinv (j + 1) ?_
    intro hjc
    have hij : i < s.current := by omega
    rw [if_pos hij] at hj
    omega

theorem reapLoop_inv (i : Nat) (s : Scheduler) (hinv : OnlyCurrentRuns s) :
    OnlyCurrentRuns (reapLoop s i) := by
  induction i generalizing s with
  | zero => exact hinv
  | succ i ih =>
    rw [reapLoop]
    split
    · next hcond => exact ih _ (reapStep_inv s i hcond.1 hinv)
    · exact ih s hinv

theorem wakeMap_inv (s : Scheduler) (tick : Nat) (hinv : OnlyCurrentRuns s) :
    OnlyCurrentRuns { tasks := s.tasks.map (wakeTask tick), current := s.current } := by
  intro j hj
  show ((s.tasks.map (wakeTask tick)).getD j noTask).state ≠ TaskState.Running
  replace hj : j ≠ s.current := hj
  rw [List.getD_eq_getElem?_getD, List.getElem?_map]
  cases hx : s.tasks[j]? with
  | none => simp [noTask]
  | some x =>
    show (wakeTask tick x).state ≠ TaskState.Running
    refine wakeTask_not_running tick x ?_
    have hx2 := hinv j hj
    rw [List.getD_eq_getElem?_getD, hx] at hx2
    simpa using hx2

theorem switch_inv (tasks : List Task) (cur next j : Nat) (a : Task)
    (hinv : ∀ k, k ≠ cur → (tasks.getD k noTask).state ≠ TaskState.Running)
    (hj : j ≠ next) :
    (((if (tasks.getD cur noTask).state = TaskState.Running
        then tasks.set cur ({ tasks.getD cur noTask with state := TaskState.Ready })
        else tasks).set next a).getD j noTask).state ≠ TaskState.Running := by
  rw [getD_set_ne _ _ _ _ (fun he => hj he.symm)]
  split
  · next hrun =>
    by_cases hjc : j = cur
    · subst hjc
      by_cases hlen : j < tasks.length
      · rw [List.getD_eq_getElem?_getD, List.getElem?_set_self hlen]
        simp
      · rw [List.set_eq_of_length_le (Nat.le_of_not_lt hlen)]
        rw [List.getD_eq_getElem?_getD, List.getElem?_eq_none (Nat.le_of_not_lt hlen)]
        simp [noTask]
    · rw [getD_set_ne _ _ _ _ (fun he => hjc he.symm)]
      exact hinv j hjc
  · next hrun =>
    by_cases hjc : j = cur
    · subst hjc
      exact hrun
    · exact hinv j hjc

theorem pickNext_inv (s2 : Scheduler) (next : Nat) (hinv : OnlyCurrentRuns s2) :
    OnlyCurrentRuns (pickNext s2 next) := by
  intro j hj
  exact switch_inv s2.tasks s2.current next j _ hinv hj

theorem schedule_inv (s : Scheduler) (tick : Nat) (hinv : OnlyCurrentRuns s) :
    OnlyCurrentRuns (schedule s tick) := by
  have h2 : OnlyCurrentRuns ({ tasks := (reap_dead s).tasks.map (wakeTask tick),
                               current := (reap_dead s).current } : Scheduler) :=
    wakeMap_inv (reap_dead s) tick (reapLoop_inv _ s hinv)
  simp only [schedule]
  cases hnr : next_ready { tasks := (reap_dead s).tasks.map (wakeTask tick),
                           current := (reap_dead s).current } with
  | none => exact h2
  | some next => exact pickNext_inv _ next h2

theorem setCurrent_inv (s : Scheduler) (a : Task) (hinv : OnlyCurrentRuns s) :
    OnlyCurrentRuns { tasks := s.tasks.set s.current a, current := s.current } := by
  intro j hj
  replace hj : j ≠ s.current := hj
  show ((s.tasks.set s.current a).getD j noTask).state ≠ TaskState.Running
  rw [getD_set_ne _ _ _ _ (fun he => hj he.symm)]
  exact hinv j hj

theorem addTask_inv (s : Scheduler) (id : Nat) (hinv : OnlyCurrentRuns s) :
    OnlyCurrentRuns (add_task s id) := by
  intro j hj
  replace hj : j ≠ s.current := hj
  show ((s.tasks ++ [({ id := id, state := TaskState.Ready, wake_at := none } : Task)]).getD
    j noTask).state ≠ TaskState.Running
  rw [List.getD_eq_getElem?_getD, List.getElem?_append]
  split
  · next hlt =>
    rw [← List.getD_eq_getElem?_getD]
    exact hinv j hj
  · next hge =>
    cases hjl : j - s.tasks.length with
    | zero => simp
    | succ n => simp [noTask]

theorem applyOp_inv (s : Scheduler) (op : Op) (hinv : OnlyCurrentRuns s) :
    OnlyCurrentRuns (applyOp s op) := by
  cases op with
  | add id => exact addTask_inv s id hinv
  | schedule tick => exact schedule_inv s tick hinv
  | sleep ticks tick tick2 =>
    exact schedule_inv _ tick2 (setCurrent_inv s
      ({ s.tasks.getD s.current noTask with
          wake_at := some (tick + ticks), state := TaskState.Sleeping }) hinv)
  | exit tick =>
    exact schedule_inv _ tick (setCurrent_inv s
      ({ s.tasks.getD s.current noTask with state := TaskState.Dead }) hinv)

theorem init_inv : OnlyCurrentRuns init := by
  intro j hj
  replace hj : j ≠ 0 := hj
  cases j with
  | zero => exact absurd rfl hj
  | succ n =>
    show (([kernel_task] : List Task).getD (n + 1) noTask).state ≠ TaskState.Running
    have hg : ([kernel_task] : List Task).getD (n + 1) noTask = noTask := rfl
    rw [hg]
    simp [noTask]

theorem run_inv (ops : List Op) : OnlyCurrentRuns (run ops) := by
  unfold run
  have hfold : ∀ s, OnlyCurrentRuns s → OnlyCurrentRuns (ops.foldl applyOp s) := by
    induction ops with
    | nil => intro s hs; exact hs
    | cons op rest ih =>
      intro s hs
      exact ih _ (applyOp_inv s op hs)
  exact hfold init init_inv

theorem countRunning_cons (t : Task) (rest : List Task) :
    countRunning (t :: rest)
      = (if t.state = TaskState.Running then 1 else 0) + countRunning rest := by
  simp only [countRunning, List.filter_cons]
  split
  · next hb =>
    rw [if_pos (by simpa using hb)]
    simp [Nat.add_comm]
  · next hb =>
    rw [if_neg (by simpa using hb)]
    simp

theorem countRunning_zero (l : List Task)
    (h : ∀ j, (l.getD j noTask).state ≠ TaskState.Running) : countRunning l = 0 := by
  induction l with
  | nil => rfl
  | cons t rest ih =>
    have ht : t.state ≠ TaskState.Running := h 0
    rw [countRunning_cons, if_neg ht, ih (fun j => h (j + 1))]

theorem countRunning_le_one (l : List Task) (c : Nat)
    (h : ∀ j, j ≠ c → (l.getD j noTask).state ≠ TaskState.Running) :
    countRunning l ≤ 1 := by
  induction l generalizing c with
  | nil => exact Nat.zero_le 1
  | cons t rest ih =>
    cases c with
    | zero =>
      have hrest : countRunning rest = 0 :=
        countRunning_zero rest (fun j => h (j + 1) (Nat.succ_ne_zero j))
      rw [countRunning_cons, hrest]
      split <;> simp
    | succ c' =>
      have ht : t.state ≠ TaskState.Running := h 0 (Ne.symm (Nat.succ_ne_zero c'))
      have hrest : countRunning rest ≤ 1 :=
        ih c' (fun j hj => h (j + 1) (fun he => hj (Nat.succ_injective he)))
      rw [countRunning_cons, if_neg ht]
      simpa using hrest

end Sched

/-- C3 counterexample: starting from the initial state (only the kernel
task, Running), the single operation sleep(5) at tick 0 reaches a stable
point with zero Running tasks — next_ready finds nothing to switch to and
the sleeping task stays current — refuting that exactly one task is always
Running. -/
theorem sched_zero_running_reachable :
    Sched.countRunning (Sched.run [Sched.Op.sleep 5 0 0]).tasks = 0 := by decide

/-- C3 amended: at every stable point reachable from the initial state by
add_task, schedule, sleep and exit, at most one task in the queue is
Running — only the task at the current index can be Running — and zero
Running tasks occurs when the current task sleeps or exits with no other
Ready task. -/
theorem sched_at_most_one_running (ops : List Sched.Op) :
    Sched.countRunning (Sched.run ops).tasks ≤ 1 ∧
    ∀ j, j ≠ (Sched.run ops).current →
      ((Sched.run ops).tasks.getD j Sched.noTask).state ≠ Sched.TaskState.Running := by
  have hinv := Sched.run_inv ops
  exact ⟨Sched.countRunning_le_one (Sched.run ops).tasks (Sched.run ops).current hinv, hinv⟩

namespace Fat32

def FAT32_EOC : Nat := 0x0FFFFFF8

def FAT32_FREE : Nat := 0x00000000

def FAT32_BAD : Nat := 0x0FFFFFF7

/-- Disk state of Fat32Inner (src/vcore/src/vfs/fat32.rs) restricted to what
cluster-chain I/O touches: the FAT (one 32-bit entry per cluster index, all
FAT copies kept identical by set_fat_entry) and the data region (one byte
list per cluster).  Sector I/O in the source always moves whole clusters
and whole FAT entries, so the model works at that granularity; clusterSize
is bpb.bytes_per_cluster() and the allocate scan bound total_clusters()+2
is the FAT length. -/
structure Disk where
  fat : List Nat
  data : List (List Nat)
  clusterSize : Nat
  deriving DecidableEq, Repr

/-- get_fat_entry: read the entry and mask to the low 28 bits. -/
def get_fat_entry (d : Disk) (c : Nat) : Nat := d.fat.getD c 0 &&& 0x0FFFFFFF

/-- set_fat_entry: write the low 28 bits, preserving the upper four
reserved bits of whatever resides there. -/
def set_fat_entry (d : Disk) (c : Nat) (v : Nat) : Disk :=
  { d with fat := d.fat.set c ((d.fat.getD c 0 &&& 0xF0000000) ||| (v &&& 0x0FFFFFFF)) }

/-- Zero-padding to the cluster size.  The block device always returns
whole sectors, so cluster reads are fixed-size. -/
def padTo (n : Nat) (l : List Nat) : List Nat :=
  l.take n ++ List.replicate (n - l.length) 0

/-- read_cluster: the sector loop concatenates to exactly one cluster. -/
def read_cluster (d : Disk) (c : Nat) : List Nat := padTo d.clusterSize (d.data.getD c [])

/-- write_cluster: the sector loop writes exactly one cluster from buf. -/
def write_cluster (d : Disk) (c : Nat) (buf : List Nat) : Disk :=
  { d with data := d.data.set c (buf.take d.clusterSize) }

/-- zero_cluster: overwrite the cluster's data region with zeroes. -/
def zero_cluster (d : Disk) (c : Nat) : Disk :=
  { d with data := d.data.set c (List.replicate d.clusterSize 0) }

/-- The scan of allocate_cluster from cluster 2 upward for a FREE entry. -/
def allocate_scan (d : Disk) : Nat → Nat → Option Nat
  | _, 0 => none
  | c, fuel + 1 =>
    if get_fat_entry d c = FAT32_FREE then some c else allocate_scan d (c + 1) fuel

/-- allocate_cluster: first FREE cluster in 2..total gets EOC and a zeroed
data region; fails when none is free. -/
def allocate_cluster (d : Disk) : Except String (Disk × Nat) :=
  match allocate_scan d 2 (d.fat.length - 2) with
  | some c => Except.ok (zero_cluster (set_fat_entry d c FAT32_EOC) c, c)
  | none => Except.error "no free clusters"

/-- extend_chain: allocate a cluster and chain it after last_cluster. -/
def extend_chain (d : Disk) (last : Nat) : Except String (Disk × Nat) :=
  match allocate_cluster d with
  | Except.ok (d1, newc) => Except.ok (set_fat_entry d1 last newc, newc)
  | Except.error e => Except.error e

/-- free_chain: walk the chain setting every entry to FREE (fuel-bounded;
valid chains terminate well within the FAT length). -/
def free_chain_fuel (d : Disk) : Nat → Nat → Disk
  | _, 0 => d
  | c, fuel + 1 =>
    if 2 ≤ c ∧ c < FAT32_EOC then
      free_chain_fuel (set_fat_entry d c FAT32_FREE) (get_fat_entry d c) fuel
    else d

def free_chain (d : Disk) (start : Nat) : Disk :=
  free_chain_fuel d start (d.fat.length + 1)

/-- read_chain: follow the FAT from start, appending cluster-sized reads,
until an out-of-range or end-of-chain entry (fuel-bounded; valid chains
terminate well within the FAT length). -/
def read_chain_fuel (d : Disk) : Nat → Nat → List Nat
  | _, 0 => []
  | c, fuel + 1 =>
    if c < 2 ∨ FAT32_EOC ≤ c then []
    else read_cluster d c ++ read_chain_fuel d (get_fat_entry d c) fuel

def read_chain (d : Disk) (start : Nat) : List Nat :=
  read_chain_fuel d start (d.fat.length + 1)

/-- The i-th cluster-sized chunk of the written data, zero-filled at the
tail exactly as the Rust loop fills buf. -/
def chunkAt (data : List Nat) (i cs : Nat) : List Nat :=
  padTo cs ((data.drop (i * cs)).take cs)

/-- The body of write_chain's for-loop: write the i-th chunk to the current
cluster, then move to the FAT successor, extending the chain when the
successor is end-of-chain; remaining counts the chunks left.  Returns the
final state and the last cluster written. -/
def write_chain_loop (data : List Nat) :
    Disk → Nat → Nat → Nat → Except String (Disk × Nat)
  | d, cluster, _, 0 => Except.ok (d, cluster)
  | d, cluster, i, 1 => Except.ok (write_cluster d cluster (chunkAt data i d.clusterSize), cluster)
  | d, cluster, i, remaining + 2 =>
    let d1 := write_cluster d cluster (chunkAt data i d.clusterSize)
    let next := get_fat_entry d1 cluster
    if FAT32_EOC ≤ next then
      match extend_chain d1 cluster with
      | Except.ok (d2, newc) => write_chain_loop data d2 newc (i + 1) (remaining + 1)
      | Except.error e => Except.error e
    else write_chain_loop data d1 next (i + 1) (remaining + 1)

/-- write_chain of src/vcore/src/vfs/fat32.rs: no-op for empty data, fresh
first cluster when start < 2, chunk loop, then an EOC marker on the last
cluster written.  (The trailing read of the successor in the source binds
an unused value and has no effect.)  Returns the first cluster. -/
def write_chain (d : Disk) (start : Nat) (data : List Nat) : Except String (Disk × Nat) :=
  let needed := (data.length + d.clusterSize - 1) / d.clusterSize
  if needed = 0 then Except.ok (d, start)
  else
    match (if start < 2 then allocate_cluster d else Except.ok (d, start)) with
    | Except.error e => Except.error e
    | Except.ok (d0, first) =>
      match write_chain_loop data d0 first 0 needed with
      | Except.ok (dN, last) => Except.ok (set_fat_entry dN last FAT32_EOC, first)
      | Except.error e => Except.error e

/-- Well-formedness of the disk model: a positive cluster size, a FAT small
enough that no cluster index reaches the EOC range, and a data region
covering every FAT-indexed cluster. -/
structure DiskWF (d : Disk) : Prop where
  size_pos : 0 < d.clusterSize
  fat_le : d.fat.length ≤ FAT32_EOC
  data_ge : d.fat.length ≤ d.data.length

/-- A valid cluster chain: the list of clusters reached from the start,
each in range with its FAT entry pointing at the next, the final one
carrying an end-of-chain marker. -/
inductive ValidChain (d : Disk) : Nat → List Nat → Prop
  | last {c : Nat} (h2 : 2 ≤ c) (hc : c < d.fat.length)
      (he : FAT32_EOC ≤ get_fat_entry d c) : ValidChain d c [c]
  | step {c : Nat} {rest : List Nat} (h2 : 2 ≤ c) (hc : c < d.fat.length)
      (hn2 : 2 ≤ get_fat_entry d c) (hnext : get_fat_entry d c < FAT32_EOC)
      (hrest : ValidChain d (get_fat_entry d c) rest) : ValidChain d c (c :: rest)

end Fat32

namespace Fat32

theorem mask_small {v : Nat} (h : v < 2 ^ 28) : v &&& 0x0FFFFFFF = v := by
  have hm : (0x0FFFFFFF : Nat) = 2 ^ 28 - 1 := by norm_num
  rw [hm]
  apply Nat.eq_of_testBit_eq
  intro i
  rw [Nat.testBit_and, Nat.testBit_two_pow_sub_one]
  by_cases hi : i < 28
  · simp [hi]
  · simp [hi]
    apply Nat.testBit_lt_two_pow
    calc v < 2 ^ 28 := h
      _ ≤ 2 ^ i := Nat.pow_le_pow_right (by norm_num) (Nat.le_of_not_lt hi)

theorem mask_or_mask (old v : Nat) :
    ((old &&& 0xF0000000) ||| (v &&& 0x0FFFFFFF)) &&& 0x0FFFFFFF = v &&& 0x0FFFFFFF := by
  apply Nat.eq_of_testBit_eq
  intro i
  simp only [Nat.testBit_and, Nat.testBit_or]
  by_cases hi : i < 28
  · have h1 : Nat.testBit 0xF0000000 i = false := by
      have he : (0xF0000000 : Nat) = 15 <<< 28 := by decide
      rw [he, Nat.testBit_shiftLeft]
      simp
      omega
    simp [h1]
  · have h2 : Nat.testBit 0x0FFFFFFF i = false := by
      have he : (0x0FFFFFFF : Nat) = 2 ^ 28 - 1 := by norm_num
      rw [he, Nat.testBit_two_pow_sub_one]
      simp [hi]
    simp [h2]

theorem getD_set_ne_any {α : Type} (l : List α) (i j : Nat) (a dflt : α) (h : i ≠ j) :
    (l.set i a).getD j dflt = l.getD j dflt := by
  simp [List.getD_eq_getElem?_getD, List.getElem?_set_ne h]

theorem getD_set_self_any {α : Type} (l : List α) (i : Nat) (a dflt : α) (h : i < l.length) :
    (l.set i a).getD i dflt = a := by
  simp [List.getD_eq_getElem?_getD, List.getElem?_set_self h]

theorem get_fat_set_ne (d : Disk) (c v x : Nat) (h : x ≠ c) :
    get_fat_entry (set_fat_entry d c v) x = get_fat_entry d x := by
  unfold get_fat_entry set_fat_entry
  rw [getD_set_ne_any _ _ _ _ _ (fun he => h he.symm)]

theorem get_fat_set_self (d : Disk) (c v : Nat) (hc : c < d.fat.length) :
    get_fat_entry (set_fat_entry d c v) c = v &&& 0x0FFFFFFF := by
  unfold get_fat_entry set_fat_entry
  rw [getD_set_self_any _ _ _ _ hc]
  exact mask_or_mask _ v

theorem set_fat_fat_length (d : Disk) (c v : Nat) :
    (set_fat_entry d c v).fat.length = d.fat.length := by
  simp [set_fat_entry]

theorem padTo_length (n : Nat) (l : List Nat) : (padTo n l).length = n := by
  simp [padTo]
  omega

theorem padTo_of_length (n : Nat) (l : List Nat) (h : l.length = n) : padTo n l = l := by
  subst h
  simp [padTo, List.take_length]

theorem chunkAt_length (data : List Nat) (i cs : Nat) : (chunkAt data i cs).length = cs :=
  padTo_length cs _

theorem validChain_ne_nil {d : Disk} {c : Nat} {l : List Nat} (h : ValidChain d c l) :
    l ≠ [] := by
  cases h <;> simp

theorem validChain_head {d : Disk} {c : Nat} {l : List Nat} (h : ValidChain d c l) :
    l.getD 0 0 = c := by
  cases h <;> rfl

theorem validChain_mem_bounds {d : Disk} {c : Nat} {l : List Nat} (h : ValidChain d c l) :
    ∀ x ∈ l, 2 ≤ x ∧ x < d.fat.length := by
  induction h with
  | last h2 hc he =>
    intro x hx
    simp at hx
    subst hx
    exact ⟨by assumption, by assumption⟩
  | step h2 hc hn2 hnext hrest ih =>
    intro x hx
    rcases List.mem_cons.mp hx with rfl | hx
    · exact ⟨h2, hc⟩
    · exact ih x hx

theorem validChain_fat_ne_free {d : Disk} {c : Nat} {l : List Nat} (h : ValidChain d c l) :
    ∀ x ∈ l, get_fat_entry d x ≠ FAT32_FREE := by
  induction h with
  | last h2 hc he =>
    intro x hx
    simp at hx
    subst hx
    intro hcon
    rw [hcon] at he
    exact absurd he (by decide)
  | step h2 hc hn2 hnext hrest ih =>
    intro x hx
    rcases List.mem_cons.mp hx with rfl | hx
    · intro hcon
      rw [hcon] at hn2
      exact absurd hn2 (by decide)
    · exact ih x hx

theorem validChain_unique {d : Disk} {c : Nat} {l1 l2 : List Nat}
    (h1 : ValidChain d c l1) (h2 : ValidChain d c l2) : l1 = l2 := by
  induction h1 generalizing l2 with
  | last ha hb he =>
    cases h2 with
    | last => rfl
    | step h2' hc' hn2' hnext' hrest' => omega
  | step ha hb hn2 hnext hrest ih =>
    cases h2 with
    | last h2' hc' he' => omega
    | step h2' hc' hn2' hnext' hrest' => rw [ih hrest']

theorem validChain_mem_drop {d : Disk} {c : Nat} {l : List Nat} (h : ValidChain d c l) :
    ∀ y ∈ l, ∃ k, k < l.length ∧ ValidChain d y (l.drop k) := by
  induction h with
  | last h2 hc he =>
    intro y hy
    simp at hy
    subst hy
    exact ⟨0, by simp, ValidChain.last h2 hc he⟩
  | step h2 hc hn2 hnext hrest ih =>
    intro y hy
    rcases List.mem_cons.mp hy with rfl | hy
    · exact ⟨0, by simp, ValidChain.step h2 hc hn2 hnext hrest⟩
    · obtain ⟨k, hk, hvc⟩ := ih y hy
      exact ⟨k + 1, by simpa using Nat.succ_lt_succ hk, by simpa using hvc⟩

theorem validChain_nodup {d : Disk} {c : Nat} {l : List Nat} (h : ValidChain d c l) :
    l.Nodup := by
  induction h with
  | last h2 hc he => simp
  | step h2 hc hn2 hnext hrest ih =>
    rw [List.nodup_cons]
    refine ⟨?_, ih⟩
    intro hmem
    obtain ⟨k, hk, hvc⟩ := validChain_mem_drop hrest _ hmem
    have hfull : ValidChain d _ (_ :: _) := ValidChain.step h2 hc hn2 hnext hrest
    have heq := validChain_unique hfull hvc
    have hlen := congrArg List.length heq
    simp [List.length_drop] at hlen
    omega

theorem validChain_fat_congr {d d' : Disk} (hfat : d'.fat = d.fat) {c : Nat} {l : List Nat}
    (h : ValidChain d c l) : ValidChain d' c l := by
  have hget : ∀ x, get_fat_entry d' x = get_fat_entry d x := by
    intro x
    unfold get_fat_entry
    rw [hfat]
  induction h with
  | last h2 hc he =>
    exact ValidChain.last h2 (by rw [hfat]; exact hc) (by rw [hget]; exact he)
  | step h2 hc hn2 hnext hrest ih =>
    refine ValidChain.step h2 (by rw [hfat]; exact hc) ?_ ?_ ?_
    · rw [hget]; exact hn2
    · rw [hget]; exact hnext
    · rw [hget]; exact ih

end Fat32

namespace Fat32

theorem write_cluster_fat (d : Disk) (c : Nat) (b : List Nat) :
    (write_cluster d c b).fat = d.fat := rfl

theorem get_fat_write_cluster (d : Disk) (c x : Nat) (b : List Nat) :
    get_fat_entry (write_cluster d c b) x = get_fat_entry d x := rfl

theorem validChain_start_bounds {d : Disk} {c : Nat} {cl : List Nat}
    (h : ValidChain d c cl) : 2 ≤ c ∧ c < d.fat.length := by
  cases h with
  | last h2 hc he => exact ⟨h2, hc⟩
  | step h2 hc hn2 hnext hrest => exact ⟨h2, hc⟩

theorem validChain_cons {d : Disk} {c : Nat} {cl : List Nat} (h : ValidChain d c cl) :
    ∃ t, cl = c :: t := by
  cases h with
  | last h2 hc he => exact ⟨[], rfl⟩
  | step h2 hc hn2 hnext hrest => exact ⟨_, rfl⟩

theorem allocate_scan_spec (d : Disk) :
    ∀ fuel a c, allocate_scan d a fuel = some c →
      a ≤ c ∧ c < a + fuel ∧ get_fat_entry d c = FAT32_FREE := by
  intro fuel
  induction fuel with
  | zero =>
    intro a c h
    simp [allocate_scan] at h
  | succ fuel ih =>
    intro a c h
    rw [allocate_scan] at h
    split at h
    · next hfree =>
      cases h
      exact ⟨le_refl _, by omega, hfree⟩
    · obtain ⟨h1, h2, h3⟩ := ih (a + 1) c h
      exact ⟨by omega, by omega, h3⟩

theorem allocate_cluster_spec (d d1 : Disk) (c : Nat) (hwf : DiskWF d)
    (h : allocate_cluster d = Except.ok (d1, c)) :
    2 ≤ c ∧ c < d.fat.length ∧ get_fat_entry d c = FAT32_FREE ∧
    get_fat_entry d1 c = FAT32_EOC ∧
    (∀ x, x ≠ c → get_fat_entry d1 x = get_fat_entry d x) ∧
    (∀ x, x ≠ c → d1.data.getD x [] = d.data.getD x []) ∧
    d1.fat.length = d.fat.length ∧ d1.data.length = d.data.length ∧
    d1.clusterSize = d.clusterSize ∧
    d1.data.getD c [] = List.replicate d.clusterSize 0 := by
  unfold allocate_cluster at h
  cases hs : allocate_scan d 2 (d.fat.length - 2) with
  | none =>
    rw [hs] at h
    exact absurd h (by simp)
  | some c =>
    rw [hs] at h
    cases h
    obtain ⟨h2, hlt, hfree⟩ := allocate_scan_spec d _ 2 c hs
    have hc : c < d.fat.length := by omega
    have hfatlen : (set_fat_entry d c FAT32_EOC).fat.length = d.fat.length :=
      set_fat_fat_length d c FAT32_EOC
    refine ⟨h2, hc, hfree, ?_, ?_, ?_, ?_, ?_, rfl, ?_⟩
    · show get_fat_entry (zero_cluster (set_fat_entry d c FAT32_EOC) c) c = FAT32_EOC
      have hz : get_fat_entry (zero_cluster (set_fat_entry d c FAT32_EOC) c) c
          = get_fat_entry (set_fat_entry d c FAT32_EOC) c := rfl
      rw [hz, get_fat_set_self d c _ hc]
      exact mask_small (by decide)
    · intro x hx
      have hz : get_fat_entry (zero_cluster (set_fat_entry d c FAT32_EOC) c) x
          = get_fat_entry (set_fat_entry d c FAT32_EOC) x := rfl
      rw [hz, get_fat_set_ne d c _ x hx]
    · intro x hx
      show ((set_fat_entry d c FAT32_EOC).data.set c _).getD x [] = d.data.getD x []
      rw [getD_set_ne_any _ _ _ _ _ (fun he => hx he.symm)]
      rfl
    · exact hfatlen
    · show ((set_fat_entry d c FAT32_EOC).data.set c _).length = d.data.length
      simp [set_fat_entry]
    · show ((set_fat_entry d c FAT32_EOC).data.set c
        (List.replicate (set_fat_entry d c FAT32_EOC).clusterSize 0)).getD c []
        = List.replicate d.clusterSize 0
      have hd : c < (set_fat_entry d c FAT32_EOC).data.length := by
        show c < d.data.length
        exact lt_of_lt_of_le hc hwf.data_ge
      rw [getD_set_self_any _ _ _ _ hd]
      rfl

theorem extend_chain_spec (d d2 : Disk) (last newc : Nat) (hwf : DiskWF d)
    (hlast : last < d.fat.length) (hne : get_fat_entry d last ≠ FAT32_FREE)
    (h : extend_chain d last = Except.ok (d2, newc)) :
    2 ≤ newc ∧ newc < d.fat.length ∧ get_fat_entry d newc = FAT32_FREE ∧ newc ≠ last ∧
    get_fat_entry d2 newc = FAT32_EOC ∧
    get_fat_entry d2 last = newc ∧
    (∀ x, x ≠ last → x ≠ newc → get_fat_entry d2 x = get_fat_entry d x) ∧
    (∀ x, x ≠ newc → d2.data.getD x [] = d.data.getD x []) ∧
    d2.fat.length = d.fat.length ∧ d2.data.length = d.data.length ∧
    d2.clusterSize = d.clusterSize ∧
    d2.data.getD newc [] = List.replicate d.clusterSize 0 := by
  unfold extend_chain at h
  cases ha : allocate_cluster d with
  | error e =>
    rw [ha] at h
    exact absurd h (by simp)
  | ok p =>
    obtain ⟨d1, newc⟩ := p
    rw [ha] at h
    cases h
    obtain ⟨h2, hlt, hfree, heoc, hfat_ne, hdata_ne, hflen, hdlen, hcs, hzero⟩ :=
      allocate_cluster_spec d d1 newc hwf ha
    have hnl : newc ≠ last := by
      intro he
      rw [he] at hfree
      exact hne hfree
    have hlast1 : last < d1.fat.length := by rw [hflen]; exact hlast
    refine ⟨h2, hlt, hfree, hnl, ?_, ?_, ?_, ?_, ?_, ?_, ?_, ?_⟩
    · rw [get_fat_set_ne d1 last newc newc hnl]
      exact heoc
    · rw [get_fat_set_self d1 last newc hlast1]
      exact mask_small (lt_of_lt_of_le hlt (le_trans hwf.fat_le (by decide)))
    · intro x hx1 hx2
      rw [get_fat_set_ne d1 last newc x hx1]
      exact hfat_ne x hx2
    · intro x hx
      show d1.data.getD x [] = d.data.getD x []
      exact hdata_ne x hx
    · rw [set_fat_fat_length]
      exact hflen
    · show d1.data.length = d.data.length
      exact hdlen
    · show d1.clusterSize = d.clusterSize
      exact hcs
    · show d1.data.getD newc [] = List.replicate d.clusterSize 0
      exact hzero

/-- The loop invariant of write_chain's for-loop: w is the list of clusters
it wrote, in order. -/
structure LoopSpec (data : List Nat) (d : Disk) (c : Nat) (cl : List Nat) (i rem : Nat)
    (d' : Disk) (last : Nat) (w : List Nat) : Prop where
  len : w.length = rem
  nodup : w.Nodup
  head : w.getD 0 0 = c
  last_eq : last = w.getD (rem - 1) 0
  cs_eq : d'.clusterSize = d.clusterSize
  fat_len : d'.fat.length = d.fat.length
  data_len : d'.data.length = d.data.length
  bounds : ∀ k, k < rem → 2 ≤ w.getD k 0 ∧ w.getD k 0 < d.fat.length
  links : ∀ k, k + 1 < rem → get_fat_entry d' (w.getD k 0) = w.getD (k + 1) 0
  wrote : ∀ k, k < rem → read_cluster d' (w.getD k 0) = chunkAt data (i + k) d.clusterSize
  fat_frame : ∀ x, x ∉ w → get_fat_entry d' x = get_fat_entry d x
  data_frame : ∀ x, x ∉ w → d'.data.getD x [] = d.data.getD x []
  src : ∀ x, x ∈ w → x ∈ cl ∨ get_fat_entry d x = FAT32_FREE
  no_ext : rem ≤ cl.length → w = cl.take rem ∧ d'.fat = d.fat

end Fat32

namespace Fat32

theorem write_loop_spec (data : List Nat) :
    ∀ n d c cl i d' last,
    DiskWF d → ValidChain d c cl →
    write_chain_loop data d c i (n + 1) = Except.ok (d', last) →
    ∃ w, LoopSpec data d c cl i (n + 1) d' last w := by
  intro n
  induction n with
  | zero =>
    intro d c cl i d' last hwf hvc h
    simp only [write_chain_loop] at h
    injection h with hpair
    injection hpair with hA hB
    subst hA
    subst hB
    obtain ⟨hb2, hblt⟩ := validChain_start_bounds hvc
    have hcd : c < d.data.length := lt_of_lt_of_le hblt hwf.data_ge
    obtain ⟨t, hclt⟩ := validChain_cons hvc
    have htake : (chunkAt data i d.clusterSize).take d.clusterSize
        = chunkAt data i d.clusterSize := by
      apply List.take_of_length_le
      rw [chunkAt_length]
    refine ⟨[c], ?_⟩
    refine ⟨rfl, by simp, rfl, rfl, rfl, rfl, by simp [write_cluster], ?_, ?_, ?_, ?_,
      ?_, ?_, ?_⟩
    · intro k hk
      have hk0 : k = 0 := by omega
      subst hk0
      exact ⟨hb2, hblt⟩
    · intro k hk
      omega
    · intro k hk
      have hk0 : k = 0 := by omega
      subst hk0
      show padTo (write_cluster d c (chunkAt data i d.clusterSize)).clusterSize
        (((write_cluster d c (chunkAt data i d.clusterSize)).data).getD c [])
        = chunkAt data (i + 0) d.clusterSize
      show padTo d.clusterSize
        ((d.data.set c ((chunkAt data i d.clusterSize).take d.clusterSize)).getD c [])
        = chunkAt data (i + 0) d.clusterSize
      rw [getD_set_self_any _ _ _ _ hcd, htake, Nat.add_zero,
        padTo_of_length _ _ (chunkAt_length data i d.clusterSize)]
    · intro x hx
      rfl
    · intro x hx
      have hxc : x ≠ c := by simpa using hx
      show (d.data.set c ((chunkAt data i d.clusterSize).take d.clusterSize)).getD x []
        = d.data.getD x []
      exact getD_set_ne_any _ _ _ _ _ (fun he => hxc he.symm)
    · intro x hx
      have hxc : x = c := by simpa using hx
      subst hxc
      left
      rw [hclt]
      exact List.mem_cons_self _ _
    · intro hle
      constructor
      · rw [hclt]
        rfl
      · rfl
  | succ n ih =>
    intro d c cl i d' last hwf hvc h
    simp only [write_chain_loop, get_fat_write_cluster] at h
    obtain ⟨hb2, hblt⟩ := validChain_start_bounds hvc
    have hcd : c < d.data.length := lt_of_lt_of_le hblt hwf.data_ge
    have htake : (chunkAt data i d.clusterSize).take d.clusterSize
        = chunkAt data i d.clusterSize := by
      apply List.take_of_length_le
      rw [chunkAt_length]
    have hwf1 : DiskWF (write_cluster d c (chunkAt data i d.clusterSize)) := by
      refine ⟨hwf.size_pos, hwf.fat_le, ?_⟩
      show d.fat.length ≤ (d.data.set c _).length
      simpa using hwf.data_ge
    by_cases hcond : FAT32_EOC ≤ get_fat_entry d c
    · rw [if_pos hcond] at h
      cases hvc with
      | step h2 hc hn2 hnext hrest => omega
      | last h2 hc he =>
        cases hext : extend_chain (write_cluster d c (chunkAt data i d.clusterSize)) c with
        | error e =>
          rw [hext] at h
          exact absurd h (by simp)
        | ok p =>
          obtain ⟨d2, newc⟩ := p
          rw [hext] at h
          have hne1 : get_fat_entry (write_cluster d c (chunkAt data i d.clusterSize)) c
              ≠ FAT32_FREE := by
            rw [get_fat_write_cluster]
            intro hcc
            rw [hcc] at hcond
            exact absurd hcond (by decide)
          obtain ⟨hn2, hnlt, hnfree, hnnec, heoc2, hlink2, hfat2, hdata2, hflen2, hdlen2,
            hcs2, hzero2⟩ := extend_chain_spec _ d2 c newc hwf1 hc hne1 hext
          rw [get_fat_write_cluster] at hnfree
          have hwf2 : DiskWF d2 := by
            refine ⟨?_, ?_, ?_⟩
            · rw [hcs2]
              exact hwf.size_pos
            · rw [hflen2]
              exact hwf1.fat_le
            · rw [hflen2, hdlen2]
              exact hwf1.data_ge
          have hvc2 : ValidChain d2 newc [newc] :=
            ValidChain.last hn2 (by rw [hflen2]; exact hnlt) (by simp [heoc2])
          obtain ⟨w_rest, spec⟩ := ih d2 newc [newc] (i + 1) d' last hwf2 hvc2 h
          have hfree_ne : (2 : Nat) ≤ newc → newc ≠ FAT32_FREE := by
            intro hge hcc
            rw [hcc] at hge
            exact absurd hge (by decide)
          have hcnot : c ∉ w_rest := by
            intro hmem
            rcases spec.src c hmem with hin | hfr
            · simp at hin
              exact hnnec hin.symm
            · rw [hlink2] at hfr
              exact hfree_ne hn2 hfr
          have hwr_ne : w_rest ≠ [] := by
            intro he2
            have hl := spec.len
            rw [he2] at hl
            simp at hl
          obtain ⟨a, t, hwr⟩ := List.exists_cons_of_ne_nil hwr_ne
          have hanewc : a = newc := by
            have hh := spec.head
            rw [hwr] at hh
            simpa using hh
          have hnewc_mem : newc ∈ w_rest := by
            rw [hwr, hanewc]
            exact List.mem_cons_self _ _
          refine ⟨c :: w_rest, ?_⟩
          refine ⟨?_, ?_, rfl, ?_, ?_, ?_, ?_, ?_, ?_, ?_, ?_, ?_, ?_, ?_⟩
          · simp [spec.len]
          · rw [List.nodup_cons]
            exact ⟨hcnot, spec.nodup⟩
          · have hl := spec.last_eq
            simpa using hl
          · rw [spec.cs_eq, hcs2]
            rfl
          · rw [spec.fat_len, hflen2]
            rfl
          · rw [spec.data_len, hdlen2]
            simp [write_cluster]
          · intro k hk
            cases k with
            | zero => exact ⟨hb2, hblt⟩
            | succ k =>
              have hb := spec.bounds k (by omega)
              rw [hflen2] at hb
              simpa using hb
          · intro k hk
            cases k with
            | zero =>
              show get_fat_entry d' c = w_rest.getD 0 0
              rw [spec.fat_frame c hcnot, hlink2, spec.head]
            | succ k =>
              have hl := spec.links k (by omega)
              simpa using hl
          · intro k hk
            cases k with
            | zero =>
              show read_cluster d' c = chunkAt data (i + 0) d.clusterSize
              unfold read_cluster
              rw [spec.cs_eq, hcs2, spec.data_frame c hcnot, hdata2 c (fun he => hnnec he.symm)]
              show padTo d.clusterSize
                ((d.data.set c ((chunkAt data i d.clusterSize).take d.clusterSize)).getD c [])
                = chunkAt data (i + 0) d.clusterSize
              rw [getD_set_self_any _ _ _ _ hcd, htake, Nat.add_zero,
                padTo_of_length _ _ (chunkAt_length data i d.clusterSize)]
            | succ k =>
              have hw := spec.wrote k (by omega)
              rw [hcs2] at hw
              show read_cluster d' ((c :: w_rest).getD (k + 1) 0)
                = chunkAt data (i + (k + 1)) d.clusterSize
              have harith : i + 1 + k = i + (k + 1) := by omega
              rw [← harith]
              simpa using hw
          · intro x hx
            have hxc : x ≠ c := fun he => hx (he ▸ List.mem_cons_self _ _)
            have hxr : x ∉ w_rest := fun hm => hx (List.mem_cons_of_mem _ hm)
            have hxn : x ≠ newc := fun he => hxr (he ▸ hnewc_mem)
            rw [spec.fat_frame x hxr, hfat2 x hxc hxn, get_fat_write_cluster]
          · intro x hx
            have hxc : x ≠ c := fun he => hx (he ▸ List.mem_cons_self _ _)
            have hxr : x ∉ w_rest := fun hm => hx (List.mem_cons_of_mem _ hm)
            have hxn : x ≠ newc := fun he => hxr (he ▸ hnewc_mem)
            rw [spec.data_frame x hxr, hdata2 x hxn]
            show (d.data.set c _).getD x [] = d.data.getD x []
            exact getD_set_ne_any _ _ _ _ _ (fun he => hxc he.symm)
          · intro x hx
            rcases List.mem_cons.mp hx with rfl | hx
            · left
              exact List.mem_cons_self _ _
            · rcases spec.src x hx with hin | hfr
              · simp at hin
                subst hin
                right
                exact hnfree
              · by_cases hxc : x = c
                · subst hxc
                  rw [hlink2] at hfr
                  exact absurd hfr (hfree_ne hn2)
                · by_cases hxn : x = newc
                  · subst hxn
                    rw [heoc2] at hfr
                    exact absurd hfr (by decide)
                  · right
                    rw [← get_fat_write_cluster d c x (chunkAt data i d.clusterSize),
                      ← hfat2 x hxc hxn]
                    exact hfr
          · intro hle
            have hc1 : ([c] : List Nat).length = 1 := rfl
            rw [hc1] at hle
            omega
    · rw [if_neg hcond] at h
      cases hvc with
      | last h2 hc he => omega
      | step h2 hc hn2 hnext hrest =>
        have hvc1 : ValidChain (write_cluster d c (chunkAt data i d.clusterSize))
            (get_fat_entry d c) _ := validChain_fat_congr (write_cluster_fat d c _) hrest
        obtain ⟨w_rest, spec⟩ := ih _ (get_fat_entry d c) _ (i + 1) d' last hwf1 hvc1 h
        have hnd : (c :: _).Nodup := validChain_nodup (ValidChain.step h2 hc hn2 hnext hrest)
        have hcnr : c ∉ _ := (List.nodup_cons.mp hnd).1
        have hfree_ne : get_fat_entry d c ≠ FAT32_FREE := by
          intro hcc
          rw [hcc] at hn2
          exact absurd hn2 (by decide)
        have hcnot : c ∉ w_rest := by
          intro hmem
          rcases spec.src c hmem with hin | hfr
          · exact hcnr hin
          · rw [get_fat_write_cluster] at hfr
            exact hfree_ne hfr
        refine ⟨c :: w_rest, ?_⟩
        refine ⟨?_, ?_, rfl, ?_, ?_, ?_, ?_, ?_, ?_, ?_, ?_, ?_, ?_, ?_⟩
        · simp [spec.len]
        · rw [List.nodup_cons]
          exact ⟨hcnot, spec.nodup⟩
        · have hl := spec.last_eq
          simpa using hl
        · rw [spec.cs_eq]
          rfl
        · rw [spec.fat_len]
          rfl
        · rw [spec.data_len]
          simp [write_cluster]
        · intro k hk
          cases k with
          | zero => exact ⟨hb2, hblt⟩
          | succ k =>
            have hb := spec.bounds k (by omega)
            simpa using hb
        · intro k hk
          cases k with
          | zero =>
            show get_fat_entry d' c = w_rest.getD 0 0
            rw [spec.fat_frame c hcnot, get_fat_write_cluster, spec.head]
          | succ k =>
            have hl := spec.links k (by omega)
            simpa using hl
        · intro k hk
          cases k with
          | zero =>
            show read_cluster d' c = chunkAt data (i + 0) d.clusterSize
            unfold read_cluster
            rw [spec.cs_eq, spec.data_frame c hcnot]
            show padTo d.clusterSize
              ((d.data.set c ((chunkAt data i d.clusterSize).take d.clusterSize)).getD c [])
              = chunkAt data (i + 0) d.clusterSize
            rw [getD_set_self_any _ _ _ _ hcd, htake, Nat.add_zero,
              padTo_of_length _ _ (chunkAt_length data i d.clusterSize)]
          | succ k =>
            have hw := spec.wrote k (by omega)
            show read_cluster d' ((c :: w_rest).getD (k + 1) 0)
              = chunkAt data (i + (k + 1)) d.clusterSize
            have harith : i + 1 + k = i + (k + 1) := by omega
            rw [← harith]
            simpa using hw
        · intro x hx
          have hxc : x ≠ c := fun he => hx (he ▸ List.mem_cons_self _ _)
          have hxr : x ∉ w_rest := fun hm => hx (List.mem_cons_of_mem _ hm)
          rw [spec.fat_frame x hxr, get_fat_write_cluster]
        · intro x hx
          have hxc : x ≠ c := fun he => hx (he ▸ List.mem_cons_self _ _)
          have hxr : x ∉ w_rest := fun hm => hx (List.mem_cons_of_mem _ hm)
          rw [spec.data_frame x hxr]
          show (d.data.set c _).getD x [] = d.data.getD x []
          exact getD_set_ne_any _ _ _ _ _ (fun he => hxc he.symm)
        · intro x hx
          rcases List.mem_cons.mp hx with rfl | hx
          · left
            exact List.mem_cons_self _ _
          · rcases spec.src x hx with hin | hfr
            · left
              exact List.mem_cons_of_mem _ hin
            · right
              rw [← get_fat_write_cluster d c x (chunkAt data i d.clusterSize)]
              exact hfr
        · intro hle
          simp at hle
          obtain ⟨hw_eq, hfat_eq⟩ := spec.no_ext (by omega)
          constructor
          · rw [List.take_succ_cons, ← hw_eq]
          · rw [hfat_eq]
            rfl

end Fat32

namespace Fat32

theorem getD_mem_of_lt {α : Type} (l : List α) (n : Nat) (dflt : α) (h : n < l.length) :
    l.getD n dflt ∈ l := by
  rw [List.getD_eq_getElem?_getD, List.getElem?_eq_getElem h]
  exact List.getElem_mem h

theorem nodup_bounded_length (w : List Nat) (n : Nat) (hnd : w.Nodup)
    (hb : ∀ x ∈ w, x < n) : w.length ≤ n := by
  have hcard : w.toFinset.card = w.length := List.toFinset_card_of_nodup hnd
  have hsub : w.toFinset ⊆ Finset.range n := by
    intro x hx
    rw [List.mem_toFinset] at hx
    rw [Finset.mem_range]
    exact hb x hx
  calc w.length = w.toFinset.card := hcard.symm
    _ ≤ (Finset.range n).card := Finset.card_le_card hsub
    _ = n := Finset.card_range n

theorem ceil_mul_ge (a b : Nat) (hb : 0 < b) : a ≤ ((a + b - 1) / b) * b := by
  have h1 : a + b - 1 < b * ((a + b - 1) / b + 1) := Nat.lt_mul_div_succ _ hb
  have h2 : b * ((a + b - 1) / b + 1) = ((a + b - 1) / b) * b + b := by ring
  omega

theorem read_chain_fuel_flatten (d : Disk) :
    ∀ (w : List Nat) (fuel : Nat),
    w ≠ [] →
    (∀ k, k < w.length → 2 ≤ w.getD k 0 ∧ w.getD k 0 < FAT32_EOC) →
    (∀ k, k + 1 < w.length → get_fat_entry d (w.getD k 0) = w.getD (k + 1) 0) →
    FAT32_EOC ≤ get_fat_entry d (w.getD (w.length - 1) 0) →
    w.length + 1 ≤ fuel →
    read_chain_fuel d (w.getD 0 0) fuel = (w.map (read_cluster d)).flatten := by
  intro w
  induction w with
  | nil =>
    intro fuel hne
    exact absurd rfl hne
  | cons a t ih =>
    intro fuel hne hbounds hlinks hlast hfuel
    obtain ⟨fuel1, rfl⟩ : ∃ f, fuel = f + 1 := ⟨fuel - 1, by omega⟩
    have hb0 : 2 ≤ a ∧ a < FAT32_EOC := hbounds 0 (by simp)
    show read_chain_fuel d a (fuel1 + 1) = _
    rw [read_chain_fuel]
    have hnotbreak : ¬(a < 2 ∨ FAT32_EOC ≤ a) := by
      obtain ⟨hx, hy⟩ := hb0
      omega
    rw [if_neg hnotbreak]
    simp only [List.map_cons, List.flatten_cons]
    congr 1
    cases t with
    | nil =>
      have hl : FAT32_EOC ≤ get_fat_entry d a := by simpa using hlast
      obtain ⟨fuel2, rfl⟩ : ∃ f, fuel1 = f + 1 := ⟨fuel1 - 1, by simp at hfuel; omega⟩
      rw [read_chain_fuel, if_pos (Or.inr hl)]
      simp
    | cons b t2 =>
      have hab : get_fat_entry d a = b := by
        have := hlinks 0 (by simp)
        simpa using this
      rw [hab]
      have hh : ((b :: t2) : List Nat).getD 0 0 = b := rfl
      rw [← hh]
      refine ih fuel1 (by simp) ?_ ?_ ?_ (by simp at hfuel ⊢; omega)
      · intro k hk
        have := hbounds (k + 1) (by simp at hk ⊢; omega)
        simpa using this
      · intro k hk
        have := hlinks (k + 1) (by simp at hk ⊢; omega)
        simpa using this
      · have hlen : ((a :: b :: t2) : List Nat).length - 1
            = (((b :: t2) : List Nat).length - 1) + 1 := by
          simp
        rw [hlen] at hlast
        simpa using hlast

theorem chunkAt_shift (rest : List Nat) (cs k : Nat) :
    chunkAt rest (k + 1) cs = chunkAt (rest.drop cs) k cs := by
  unfold chunkAt
  have hd : rest.drop ((k + 1) * cs) = (rest.drop cs).drop (k * cs) := by
    rw [List.drop_drop]
    congr 1
    ring
  rw [hd]

theorem chunks_flatten_take (cs : Nat) (hcs : 0 < cs) :
    ∀ needed (rest : List Nat), rest.length ≤ needed * cs →
    (((List.range needed).map (fun k => chunkAt rest k cs)).flatten).take rest.length
      = rest := by
  intro needed
  induction needed with
  | zero =>
    intro rest h
    rw [Nat.zero_mul] at h
    have hr : rest = [] := List.eq_nil_of_length_eq_zero (by omega)
    subst hr
    simp
  | succ n ihn =>
    intro rest h
    have hmul : (n + 1) * cs = n * cs + cs := by ring
    rw [hmul] at h
    rw [List.range_succ_eq_map]
    simp only [List.map_cons, List.map_map, List.flatten_cons]
    have hcomp : (fun k => chunkAt rest k cs) ∘ Nat.succ
        = fun k => chunkAt (rest.drop cs) k cs := by
      funext k
      show chunkAt rest (k + 1) cs = _
      exact chunkAt_shift rest cs k
    rw [hcomp]
    have hchunk0 : chunkAt rest 0 cs = padTo cs (rest.take cs) := by
      unfold chunkAt
      norm_num
    rw [hchunk0]
    by_cases hlen : rest.length ≤ cs
    · have htk : rest.take cs = rest := List.take_of_length_le hlen
      rw [htk]
      unfold padTo
      rw [htk, List.append_assoc]
      exact List.take_left' rfl
    · push_neg at hlen
      have htkl : (rest.take cs).length = cs := by
        rw [List.length_take]
        omega
      rw [padTo_of_length _ _ htkl]
      have hsplit : rest.length = (rest.take cs).length + (rest.length - cs) := by
        rw [htkl]
        omega
      rw [hsplit, List.take_append]
      have hdl : (rest.drop cs).length = rest.length - cs := by
        rw [List.length_drop]
      have hrec := ihn (rest.drop cs) (by rw [hdl]; omega)
      rw [hdl] at hrec
      rw [hrec]
      exact List.take_append_drop cs rest

end Fat32

namespace Fat32

theorem nodup_getD_inj (l : List Nat) (hnd : l.Nodup) {i j : Nat}
    (hi : i < l.length) (hj : j < l.length) (h : l.getD i 0 = l.getD j 0) : i = j := by
  rw [List.getD_eq_getElem?_getD, List.getElem?_eq_getElem hi] at h
  rw [List.getD_eq_getElem?_getD, List.getElem?_eq_getElem hj] at h
  simp at h
  exact hnd.getElem_inj_iff.mp h

theorem getD_of_getElem (l : List Nat) {k : Nat} (hk : k < l.length) :
    l.getD k 0 = l[k] := by
  rw [List.getD_eq_getElem?_getD, List.getElem?_eq_getElem hk]
  rfl

end Fat32

/-- C5: for every chain start (a fresh cluster is allocated when start < 2,
otherwise start heads a valid chain) and every byte string D, a successful
write_chain(start, D) followed by read_chain on the returned first cluster,
truncated to the length of D, yields exactly D. -/
theorem fat_write_read_roundtrip (d : Fat32.Disk) (start : Nat) (D : List Nat)
    (cl : List Nat) (d2 : Fat32.Disk) (first : Nat) (hwf : Fat32.DiskWF d)
    (hstart : start < 2 ∨ (2 ≤ start ∧ Fat32.ValidChain d start cl))
    (hw : Fat32.write_chain d start D = Except.ok (d2, first)) :
    (Fat32.read_chain d2 first).take D.length = D := by
  unfold Fat32.write_chain at hw
  by_cases hz : (D.length + d.clusterSize - 1) / d.clusterSize = 0
  · rw [if_pos hz] at hw
    injection hw with hp
    injection hp with hA hB
    subst hA
    have hcs := hwf.size_pos
    have hD : D.length = 0 := by
      by_contra hne
      have h2 : 1 ≤ (D.length + d.clusterSize - 1) / d.clusterSize := by
        apply (Nat.le_div_iff_mul_le hcs).mpr
        omega
      omega
    rw [hD, List.take_zero]
    exact (List.eq_nil_of_length_eq_zero hD).symm
  · rw [if_neg hz] at hw
    have hmain : ∃ d0 f cl0,
        (if start < 2 then Fat32.allocate_cluster d else Except.ok (d, start))
          = Except.ok (d0, f) ∧ Fat32.DiskWF d0 ∧ Fat32.ValidChain d0 f cl0 ∧
          d0.clusterSize = d.clusterSize := by
      by_cases hs2 : start < 2
      · rw [if_pos hs2]
        cases ha : Fat32.allocate_cluster d with
        | error e =>
          rw [if_pos hs2, ha] at hw
          exact absurd hw (by simp)
        | ok p =>
          obtain ⟨d0, f⟩ := p
          obtain ⟨h2f, hflt, _, heocf, _, _, hflen, hdlen, hcsf, _⟩ :=
            Fat32.allocate_cluster_spec d d0 f hwf ha
          refine ⟨d0, f, [f], rfl, ?_, ?_, hcsf⟩
          · exact ⟨by rw [hcsf]; exact hwf.size_pos, by rw [hflen]; exact hwf.fat_le,
              by rw [hflen, hdlen]; exact hwf.data_ge⟩
          · exact Fat32.ValidChain.last h2f (by rw [hflen]; exact hflt) (by simp [heocf])
      · rw [if_neg hs2]
        rcases hstart with hlt | ⟨hge, hvc⟩
        · exact absurd hlt hs2
        · exact ⟨d, start, cl, rfl, hwf, hvc, rfl⟩
    obtain ⟨d0, f, cl0, hif, hwf0, hvc0, hcs0⟩ := hmain
    rw [hif] at hw
    dsimp only at hw
    cases hloop : Fat32.write_chain_loop D d0 f 0
        ((D.length + d.clusterSize - 1) / d.clusterSize) with
    | error e =>
      rw [hloop] at hw
      exact absurd hw (by simp)
    | ok p =>
      obtain ⟨dN, lastc⟩ := p
      rw [hloop] at hw
      injection hw with hp
      injection hp with hA hB
      subst hA
      subst hB
      have hpos : 0 < (D.length + d.clusterSize - 1) / d.clusterSize :=
        Nat.pos_of_ne_zero hz
      obtain ⟨m, hm⟩ : ∃ m, (D.length + d.clusterSize - 1) / d.clusterSize = m + 1 :=
        ⟨(D.length + d.clusterSize - 1) / d.clusterSize - 1,
          (Nat.succ_pred_eq_of_pos hpos).symm⟩
      rw [hm] at hloop
      obtain ⟨w, spec⟩ := Fat32.write_loop_spec D m d0 f cl0 0 dN lastc hwf0 hvc0 hloop
      have hwlen : w.length = m + 1 := spec.len
      have hle : lastc = w.getD m 0 := by simpa using spec.last_eq
      have hlastlt : lastc < dN.fat.length := by
        rw [spec.fat_len, hle]
        exact (spec.bounds m (by omega)).2
      have heoc_lt : Fat32.FAT32_EOC < 2 ^ 28 := by decide
      have hget_last : Fat32.get_fat_entry (Fat32.set_fat_entry dN lastc Fat32.FAT32_EOC)
          lastc = Fat32.FAT32_EOC := by
        rw [Fat32.get_fat_set_self dN lastc _ hlastlt]
        exact Fat32.mask_small heoc_lt
      have hmem_lt : ∀ x ∈ w, x < d0.fat.length := by
        intro x hx
        obtain ⟨k, hk, hkx⟩ := List.mem_iff_getElem.mp hx
        have hb := (spec.bounds k (by omega)).2
        rw [Fat32.getD_of_getElem w hk, hkx] at hb
        exact hb
      have hfuel : w.length ≤ (Fat32.set_fat_entry dN lastc Fat32.FAT32_EOC).fat.length := by
        rw [Fat32.set_fat_fat_length, spec.fat_len]
        exact Fat32.nodup_bounded_length w d0.fat.length spec.nodup hmem_lt
      have hread := Fat32.read_chain_fuel_flatten (Fat32.set_fat_entry dN lastc Fat32.FAT32_EOC)
        w ((Fat32.set_fat_entry dN lastc Fat32.FAT32_EOC).fat.length + 1)
        (by intro he; rw [he] at hwlen; simp at hwlen)
        (by
          intro k hk
          have hb := spec.bounds k (by omega)
          exact ⟨hb.1, lt_of_lt_of_le hb.2 hwf0.fat_le⟩)
        (by
          intro k hk
          have hkm : k ≠ m := by omega
          have hne : w.getD k 0 ≠ lastc := by
            rw [hle]
            intro he
            exact hkm (Fat32.nodup_getD_inj w spec.nodup (by omega) (by omega) he)
          rw [Fat32.get_fat_set_ne dN lastc _ _ hne]
          exact spec.links k (by omega))
        (by
          have hwm : w.length - 1 = m := by omega
          rw [hwm, ← hle]
          simp [hget_last])
        (by omega)
      have hmap : w.map (Fat32.read_cluster (Fat32.set_fat_entry dN lastc Fat32.FAT32_EOC))
          = (List.range (m + 1)).map (fun k => Fat32.chunkAt D k d0.clusterSize) := by
        apply List.ext_getElem
        · simp [hwlen]
        · intro k h1 h2
          rw [List.getElem_map, List.getElem_map, List.getElem_range]
          have hk : k < w.length := by simpa using h1
          have hrd : Fat32.read_cluster (Fat32.set_fat_entry dN lastc Fat32.FAT32_EOC) w[k]
              = Fat32.read_cluster dN w[k] := rfl
          rw [hrd, ← Fat32.getD_of_getElem w hk]
          have hwr := spec.wrote k (by omega)
          rw [Nat.zero_add] at hwr
          exact hwr
      rw [Fat32.read_chain, ← spec.head, hread, hmap]
      have hDlen : D.length ≤ (m + 1) * d0.clusterSize := by
        have := Fat32.ceil_mul_ge D.length d.clusterSize hwf.size_pos
        rw [hm] at this
        rw [hcs0]
        exact this
      exact Fat32.chunks_flatten_take d0.clusterSize (by rw [hcs0]; exact hwf.size_pos)
        (m + 1) D hDlen

/-- Witness for C5 at a concrete disk: writing the bytes 1..5 starting from
cluster 0 (below 2, so a fresh cluster is allocated) succeeds, returns first
cluster 2, and reading the chain back yields exactly those bytes. -/
theorem fat_write_read_roundtrip_witness :
    Fat32.write_chain ⟨List.replicate 8 0, List.replicate 8 [], 4⟩ 0 [1, 2, 3, 4, 5]
      = Except.ok (⟨[0, 0, 3, 268435448, 0, 0, 0, 0],
          [[], [], [1, 2, 3, 4], [5, 0, 0, 0], [], [], [], []], 4⟩, 2) ∧
    (Fat32.read_chain ⟨[0, 0, 3, 268435448, 0, 0, 0, 0],
        [[], [], [1, 2, 3, 4], [5, 0, 0, 0], [], [], [], []], 4⟩ 2).take 5
      = [1, 2, 3, 4, 5] :=
  ⟨by rfl,
    fat_write_read_roundtrip ⟨List.replicate 8 0, List.replicate 8 [], 4⟩ 0
      [1, 2, 3, 4, 5] [] _ _
      ⟨by decide, by decide, by decide⟩ (Or.inl (by decide)) (by rfl)⟩

/-- C6: when write_chain runs over a pre-existing valid chain cl that is
longer than the k clusters needed for the data, it returns the old start
cluster, rewrites only the FAT entry of the k-th retained cluster (to the
end-of-chain marker), and leaves every FAT entry of the detached tail
cl.drop k unchanged and non-FREE: the old tail is leaked, never truncated
or freed. -/
theorem fat_write_chain_leaks_tail (d : Fat32.Disk) (start : Nat) (D : List Nat)
    (cl : List Nat) (k : Nat) (d2 : Fat32.Disk) (first : Nat)
    (hwf : Fat32.DiskWF d) (hvc : Fat32.ValidChain d start cl) (hs : 2 ≤ start)
    (hk : k = (D.length + d.clusterSize - 1) / d.clusterSize)
    (hk1 : 1 ≤ k) (hklt : k < cl.length)
    (hw : Fat32.write_chain d start D = Except.ok (d2, first)) :
    first = start ∧
    Fat32.get_fat_entry d2 (cl.getD (k - 1) 0) = Fat32.FAT32_EOC ∧
    (∀ x, x ≠ cl.getD (k - 1) 0 →
      Fat32.get_fat_entry d2 x = Fat32.get_fat_entry d x) ∧
    (∀ x ∈ cl.drop k, Fat32.get_fat_entry d2 x = Fat32.get_fat_entry d x ∧
      Fat32.get_fat_entry d2 x ≠ Fat32.FAT32_FREE) := by
  unfold Fat32.write_chain at hw
  have hkz : ¬ (D.length + d.clusterSize - 1) / d.clusterSize = 0 := by omega
  rw [if_neg hkz] at hw
  have hs2 : ¬ start < 2 := by omega
  rw [if_neg hs2] at hw
  dsimp only at hw
  obtain ⟨m, hm⟩ : ∃ m, (D.length + d.clusterSize - 1) / d.clusterSize = m + 1 :=
    ⟨(D.length + d.clusterSize - 1) / d.clusterSize - 1,
      (Nat.succ_pred_eq_of_pos (Nat.pos_of_ne_zero hkz)).symm⟩
  rw [hm] at hw
  have hkm : k = m + 1 := by rw [hk, hm]
  have hk1m : k - 1 = m := by omega
  cases hloop : Fat32.write_chain_loop D d start 0 (m + 1) with
  | error e =>
    rw [hloop] at hw
    exact absurd hw (by simp)
  | ok p =>
    obtain ⟨dN, lastc⟩ := p
    rw [hloop] at hw
    injection hw with hp
    injection hp with hA hB
    subst hA
    subst hB
    obtain ⟨w, spec⟩ := Fat32.write_loop_spec D m d start cl 0 dN lastc hwf hvc hloop
    have hle : m + 1 ≤ cl.length := by omega
    obtain ⟨hweq, hfat⟩ := spec.no_ext hle
    have hcong : ∀ y, Fat32.get_fat_entry dN y = Fat32.get_fat_entry d y := by
      intro y
      unfold Fat32.get_fat_entry
      rw [hfat]
    have hlastw : lastc = w.getD m 0 := by simpa using spec.last_eq
    have hlastc : lastc = cl.getD (k - 1) 0 := by
      rw [hlastw, hweq, hk1m, List.getD_eq_getElem?_getD, List.getD_eq_getElem?_getD,
        List.getElem?_take, if_pos (Nat.lt_succ_self m)]
    have hmemcl : cl.getD (k - 1) 0 ∈ cl :=
      Fat32.getD_mem_of_lt cl (k - 1) 0 (by omega)
    have hltN : lastc < dN.fat.length := by
      rw [hlastc]
      have hb := (Fat32.validChain_mem_bounds hvc _ hmemcl).2
      rw [hfat]
      exact hb
    have hlW : lastc ∈ w := by
      rw [hlastw]
      exact Fat32.getD_mem_of_lt w m 0 (by rw [spec.len]; exact Nat.lt_succ_self m)
    have hltake : lastc ∈ cl.take k := by
      rw [hkm, ← hweq]
      exact hlW
    have hdisj := List.disjoint_take_drop (Fat32.validChain_nodup hvc) (le_refl k)
    refine ⟨rfl, ?_, ?_, ?_⟩
    · rw [← hlastc, Fat32.get_fat_set_self dN lastc _ hltN]
      exact Fat32.mask_small (by decide)
    · intro x hx
      have hnex : x ≠ lastc := by
        rw [hlastc]
        exact hx
      rw [Fat32.get_fat_set_ne dN lastc _ x hnex]
      exact hcong x
    · intro x hxd
      have hnex : x ≠ lastc := by
        intro he
        exact hdisj hltake (he ▸ hxd)
      have hunch : Fat32.get_fat_entry (Fat32.set_fat_entry dN lastc Fat32.FAT32_EOC) x
          = Fat32.get_fat_entry d x := by
        rw [Fat32.get_fat_set_ne dN lastc _ x hnex]
        exact hcong x
      refine ⟨hunch, ?_⟩
      rw [hunch]
      exact Fat32.validChain_fat_ne_free hvc x (List.mem_of_mem_drop hxd)

/-- Witness for C6 at a concrete disk: the chain 2 -> 3 -> 4 is overwritten
with one cluster of data; the entry of cluster 2 becomes end-of-chain while
the detached entries of clusters 3 and 4 keep their old non-FREE values. -/
theorem fat_write_chain_leaks_tail_witness :
    Fat32.write_chain ⟨[0, 0, 3, 4, 268435448, 0, 0, 0], List.replicate 8 [], 4⟩ 2 [9]
      = Except.ok (⟨[0, 0, 268435448, 4, 268435448, 0, 0, 0],
          [[], [], [9, 0, 0, 0], [], [], [], [], []], 4⟩, 2) ∧
    Fat32.get_fat_entry ⟨[0, 0, 268435448, 4, 268435448, 0, 0, 0],
        [[], [], [9, 0, 0, 0], [], [], [], [], []], 4⟩ 2 = Fat32.FAT32_EOC ∧
    Fat32.get_fat_entry ⟨[0, 0, 268435448, 4, 268435448, 0, 0, 0],
        [[], [], [9, 0, 0, 0], [], [], [], [], []], 4⟩ 3
      = Fat32.get_fat_entry ⟨[0, 0, 3, 4, 268435448, 0, 0, 0], List.replicate 8 [], 4⟩ 3 ∧
    Fat32.get_fat_entry ⟨[0, 0, 268435448, 4, 268435448, 0, 0, 0],
        [[], [], [9, 0, 0, 0], [], [], [], [], []], 4⟩ 3 ≠ Fat32.FAT32_FREE ∧
    Fat32.get_fat_entry ⟨[0, 0, 268435448, 4, 268435448, 0, 0, 0],
        [[], [], [9, 0, 0, 0], [], [], [], [], []], 4⟩ 4
      = Fat32.get_fat_entry ⟨[0, 0, 3, 4, 268435448, 0, 0, 0], List.replicate 8 [], 4⟩ 4 ∧
    Fat32.get_fat_entry ⟨[0, 0, 268435448, 4, 268435448, 0, 0, 0],
        [[], [], [9, 0, 0, 0], [], [], [], [], []], 4⟩ 4 ≠ Fat32.FAT32_FREE := by
  have hwc : Fat32.write_chain
      ⟨[0, 0, 3, 4, 268435448, 0, 0, 0], List.replicate 8 [], 4⟩ 2 [9]
      = Except.ok (⟨[0, 0, 268435448, 4, 268435448, 0, 0, 0],
          [[], [], [9, 0, 0, 0], [], [], [], [], []], 4⟩, 2) := by rfl
  have h4c : Fat32.ValidChain
      ⟨[0, 0, 3, 4, 268435448, 0, 0, 0], List.replicate 8 [], 4⟩ 4 [4] :=
    Fat32.ValidChain.last (by decide) (by decide) (by decide)
  have h3c : Fat32.ValidChain
      ⟨[0, 0, 3, 4, 268435448, 0, 0, 0], List.replicate 8 [], 4⟩ 3 [3, 4] := by
    apply Fat32.ValidChain.step (by decide) (by decide) (by decide) (by decide)
    exact h4c
  have h2c : Fat32.ValidChain
      ⟨[0, 0, 3, 4, 268435448, 0, 0, 0], List.replicate 8 [], 4⟩ 2 [2, 3, 4] := by
    apply Fat32.ValidChain.step (by decide) (by decide) (by decide) (by decide)
    exact h3c
  have h := fat_write_chain_leaks_tail
    ⟨[0, 0, 3, 4, 268435448, 0, 0, 0], List.replicate 8 [], 4⟩ 2 [9] [2, 3, 4] 1
    ⟨[0, 0, 268435448, 4, 268435448, 0, 0, 0],
      [[], [], [9, 0, 0, 0], [], [], [], [], []], 4⟩ 2
    ⟨by decide, by decide, by decide⟩ h2c (by decide) (by decide) (by decide)
    (by decide) hwc
  obtain ⟨h1, h2, h3, h4⟩ := h
  exact ⟨hwc, h2, (h4 3 (by decide)).1, (h4 3 (by decide)).2,
    (h4 4 (by decide)).1, (h4 4 (by decide)).2⟩

namespace Fat32

/-- Attribute byte marking a volume label. -/
def ATTR_VOLUME_ID : Nat := 0x08

/-- Attribute byte value that marks a long-file-name entry. -/
def ATTR_LFN : Nat := 0x0F

/-- Flag set on the sequence byte of the final long-file-name entry. -/
def LFN_LAST_ENTRY : Nat := 0x40

/-- Size in bytes of one on-disk directory entry. -/
def DIR_ENTRY_SIZE : Nat := 32

/-- First byte of a deleted directory entry. -/
def DELETED_MARKER : Nat := 0xE5

/-- Little-endian byte pair of a u16 value. -/
def le2 (v : Nat) : List Nat := [v % 256, v / 256 % 256]

/-- Little-endian bytes of a u32 value. -/
def le4 (v : Nat) : List Nat :=
  [v % 256, v / 256 % 256, v / 65536 % 256, v / 16777216 % 256]

/-- The u16 value of two little-endian bytes. -/
def from_le2 (a b : Nat) : Nat := a + 256 * b

/-- Normalizes a list to the exact width of the Rust fixed-size array it
models: truncate and zero-fill (identity on lists built at that width). -/
def sized (w : Nat) (l : List Nat) : List Nat :=
  l.take w ++ List.replicate (w - l.length) 0

/-- Char-wise ASCII uppercasing; String::to_uppercase agrees with this on
ASCII strings, which is the domain of the directory-name theorems. -/
def toUpperChar (c : Nat) : Nat := if 97 ≤ c ∧ c ≤ 122 then c - 32 else c

/-- Char-wise ASCII lowercasing (char::to_ascii_lowercase). -/
def toLowerChar (c : Nat) : Nat := if 65 ≤ c ∧ c ≤ 90 then c + 32 else c

/-- The char::is_ascii_alphanumeric test. -/
def isAsciiAlnum (c : Nat) : Bool :=
  decide ((48 ≤ c ∧ c ≤ 57) ∨ (65 ≤ c ∧ c ≤ 90) ∨ (97 ≤ c ∧ c ≤ 122))

/-- The byte stored for one 8.3 name char: ASCII alphanumerics, underscore
and dash survive, anything else becomes an underscore. -/
def shortByte (c : Nat) : Nat :=
  if isAsciiAlnum c ∨ c = 95 ∨ c = 45 then c else 95

/-- The 8.3 directory entry of fat32.rs, with the 11 name bytes as a list
and each numeric field a Nat standing for the u8/u16/u32 field. -/
structure ShortDirEntry where
  name : List Nat
  attr : Nat
  nt_res : Nat
  create_time_tenth : Nat
  create_time : Nat
  create_date : Nat
  access_date : Nat
  cluster_high : Nat
  modify_time : Nat
  modify_date : Nat
  cluster_low : Nat
  size : Nat
deriving Repr, DecidableEq

/-- ShortDirEntry::serialize: the 32-byte on-disk form. -/
def ShortDirEntry.serialize (s : ShortDirEntry) : List Nat :=
  sized 11 (s.name.map (· % 256))
    ++ [s.attr % 256, s.nt_res % 256, s.create_time_tenth % 256]
    ++ le2 s.create_time ++ le2 s.create_date ++ le2 s.access_date
    ++ le2 s.cluster_high ++ le2 s.modify_time ++ le2 s.modify_date
    ++ le2 s.cluster_low ++ le4 s.size

/-- ShortDirEntry::parse: rejects a short buffer or a free entry. -/
def ShortDirEntry.parse (data : List Nat) : Option ShortDirEntry :=
  if data.length < DIR_ENTRY_SIZE ∨ data.getD 0 0 = 0 then none
  else some
    { name := data.take 11
      attr := data.getD 11 0
      nt_res := data.getD 12 0
      create_time_tenth := data.getD 13 0
      create_time := from_le2 (data.getD 14 0) (data.getD 15 0)
      create_date := from_le2 (data.getD 16 0) (data.getD 17 0)
      access_date := from_le2 (data.getD 18 0) (data.getD 19 0)
      cluster_high := from_le2 (data.getD 20 0) (data.getD 21 0)
      modify_time := from_le2 (data.getD 22 0) (data.getD 23 0)
      modify_date := from_le2 (data.getD 24 0) (data.getD 25 0)
      cluster_low := from_le2 (data.getD 26 0) (data.getD 27 0)
      size := data.getD 28 0 + 256 * data.getD 29 0 + 65536 * data.getD 30 0
        + 16777216 * data.getD 31 0 }

/-- ShortDirEntry::is_volume_label. -/
def ShortDirEntry.is_volume_label (s : ShortDirEntry) : Bool :=
  s.attr &&& ATTR_VOLUME_ID != 0

/-- ShortDirEntry::short_name: the stored 8.3 name rendered back to a
string, each byte lowercased (ASCII) and the parts cut at the first space. -/
def short_name (s : ShortDirEntry) : List Nat :=
  let name_part := ((s.name.take 8).takeWhile (fun c => c != 32)).map toLowerChar
  let ext_part := (((s.name.drop 8).take 3).takeWhile (fun c => c != 32)).map toLowerChar
  if ext_part.isEmpty then name_part else name_part ++ [46] ++ ext_part

end Fat32

namespace Fat32

/-- The part of a name after its last dot. -/
def afterLastDot (l : List Nat) : List Nat :=
  (l.reverse.takeWhile (fun c => c != 46)).reverse

/-- The part of a name before its last dot (meaningful only when a dot is
present). -/
def beforeLastDot (l : List Nat) : List Nat :=
  l.take (l.length - (afterLastDot l).length - 1)

/-- make_short_name: uppercase, split at the last dot (whole name as base
when no dot is present), map each kept char through shortByte and pad both
parts with spaces to 8 + 3 bytes.  Uppercasing is modelled char-wise, which
agrees with Rust on ASCII names. -/
def make_short_name (name : List Nat) : List Nat :=
  let upper := name.map toUpperChar
  let base := if name.contains 46 then beforeLastDot upper else upper
  let ext := if name.contains 46 then afterLastDot upper else []
  ((base.take 8).map shortByte) ++ List.replicate (8 - base.length) 32
    ++ ((ext.take 3).map shortByte) ++ List.replicate (3 - ext.length) 32

/-- needs_lfn: a name longer than 12 bytes, a base over 8 or extension over
3 bytes, or any char that is lowercase or outside the 8.3 charset forces a
long file name.  When the name has no dot the source compares the whole
name against 8. -/
def needs_lfn (name : List Nat) : Bool :=
  if 12 < name.length then true
  else if (if name.contains 46 then
      8 < (beforeLastDot name).length ∨ 3 < (afterLastDot name).length
    else 8 < name.length) then true
  else name.any (fun c =>
    decide (97 ≤ c ∧ c ≤ 122)
      || (!isAsciiAlnum c && decide (c ≠ 46 ∧ c ≠ 95 ∧ c ≠ 45)))

/-- ShortDirEntry::new. -/
def ShortDirEntry.new (name : List Nat) (attr cluster size : Nat) : ShortDirEntry :=
  { name := make_short_name name
    attr := attr
    nt_res := 0
    create_time_tenth := 0
    create_time := 0
    create_date := 0
    access_date := 0
    cluster_high := cluster / 65536 % 65536
    modify_time := 0
    modify_date := 0
    cluster_low := cluster % 65536
    size := size }

/-- A long-file-name directory entry, name slots as u16 lists of widths
5, 6 and 2. -/
structure LfnEntry where
  seq : Nat
  name1 : List Nat
  attr : Nat
  entry_type : Nat
  checksum : Nat
  name2 : List Nat
  cluster : Nat
  name3 : List Nat
deriving Repr, DecidableEq

/-- LfnEntry::parse. -/
def LfnEntry.parse (data : List Nat) : Option LfnEntry :=
  if data.length < DIR_ENTRY_SIZE ∨ data.getD 11 0 ≠ ATTR_LFN then none
  else some
    { seq := data.getD 0 0
      name1 := [from_le2 (data.getD 1 0) (data.getD 2 0),
        from_le2 (data.getD 3 0) (data.getD 4 0),
        from_le2 (data.getD 5 0) (data.getD 6 0),
        from_le2 (data.getD 7 0) (data.getD 8 0),
        from_le2 (data.getD 9 0) (data.getD 10 0)]
      attr := data.getD 11 0
      entry_type := data.getD 12 0
      checksum := data.getD 13 0
      name2 := [from_le2 (data.getD 14 0) (data.getD 15 0),
        from_le2 (data.getD 16 0) (data.getD 17 0),
        from_le2 (data.getD 18 0) (data.getD 19 0),
        from_le2 (data.getD 20 0) (data.getD 21 0),
        from_le2 (data.getD 22 0) (data.getD 23 0),
        from_le2 (data.getD 24 0) (data.getD 25 0)]
      cluster := from_le2 (data.getD 26 0) (data.getD 27 0)
      name3 := [from_le2 (data.getD 28 0) (data.getD 29 0),
        from_le2 (data.getD 30 0) (data.getD 31 0)] }

/-- LfnEntry::serialize: the sequence byte, the three name-slot groups as
little-endian u16 pairs, the LFN attribute, the checksum, and zeroed type
and cluster bytes. -/
def LfnEntry.serialize (e : LfnEntry) : List Nat :=
  [e.seq % 256] ++ ((sized 5 e.name1).map le2).flatten
    ++ [ATTR_LFN, 0, e.checksum % 256] ++ ((sized 6 e.name2).map le2).flatten
    ++ [0, 0] ++ ((sized 2 e.name3).map le2).flatten

/-- LfnEntry::is_last. -/
def LfnEntry.is_last (e : LfnEntry) : Bool := e.seq &&& LFN_LAST_ENTRY != 0

/-- The char::from_u32 validity test: below the surrogate range, or between
it and 0x110000. -/
def isValidChar (c : Nat) : Bool :=
  decide (c < 0xD800 ∨ (0xE000 ≤ c ∧ c < 0x110000))

/-- One name-slot group of LfnEntry::chars: walk the u16 slots, stop at a
0x0000 or 0xFFFF terminator, collect the values that decode to chars. -/
def lfnCollect : List Nat → List Nat → List Nat
  | [], acc => acc
  | c :: rest, acc =>
    if c = 0 ∨ c = 0xFFFF then acc
    else if isValidChar c then lfnCollect rest (acc ++ [c])
    else lfnCollect rest acc

/-- LfnEntry::chars: collect from name1, name2, name3 in turn, returning
early when a group ended before filling its slots. -/
def LfnEntry.chars (e : LfnEntry) : List Nat :=
  let c1 := lfnCollect e.name1 []
  if c1.length < 5 then c1
  else
    let c2 := lfnCollect e.name2 c1
    if c2.length < 11 then c2
    else lfnCollect e.name3 c2

/-- The name slots of one LFN entry before the terminator is placed: the
chunk's chars (as u16) in the prefix, 0xFFFF fill behind them. -/
def padSlots (cs : List Nat) (w : Nat) : List Nat :=
  (cs.map (· % 65536)).take w ++ List.replicate (w - cs.length) 0xFFFF

/-- LfnEntry::new for one chunk of up to 13 chars. -/
def LfnEntry.new (seq checksum : Nat) (cs : List Nat) (last : Bool) : LfnEntry :=
  let len := cs.length
  let n1 := padSlots cs 5
  let n2 := padSlots (cs.drop 5) 6
  let n3 := padSlots (cs.drop 11) 2
  let n1 := if len < 5 then n1.set len 0 else n1
  let n2 := if 5 ≤ len ∧ len < 11 then n2.set (len - 5) 0 else n2
  let n3 := if 11 ≤ len ∧ len < 13 then n3.set (len - 11) 0 else n3
  { seq := if last then seq ||| LFN_LAST_ENTRY else seq
    name1 := n1
    attr := ATTR_LFN
    entry_type := 0
    checksum := checksum
    name2 := n2
    cluster := 0
    name3 := n3 }

/-- The u8 rotate-right-by-one of lfn_checksum. -/
def rotr8 (s : Nat) : Nat := s / 2 + s % 2 * 128

/-- lfn_checksum over the 11 stored name bytes. -/
def lfn_checksum (short : List Nat) : Nat :=
  short.foldl (fun sum b => (rotr8 sum + b) % 256) 0

/-- The descending entry loop of create_lfn_entries: the chunk index runs
from num - 1 down to 0, so the last chunk's entry comes first. -/
def create_lfn_go (cs : List Nat) (checksum num : Nat) : Nat → List LfnEntry
  | 0 => []
  | i + 1 =>
    LfnEntry.new (i + 1) checksum ((cs.drop (i * 13)).take 13) (i + 1 == num)
      :: create_lfn_go cs checksum num i

/-- create_lfn_entries. -/
def create_lfn_entries (name : List Nat) (short : List Nat) : List LfnEntry :=
  create_lfn_go name (lfn_checksum short) ((name.length + 12) / 13) ((name.length + 12) / 13)

/-- assemble_lfn: concatenate the chars of the entries in reverse order. -/
def assemble_lfn (entries : List LfnEntry) : List Nat :=
  (entries.reverse.map LfnEntry.chars).flatten

/-- One listed directory entry (FatDirEntry in fat32.rs). -/
structure FatDirEntry where
  name : List Nat
  short_entry : ShortDirEntry
  lfn_entries : List LfnEntry
  entry_offset : Nat
  entry_count : Nat
deriving Repr, DecidableEq

end Fat32

namespace Fat32

/-- The directory-scan loop of read_directory, one 32-byte slot per step:
stop at a never-used entry (first byte 0), drop pending LFN parts at a
deleted entry, collect LFN entries (restarting at one flagged last), and
emit a listed entry at each short entry that is neither a volume label nor
the dot entries, naming it from the LFN parts when they are present and
their checksums match the stored short name.  Fuel bounds the slot count. -/
def read_dir_go (data : List Nat) : Nat → Nat → List LfnEntry → Nat → List FatDirEntry
  | 0, _, _, _ => []
  | fuel + 1, i, lfn_parts, lfn_start =>
    if i + DIR_ENTRY_SIZE ≤ data.length then
      let entry_data := (data.drop i).take DIR_ENTRY_SIZE
      if entry_data.getD 0 0 = 0 then []
      else if entry_data.getD 0 0 = DELETED_MARKER then
        read_dir_go data fuel (i + DIR_ENTRY_SIZE) [] lfn_start
      else if entry_data.getD 11 0 = ATTR_LFN then
        match LfnEntry.parse entry_data with
        | some lfn =>
          if lfn.is_last then
            read_dir_go data fuel (i + DIR_ENTRY_SIZE) [lfn] i
          else
            read_dir_go data fuel (i + DIR_ENTRY_SIZE) (lfn_parts ++ [lfn]) lfn_start
        | none => read_dir_go data fuel (i + DIR_ENTRY_SIZE) lfn_parts lfn_start
      else
        match ShortDirEntry.parse entry_data with
        | some short =>
          if short.is_volume_label then
            read_dir_go data fuel (i + DIR_ENTRY_SIZE) [] lfn_start
          else
            let name :=
              if lfn_parts.isEmpty then short_name short
              else if lfn_parts.all (fun e => e.checksum == lfn_checksum short.name) then
                assemble_lfn lfn_parts
              else short_name short
            let sname := short_name short
            if sname ≠ [46] ∧ sname ≠ [46, 46] then
              { name := name, short_entry := short, lfn_entries := lfn_parts,
                entry_offset := if lfn_parts.isEmpty then i else lfn_start,
                entry_count := lfn_parts.length + 1 }
                :: read_dir_go data fuel (i + DIR_ENTRY_SIZE) [] lfn_start
            else read_dir_go data fuel (i + DIR_ENTRY_SIZE) [] lfn_start
        | none => read_dir_go data fuel (i + DIR_ENTRY_SIZE) lfn_parts lfn_start
    else []

/-- read_directory over the modelled disk: read the directory's cluster
chain and scan it. -/
def read_directory (d : Disk) (dir_cluster : Nat) : List FatDirEntry :=
  let data := read_chain d dir_cluster
  read_dir_go data (data.length / DIR_ENTRY_SIZE + 1) 0 [] 0

/-- The walk of get_last_cluster along the FAT (fuel-bounded; the source
loop only terminates at an end-of-chain entry). -/
def get_last_go (d : Disk) : Nat → Nat → Except String Nat
  | _, 0 => Except.error "fat cycle"
  | c, fuel + 1 =>
    if FAT32_EOC ≤ get_fat_entry d c then Except.ok c
    else get_last_go d (get_fat_entry d c) fuel

/-- get_last_cluster. -/
def get_last_cluster (d : Disk) (start : Nat) : Except String Nat :=
  get_last_go d start (d.fat.length + 1)

/-- The scan loop of find_free_dir_slots: returns the found offset together
with the final consecutive-free count and start offset for the post-loop
branch. -/
def find_slots_go (data : List Nat) (slots : Nat) :
    Nat → Nat → Nat → Nat → Option Nat × Nat × Nat
  | 0, _, cf, so => (none, cf, so)
  | fuel + 1, i, cf, so =>
    if i + DIR_ENTRY_SIZE ≤ data.length then
      if data.getD i 0 = 0 ∨ data.getD i 0 = DELETED_MARKER then
        let so2 := if cf = 0 then i else so
        if slots ≤ cf + 1 then (some so2, cf + 1, so2)
        else find_slots_go data slots fuel (i + DIR_ENTRY_SIZE) (cf + 1) so2
      else find_slots_go data slots fuel (i + DIR_ENTRY_SIZE) 0 so
    else (none, cf, so)

/-- find_free_dir_slots: scan the directory bytes for enough consecutive
free 32-byte slots; otherwise grow the buffer by one cluster, keeping a
trailing free run's offset when there is one. -/
def find_free_dir_slots (d : Disk) (dir_cluster slots : Nat) :
    Except String (List Nat × Nat) :=
  let data := read_chain d dir_cluster
  match find_slots_go data slots (data.length / DIR_ENTRY_SIZE + 1) 0 0 0 with
  | (some off, _, _) => Except.ok (data, off)
  | (none, cf, so) =>
    match get_last_cluster d dir_cluster with
    | Except.error e => Except.error e
    | Except.ok _ =>
      if 0 < cf then Except.ok (data ++ List.replicate d.clusterSize 0, so)
      else Except.ok (data ++ List.replicate d.clusterSize 0, data.length)

/-- The copy_from_slice of a serialized entry into the buffer at a byte
offset. -/
def writeAt (data : List Nat) (off : Nat) (bytes : List Nat) : List Nat :=
  data.take off ++ bytes ++ data.drop (off + bytes.length)

/-- The LFN-entry write loop of add_dir_entry: consecutive 32-byte slots
from the found offset. -/
def writeEntriesAt : List LfnEntry → List Nat → Nat → List Nat
  | [], data, _ => data
  | e :: rest, data, off =>
    writeEntriesAt rest (writeAt data off e.serialize) (off + DIR_ENTRY_SIZE)

/-- add_dir_entry: build the short name, the LFN entries when needed, place
them into free slots of the directory buffer and write the buffer back
through write_chain.  Returns the disk after the write. -/
def add_dir_entry (d : Disk) (dir_cluster : Nat) (name : List Nat)
    (attr cluster size : Nat) : Except String Disk :=
  let short := make_short_name name
  let lfns := if needs_lfn name then create_lfn_entries name short else []
  match find_free_dir_slots d dir_cluster (lfns.length + 1) with
  | Except.error e => Except.error e
  | Except.ok (data, off) =>
    let data2 := writeEntriesAt lfns data off
    let data3 := writeAt data2 (off + lfns.length * DIR_ENTRY_SIZE)
      (ShortDirEntry.new name attr cluster size).serialize
    match write_chain d dir_cluster data3 with
    | Except.error e => Except.error e
    | Except.ok p => Except.ok p.fst

end Fat32

namespace Fat32

theorem len2_cases {l : List Nat} (h : l.length = 2) : ∃ a b, l = [a, b] := by
  rcases l with _ | ⟨a, l⟩
  · simp at h
  rcases l with _ | ⟨b, l⟩
  · simp at h
  rcases l with _ | ⟨c, l⟩
  · exact ⟨a, b, rfl⟩
  · simp at h

theorem len5_cases {l : List Nat} (h : l.length = 5) :
    ∃ a b c d e, l = [a, b, c, d, e] := by
  rcases l with _ | ⟨a, l⟩
  · simp at h
  rcases l with _ | ⟨b, l⟩
  · simp at h
  rcases l with _ | ⟨c, l⟩
  · simp at h
  rcases l with _ | ⟨d, l⟩
  · simp at h
  rcases l with _ | ⟨e, l⟩
  · simp at h
  rcases l with _ | ⟨f, l⟩
  · exact ⟨a, b, c, d, e, rfl⟩
  · simp at h

theorem len6_cases {l : List Nat} (h : l.length = 6) :
    ∃ a b c d e f, l = [a, b, c, d, e, f] := by
  rcases l with _ | ⟨a, l⟩
  · simp at h
  obtain ⟨b, c, d, e, f, hl⟩ := len5_cases (by simpa using h)
  exact ⟨a, b, c, d, e, f, by rw [hl]⟩

theorem sized_of_length {w : Nat} {l : List Nat} (h : l.length = w) : sized w l = l := by
  unfold sized
  rw [h, Nat.sub_self]
  simp [List.take_of_length_le (le_of_eq h)]

theorem from_le2_le2 {v : Nat} (h : v < 65536) : from_le2 (v % 256) (v / 256 % 256) = v := by
  unfold from_le2
  omega

theorem padSlots_length (cs : List Nat) (w : Nat) : (padSlots cs w).length = w := by
  unfold padSlots
  simp
  omega

theorem writeAt_length (data : List Nat) (off : Nat) (bytes : List Nat)
    (h : off + bytes.length ≤ data.length) :
    (writeAt data off bytes).length = data.length := by
  unfold writeAt
  simp
  omega

theorem takeWhile_append_all (p : Nat → Bool) (A B : List Nat)
    (h : ∀ c ∈ A, p c = true) :
    (A ++ B).takeWhile p = A ++ B.takeWhile p := by
  induction A with
  | nil => simp
  | cons a t ih =>
    simp only [List.cons_append, List.takeWhile_cons, h a (by simp), if_true]
    exact congrArg (a :: ·) (ih (fun c hc => h c (by simp [hc])))

end Fat32

namespace Fat32

theorem lfn_parse_serialize (e : LfnEntry) (h1 : e.name1.length = 5)
    (h2 : e.name2.length = 6) (h3 : e.name3.length = 2)
    (hb1 : ∀ x ∈ e.name1, x < 65536) (hb2 : ∀ x ∈ e.name2, x < 65536)
    (hb3 : ∀ x ∈ e.name3, x < 65536) (hseq : e.seq < 256) (hck : e.checksum < 256)
    (hattr : e.attr = ATTR_LFN) (htype : e.entry_type = 0) (hclu : e.cluster = 0) :
    LfnEntry.parse e.serialize = some e := by
  obtain ⟨s, n1, av, ty, ck, n2, cl, n3⟩ := e
  dsimp only at h1 h2 h3 hb1 hb2 hb3 hseq hck hattr htype hclu
  subst hattr
  subst htype
  subst hclu
  obtain ⟨a1, a2, a3, a4, a5, hn1⟩ := len5_cases h1
  obtain ⟨b1, b2, b3, b4, b5, b6, hn2⟩ := len6_cases h2
  obtain ⟨c1, c2, hn3⟩ := len2_cases h3
  subst hn1
  subst hn2
  subst hn3
  have ha1 := hb1 a1 (by simp)
  have ha2 := hb1 a2 (by simp)
  have ha3 := hb1 a3 (by simp)
  have ha4 := hb1 a4 (by simp)
  have ha5 := hb1 a5 (by simp)
  have hc1 := hb2 b1 (by simp)
  have hc2 := hb2 b2 (by simp)
  have hc3 := hb2 b3 (by simp)
  have hc4 := hb2 b4 (by simp)
  have hc5 := hb2 b5 (by simp)
  have hc6 := hb2 b6 (by simp)
  have hd1 := hb3 c1 (by simp)
  have hd2 := hb3 c2 (by simp)
  simp [LfnEntry.parse, LfnEntry.serialize, sized, le2, from_le2, ATTR_LFN,
    DIR_ENTRY_SIZE, List.getD]
  omega

theorem lfn_serialize_length (e : LfnEntry) (h1 : e.name1.length = 5)
    (h2 : e.name2.length = 6) (h3 : e.name3.length = 2) :
    e.serialize.length = 32 := by
  obtain ⟨s, n1, av, ty, ck, n2, cl, n3⟩ := e
  dsimp only at h1 h2 h3
  obtain ⟨a1, a2, a3, a4, a5, hn1⟩ := len5_cases h1
  obtain ⟨b1, b2, b3, b4, b5, b6, hn2⟩ := len6_cases h2
  obtain ⟨c1, c2, hn3⟩ := len2_cases h3
  subst hn1
  subst hn2
  subst hn3
  simp [LfnEntry.serialize, sized, le2]

theorem lfn_serialize_getD0 (e : LfnEntry) : e.serialize.getD 0 0 = e.seq % 256 := by
  simp [LfnEntry.serialize]

theorem lfn_serialize_getD11 (e : LfnEntry) (h1 : e.name1.length = 5) :
    e.serialize.getD 11 0 = ATTR_LFN := by
  obtain ⟨a1, a2, a3, a4, a5, hn1⟩ := len5_cases h1
  unfold LfnEntry.serialize
  rw [hn1]
  simp [sized, le2, List.getD]

end Fat32

namespace Fat32

theorem map_mod_eq_self {A : List Nat} (h : ∀ b ∈ A, b < 256) :
    A.map (· % 256) = A := by
  have h2 : A.map (· % 256) = A.map id :=
    List.map_congr_left (fun b hb => Nat.mod_eq_of_lt (h b hb))
  rw [h2, List.map_id]

theorem short_serialize_decomp (s : ShortDirEntry) (hname : s.name.length = 11)
    (hbytes : ∀ b ∈ s.name, b < 256) :
    s.serialize = s.name ++ [s.attr % 256, s.nt_res % 256, s.create_time_tenth % 256,
      s.create_time % 256, s.create_time / 256 % 256,
      s.create_date % 256, s.create_date / 256 % 256,
      s.access_date % 256, s.access_date / 256 % 256,
      s.cluster_high % 256, s.cluster_high / 256 % 256,
      s.modify_time % 256, s.modify_time / 256 % 256,
      s.modify_date % 256, s.modify_date / 256 % 256,
      s.cluster_low % 256, s.cluster_low / 256 % 256,
      s.size % 256, s.size / 256 % 256, s.size / 65536 % 256,
      s.size / 16777216 % 256] := by
  unfold ShortDirEntry.serialize
  rw [map_mod_eq_self hbytes, sized_of_length hname]
  simp [le2, le4]

theorem short_serialize_length (s : ShortDirEntry) (hname : s.name.length = 11)
    (hbytes : ∀ b ∈ s.name, b < 256) : s.serialize.length = 32 := by
  rw [short_serialize_decomp s hname hbytes]
  simp [hname]

theorem short_serialize_getD0 (s : ShortDirEntry) (hname : s.name.length = 11)
    (hbytes : ∀ b ∈ s.name, b < 256) :
    s.serialize.getD 0 0 = s.name.getD 0 0 := by
  rw [short_serialize_decomp s hname hbytes]
  exact List.getD_append _ _ 0 0 (by omega)

theorem short_serialize_getD11 (s : ShortDirEntry) (hname : s.name.length = 11)
    (hbytes : ∀ b ∈ s.name, b < 256) :
    s.serialize.getD 11 0 = s.attr % 256 := by
  rw [short_serialize_decomp s hname hbytes]
  rw [List.getD_append_right _ _ 0 11 (by omega), hname]
  simp

theorem len11_cases {l : List Nat} (h : l.length = 11) :
    ∃ a b c d e f g u v w x, l = [a, b, c, d, e, f, g, u, v, w, x] := by
  rcases l with _ | ⟨a, l⟩
  · simp at h
  have h10 : l.length = 10 := by simpa using h
  obtain ⟨b, c, d, e, f, hl5⟩ := len5_cases (l := l.take 5)
    (by simp [h10])
  obtain ⟨g, u, v, w, x, hl10⟩ := len5_cases (l := (l.drop 5).take 5)
    (by simp [h10])
  refine ⟨a, b, c, d, e, f, g, u, v, w, x, ?_⟩
  have hrest : (l.drop 5).drop 5 = [] := by
    have hz : ((l.drop 5).drop 5).length = 0 := by simp [h10]
    exact List.eq_nil_of_length_eq_zero hz
  have hsplit : l = l.take 5 ++ ((l.drop 5).take 5 ++ (l.drop 5).drop 5) := by
    rw [List.take_append_drop, List.take_append_drop]
  rw [hsplit, hl5, hl10, hrest]
  simp

theorem short_parse_serialize (s : ShortDirEntry) (hname : s.name.length = 11)
    (hbytes : ∀ b ∈ s.name, b < 256) (hhead : s.name.getD 0 0 ≠ 0)
    (hattr : s.attr < 256) (hnt : s.nt_res < 256) (hctt : s.create_time_tenth < 256)
    (hct : s.create_time < 65536) (hcd : s.create_date < 65536)
    (had : s.access_date < 65536) (hch : s.cluster_high < 65536)
    (hmt : s.modify_time < 65536) (hmd : s.modify_date < 65536)
    (hcl : s.cluster_low < 65536) (hsz : s.size < 4294967296) :
    ShortDirEntry.parse s.serialize = some s := by
  obtain ⟨nm, av, nt, ctt, ct, cd, ad, ch, mt, md, cl, sz⟩ := s
  dsimp only at hname hbytes hhead hattr hnt hctt hct hcd had hch hmt hmd hcl hsz
  obtain ⟨a, b, c, d, e, f, g, u, v, w, x, hnm⟩ := len11_cases hname
  subst hnm
  have hha := hbytes a (by simp)
  have hhb := hbytes b (by simp)
  have hhc := hbytes c (by simp)
  have hhd := hbytes d (by simp)
  have hhe := hbytes e (by simp)
  have hhf := hbytes f (by simp)
  have hhg := hbytes g (by simp)
  have hhu := hbytes u (by simp)
  have hhv := hbytes v (by simp)
  have hhw := hbytes w (by simp)
  have hhx := hbytes x (by simp)
  have hhead2 : a ≠ 0 := by simpa [List.getD] using hhead
  simp [ShortDirEntry.parse, ShortDirEntry.serialize, sized, le2, le4, from_le2,
    DIR_ENTRY_SIZE, List.getD, hhead2]
  omega

end Fat32

namespace Fat32

theorem shortByte_range (c : Nat) :
    32 ≤ shortByte c ∧ shortByte c ≤ 122 ∧ shortByte c ≠ 46 := by
  unfold shortByte
  split
  · rename_i hc
    rcases hc with hal | h95 | h45
    · simp [isAsciiAlnum] at hal
      omega
    · omega
    · omega
  · omega

theorem make_short_name_length (N : List Nat) : (make_short_name N).length = 11 := by
  unfold make_short_name
  simp
  omega

theorem make_short_name_bytes (N : List Nat) :
    ∀ b ∈ make_short_name N, 32 ≤ b ∧ b ≤ 122 ∧ b ≠ 46 := by
  intro b hb
  unfold make_short_name at hb
  simp only [List.mem_append] at hb
  rcases hb with ((hb | hb) | hb) | hb
  · obtain ⟨c, _, hc⟩ := List.mem_map.mp hb
    rw [← hc]
    exact shortByte_range c
  · rw [List.eq_of_mem_replicate hb]
    omega
  · obtain ⟨c, _, hc⟩ := List.mem_map.mp hb
    rw [← hc]
    exact shortByte_range c
  · rw [List.eq_of_mem_replicate hb]
    omega

theorem make_short_name_head (N : List Nat) : (make_short_name N).getD 0 0 ≠ 0 := by
  have hm : (make_short_name N).getD 0 0 ∈ make_short_name N :=
    getD_mem_of_lt _ _ _ (by rw [make_short_name_length]; omega)
  have := make_short_name_bytes N _ hm
  omega

theorem lfn_checksum_lt (l : List Nat) : lfn_checksum l < 256 := by
  unfold lfn_checksum
  have hgen : ∀ (l2 : List Nat) (s : Nat), s < 256 →
      l2.foldl (fun sum b => (rotr8 sum + b) % 256) s < 256 := by
    intro l2
    induction l2 with
    | nil => intro s hs; exact hs
    | cons a t ih =>
      intro s hs
      exact ih _ (Nat.mod_lt _ (by omega))
  exact hgen l 0 (by omega)

end Fat32

namespace Fat32

theorem lfn_charcheck_false {N : List Nat}
    (h : (N.any fun c => decide (97 ≤ c ∧ c ≤ 122)
      || (!isAsciiAlnum c && decide (c ≠ 46 ∧ c ≠ 95 ∧ c ≠ 45))) = false) :
    ∀ c ∈ N, ¬(97 ≤ c ∧ c ≤ 122) ∧
      (isAsciiAlnum c = true ∨ c = 46 ∨ c = 95 ∨ c = 45) := by
  intro c hc
  have hcf := List.any_eq_false.mp h c hc
  simp at hcf
  obtain ⟨hlow, hrest⟩ := hcf
  refine ⟨by omega, ?_⟩
  by_cases hal : isAsciiAlnum c = true
  · exact Or.inl hal
  have hal2 : isAsciiAlnum c = false := by simpa using hal
  by_cases h46 : c = 46
  · exact Or.inr (Or.inl h46)
  by_cases h95 : c = 95
  · exact Or.inr (Or.inr (Or.inl h95))
  · exact Or.inr (Or.inr (Or.inr (hrest hal2 h46 h95)))

theorem needs_lfn_false_facts (N : List Nat) (h : needs_lfn N = false) :
    N.length ≤ 12 ∧
    (N.contains 46 = true →
      (beforeLastDot N).length ≤ 8 ∧ (afterLastDot N).length ≤ 3) ∧
    (N.contains 46 = false → N.length ≤ 8) ∧
    (∀ c ∈ N, ¬(97 ≤ c ∧ c ≤ 122) ∧
      (isAsciiAlnum c = true ∨ c = 46 ∨ c = 95 ∨ c = 45)) := by
  unfold needs_lfn at h
  split at h
  · exact absurd h (by simp)
  rename_i h1
  split at h
  · rename_i hd
    split at h
    · exact absurd h (by simp)
    rename_i hlens
    push_neg at hlens
    refine ⟨by omega, fun _ => ⟨hlens.1, hlens.2⟩, ?_, lfn_charcheck_false h⟩
    intro hne
    rw [hne] at hd
    simp at hd
  · rename_i hd
    split at h
    · exact absurd h (by simp)
    rename_i hlen8
    refine ⟨by omega, ?_, fun _ => by omega, lfn_charcheck_false h⟩
    intro hcontra
    rw [hcontra] at hd
    exact absurd rfl hd

end Fat32

namespace Fat32

theorem toLowerChar_46 : toLowerChar 46 = 46 := by
  unfold toLowerChar
  norm_num

theorem short_name_make_83 (N : List Nat) (hlen1 : 1 ≤ N.length)
    (hnl : needs_lfn N = false) (hdots : N.count 46 ≤ 1)
    (hlast : N.getLast? ≠ some 46) (s : ShortDirEntry)
    (hs : s.name = make_short_name N) :
    short_name s = N.map toLowerChar := by
  obtain ⟨h12, hdotcase, hnodotcase, hchars⟩ := needs_lfn_false_facts N hnl
  have hupper : N.map toUpperChar = N := by
    have h2 : N.map toUpperChar = N.map id := List.map_congr_left (fun c hc => by
      unfold toUpperChar
      rw [if_neg (hchars c hc).1]
      rfl)
    rw [h2, List.map_id]
  have hkeep : ∀ c ∈ N, c ≠ 46 → shortByte c = c := by
    intro c hc hne
    unfold shortByte
    rcases (hchars c hc).2 with hal | h46 | h95 | h45
    · rw [if_pos (Or.inl hal)]
    · exact absurd h46 hne
    · rw [if_pos (Or.inr (Or.inl h95))]
    · rw [if_pos (Or.inr (Or.inr h45))]
  have hne32 : ∀ c ∈ N, (c != 32) = true := by
    intro c hc
    rcases (hchars c hc).2 with hal | h46 | h95 | h45
    · simp [isAsciiAlnum] at hal
      simp
      omega
    · simp
      omega
    · simp
      omega
    · simp
      omega
  unfold short_name
  rw [hs]
  by_cases hd : N.contains 46 = true
  · have hmem46 : 46 ∈ N := by simpa using hd
    obtain ⟨B, E, hBE⟩ := List.append_of_mem hmem46
    have hcnt : N.count 46 = 1 := by
      have hge : 1 ≤ N.count 46 := by
        rw [hBE]
        simp [List.count_append]
        omega
      omega
    have hBn : 46 ∉ B := by
      rw [hBE] at hcnt
      simp [List.count_append] at hcnt
      exact List.count_eq_zero.mp (by omega)
    have hEn : 46 ∉ E := by
      rw [hBE] at hcnt
      simp [List.count_append] at hcnt
      exact List.count_eq_zero.mp (by omega)
    have hEne : E ≠ [] := by
      intro he
      rw [he] at hBE
      rw [hBE] at hlast
      exact hlast (List.getLast?_concat B)
    have hafter : afterLastDot N = E := by
      unfold afterLastDot
      rw [hBE]
      have hrev : (B ++ 46 :: E).reverse = E.reverse ++ ([46] ++ B.reverse) := by
        simp
      rw [hrev, takeWhile_append_all _ _ _ (fun c hc => by
        simp
        intro hce
        exact hEn (hce ▸ List.mem_reverse.mp hc))]
      simp
    have hbefore : beforeLastDot N = B := by
      unfold beforeLastDot
      rw [hafter, hBE]
      have hl : (B ++ 46 :: E).length - E.length - 1 = B.length := by
        simp
        omega
      rw [hl]
      exact List.take_left' rfl
    obtain ⟨hB8, hE3⟩ := hdotcase hd
    rw [hbefore] at hB8
    rw [hafter] at hE3
    have hmake : make_short_name N
        = B ++ (List.replicate (8 - B.length) 32
          ++ (E ++ List.replicate (3 - E.length) 32)) := by
      unfold make_short_name
      simp only [hd, if_true, hupper, hbefore, hafter]
      rw [List.take_of_length_le hB8, List.take_of_length_le hE3]
      have hmapB : B.map shortByte = B := by
        have h2 : B.map shortByte = B.map id := List.map_congr_left (fun c hc =>
          hkeep c (by rw [hBE]; simp [hc]) (fun hce => hBn (hce ▸ hc)))
        rw [h2, List.map_id]
      have hmapE : E.map shortByte = E := by
        have h2 : E.map shortByte = E.map id := List.map_congr_left (fun c hc =>
          hkeep c (by rw [hBE]; simp [hc]) (fun hce => hEn (hce ▸ hc)))
        rw [h2, List.map_id]
      rw [hmapB, hmapE]
      simp
    rw [hmake]
    have htake8 : (B ++ (List.replicate (8 - B.length) 32
        ++ (E ++ List.replicate (3 - E.length) 32))).take 8
        = B ++ List.replicate (8 - B.length) 32 := by
      rw [List.take_append_eq_append_take, List.take_of_length_le hB8]
      simp [List.take_append_eq_append_take, List.take_replicate]
    have hdrop8 : (B ++ (List.replicate (8 - B.length) 32
        ++ (E ++ List.replicate (3 - E.length) 32))).drop 8
        = E ++ List.replicate (3 - E.length) 32 := by
      rw [List.drop_append_eq_append_drop, List.drop_eq_nil_of_le hB8]
      simp [List.drop_append_eq_append_drop, List.drop_replicate]
    rw [htake8, hdrop8]
    have hnp : ((B ++ List.replicate (8 - B.length) 32).takeWhile
        (fun c => c != 32)) = B := by
      rw [takeWhile_append_all _ _ _ (fun c hc =>
        hne32 c (by rw [hBE]; simp [hc]))]
      rw [List.takeWhile_replicate]
      simp
    have hep : (((E ++ List.replicate (3 - E.length) 32).take 3).takeWhile
        (fun c => c != 32)) = E := by
      rw [List.take_append_eq_append_take, List.take_of_length_le hE3,
        List.take_replicate]
      have hmin : min (3 - E.length) (3 - E.length) = 3 - E.length := by omega
      rw [hmin]
      rw [takeWhile_append_all _ _ _ (fun c hc =>
        hne32 c (by rw [hBE]; simp [hc]))]
      rw [List.takeWhile_replicate]
      simp
    rw [hnp, hep]
    have hemp : (E.map toLowerChar).isEmpty = false := by
      rcases E with _ | ⟨e, t⟩
      · exact absurd rfl hEne
      · simp
    rw [if_neg (by simp [hemp])]
    rw [hBE]
    simp [toLowerChar_46]
  · have hnmem : 46 ∉ N := by
      have hdf : N.contains 46 = false := by
        rcases hcb : N.contains 46 with hv | hv
        · rfl
        · exact absurd hcb hd
      simpa using hdf
    have hdf : N.contains 46 = false := by simpa using hnmem
    have hlen8 : N.length ≤ 8 := hnodotcase hdf
    have hmake : make_short_name N = N ++ List.replicate (11 - N.length) 32 := by
      unfold make_short_name
      simp only [hdf, Bool.false_eq_true, if_false, hupper]
      rw [List.take_of_length_le hlen8]
      have hmapN : N.map shortByte = N := by
        have h2 : N.map shortByte = N.map id := List.map_congr_left (fun c hc =>
          hkeep c hc (fun hce => hnmem (hce ▸ hc)))
        rw [h2, List.map_id]
      rw [hmapN]
      simp
      have h3 : ([32, 32, 32] : List Nat) = List.replicate 3 32 := rfl
      rw [h3, ← List.replicate_add]
      have hn : 8 - N.length + 3 = 11 - N.length := by omega
      rw [hn]
    rw [hmake]
    have htake8 : (N ++ List.replicate (11 - N.length) 32).take 8
        = N ++ List.replicate (8 - N.length) 32 := by
      rw [List.take_append_eq_append_take, List.take_of_length_le hlen8,
        List.take_replicate]
      have hmin : min (8 - N.length) (11 - N.length) = 8 - N.length := by omega
      rw [hmin]
    have hdrop8 : (N ++ List.replicate (11 - N.length) 32).drop 8
        = List.replicate 3 32 := by
      rw [List.drop_append_eq_append_drop, List.drop_eq_nil_of_le hlen8,
        List.drop_replicate]
      have : 11 - N.length - (8 - N.length) = 3 := by omega
      simp [this]
    rw [htake8, hdrop8]
    have hnp : ((N ++ List.replicate (8 - N.length) 32).takeWhile
        (fun c => c != 32)) = N := by
      rw [takeWhile_append_all _ _ _ hne32, List.takeWhile_replicate]
      simp
    have hep : (((List.replicate 3 32 : List Nat).take 3).takeWhile
        (fun c => c != 32)) = [] := by
      rw [List.take_replicate]
      rw [List.takeWhile_replicate]
      simp
    rw [hnp, hep]
    simp

end Fat32

namespace Fat32

theorem lfnCollect_run (pre : List Nat) :
    ∀ (rest acc : List Nat),
    (∀ c ∈ pre, c ≠ 0 ∧ c ≠ 65535 ∧ isValidChar c = true) →
    (rest = [] ∨ ∃ x rest2, rest = x :: rest2 ∧ (x = 0 ∨ x = 65535)) →
    lfnCollect (pre ++ rest) acc = acc ++ pre := by
  induction pre with
  | nil =>
    intro rest acc hpre hstop
    rcases hstop with hr | ⟨x, r2, hr, hx⟩
    · rw [hr]
      simp [lfnCollect]
    · rw [hr]
      simp only [List.nil_append, List.append_nil]
      unfold lfnCollect
      rw [if_pos hx]
  | cons c pre ih =>
    intro rest acc hpre hstop
    have hc := hpre c (by simp)
    simp only [List.cons_append]
    unfold lfnCollect
    rw [if_neg (by push_neg; exact ⟨hc.1, hc.2.1⟩), if_pos hc.2.2]
    rw [ih rest (acc ++ [c]) (fun x hx => hpre x (by simp [hx])) hstop]
    simp

theorem ascii_slot_ok {cs : List Nat} (hval : ∀ c ∈ cs, 1 ≤ c ∧ c < 55296) :
    ∀ c ∈ cs, c ≠ 0 ∧ c ≠ 65535 ∧ isValidChar c = true := by
  intro c hc
  have h := hval c hc
  refine ⟨by omega, by omega, ?_⟩
  simp [isValidChar]
  omega

theorem map_mod65536_eq_self {A : List Nat} (h : ∀ b ∈ A, b < 55296) :
    A.map (· % 65536) = A := by
  have h2 : A.map (· % 65536) = A.map id :=
    List.map_congr_left (fun b hb => Nat.mod_eq_of_lt (by have := h b hb; omega))
  rw [h2, List.map_id]

theorem lfn_new_chars (cs : List Nat) (h13 : cs.length ≤ 13)
    (hval : ∀ c ∈ cs, 1 ≤ c ∧ c < 55296) (seq ck : Nat) (last : Bool) :
    (LfnEntry.new seq ck cs last).chars = cs := by
  have hok := ascii_slot_ok hval
  have hokt : ∀ n, ∀ c ∈ cs.take n, c ≠ 0 ∧ c ≠ 65535 ∧ isValidChar c = true :=
    fun n c hc => hok c (List.mem_of_mem_take hc)
  have hokd : ∀ n, ∀ c ∈ cs.drop n, c ≠ 0 ∧ c ≠ 65535 ∧ isValidChar c = true :=
    fun n c hc => hok c (List.mem_of_mem_drop hc)
  have hmod : cs.map (· % 65536) = cs :=
    map_mod65536_eq_self (fun b hb => (hval b hb).2)
  have hmodt : ∀ n, (cs.take n).map (· % 65536) = cs.take n := fun n =>
    map_mod65536_eq_self (fun b hb => (hval b (List.mem_of_mem_take hb)).2)
  have hmodd : ∀ n, (cs.drop n).map (· % 65536) = cs.drop n := fun n =>
    map_mod65536_eq_self (fun b hb => (hval b (List.mem_of_mem_drop hb)).2)
  have hlt : (cs.take 5).length = min 5 cs.length := by simp
  have hld : ∀ n, (cs.drop n).length = cs.length - n := by simp
  by_cases h5 : cs.length < 5
  · have hn1 : (LfnEntry.new seq ck cs last).name1
        = cs ++ (0 :: List.replicate (4 - cs.length) 65535) := by
      simp only [LfnEntry.new, if_pos h5]
      unfold padSlots
      rw [hmod, List.take_of_length_le (by omega)]
      have hrep : (5 - cs.length) = (4 - cs.length) + 1 := by omega
      rw [hrep]
      have hset : (cs ++ List.replicate (4 - cs.length + 1) 65535).set cs.length 0
          = cs ++ (List.replicate (4 - cs.length + 1) 65535).set 0 0 := by
        rw [List.set_append_right _ _ (le_refl _)]
        simp
      rw [hset, List.replicate_succ]
      rfl
    unfold LfnEntry.chars
    rw [hn1, lfnCollect_run cs _ [] hok (Or.inr ⟨0, _, rfl, Or.inl rfl⟩)]
    simp only [List.nil_append]
    rw [if_pos h5]
  · push_neg at h5
    have hn1 : (LfnEntry.new seq ck cs last).name1 = cs.take 5 := by
      simp only [LfnEntry.new, if_neg (by omega : ¬ cs.length < 5)]
      unfold padSlots
      rw [hmod]
      have hrep : (5 - cs.length) = 0 := by omega
      rw [hrep]
      simp
    by_cases h11 : cs.length < 11
    · have hn2 : (LfnEntry.new seq ck cs last).name2
          = cs.drop 5 ++ (0 :: List.replicate (5 - (cs.length - 5)) 65535) := by
        simp only [LfnEntry.new, if_pos (by omega : 5 ≤ cs.length ∧ cs.length < 11)]
        unfold padSlots
        rw [hmodd 5, List.take_of_length_le (by rw [hld]; omega), hld]
        have hrep : (6 - (cs.length - 5)) = (5 - (cs.length - 5)) + 1 := by omega
        rw [hrep]
        have hset : (cs.drop 5 ++
            List.replicate (5 - (cs.length - 5) + 1) 65535).set (cs.length - 5) 0
            = cs.drop 5 ++ (List.replicate (5 - (cs.length - 5) + 1) 65535).set 0 0 := by
          have he : cs.length - 5 = (cs.drop 5).length := by rw [hld]
          rw [he, List.set_append_right _ _ (le_refl _)]
          simp
        rw [hset, List.replicate_succ]
        rfl
      unfold LfnEntry.chars
      rw [hn1, hn2]
      rw [show cs.take 5 = cs.take 5 ++ [] by simp]
      rw [lfnCollect_run (cs.take 5) [] [] (hokt 5) (Or.inl rfl)]
      simp only [List.nil_append]
      rw [if_neg (by rw [hlt]; omega)]
      rw [lfnCollect_run (cs.drop 5) _ (cs.take 5) (hokd 5)
        (Or.inr ⟨0, _, rfl, Or.inl rfl⟩)]
      rw [List.take_append_drop]
      rw [if_pos (by omega)]
    · push_neg at h11
      have hn2 : (LfnEntry.new seq ck cs last).name2 = (cs.drop 5).take 6 := by
        simp only [LfnEntry.new, if_neg (by omega : ¬(5 ≤ cs.length ∧ cs.length < 11))]
        unfold padSlots
        rw [hmodd 5, hld]
        have hrep : (6 - (cs.length - 5)) = 0 := by omega
        rw [hrep]
        simp
      have htake11 : cs.take 5 ++ (cs.drop 5).take 6 = cs.take 11 := by
        rw [show (11 : Nat) = 5 + 6 from rfl, List.take_add]
      by_cases h13e : cs.length < 13
      · have hn3 : (LfnEntry.new seq ck cs last).name3
            = cs.drop 11 ++ (0 :: List.replicate (1 - (cs.length - 11)) 65535) := by
          simp only [LfnEntry.new,
            if_pos (by omega : 11 ≤ cs.length ∧ cs.length < 13)]
          unfold padSlots
          rw [hmodd 11, List.take_of_length_le (by rw [hld]; omega), hld]
          have hrep : (2 - (cs.length - 11)) = (1 - (cs.length - 11)) + 1 := by omega
          rw [hrep]
          have hset : (cs.drop 11 ++
              List.replicate (1 - (cs.length - 11) + 1) 65535).set (cs.length - 11) 0
              = cs.drop 11
                ++ (List.replicate (1 - (cs.length - 11) + 1) 65535).set 0 0 := by
            have he : cs.length - 11 = (cs.drop 11).length := by rw [hld]
            rw [he, List.set_append_right _ _ (le_refl _)]
            simp
          rw [hset, List.replicate_succ]
          rfl
        unfold LfnEntry.chars
        rw [hn1, hn2, hn3]
        rw [show cs.take 5 = cs.take 5 ++ [] by simp]
        rw [lfnCollect_run (cs.take 5) [] [] (hokt 5) (Or.inl rfl)]
        simp only [List.nil_append]
        rw [if_neg (by rw [hlt]; omega)]
        rw [show (cs.drop 5).take 6 = (cs.drop 5).take 6 ++ [] by simp]
        rw [lfnCollect_run ((cs.drop 5).take 6) [] (cs.take 5)
          (fun c hc => hokd 5 c (List.mem_of_mem_take hc)) (Or.inl rfl)]
        rw [htake11]
        rw [if_neg (by simp; omega)]
        rw [lfnCollect_run (cs.drop 11) _ (cs.take 11) (hokd 11)
          (Or.inr ⟨0, _, rfl, Or.inl rfl⟩)]
        rw [List.take_append_drop]
      · push_neg at h13e
        have hlen13 : cs.length = 13 := by omega
        have hn3 : (LfnEntry.new seq ck cs last).name3 = cs.drop 11 := by
          simp only [LfnEntry.new,
            if_neg (by omega : ¬(11 ≤ cs.length ∧ cs.length < 13))]
          unfold padSlots
          rw [hmodd 11, hld]
          have hrep : (2 - (cs.length - 11)) = 0 := by omega
          rw [hrep]
          rw [List.take_of_length_le (by rw [hld]; omega)]
          simp
        unfold LfnEntry.chars
        rw [hn1, hn2, hn3]
        rw [show cs.take 5 = cs.take 5 ++ [] by simp]
        rw [lfnCollect_run (cs.take 5) [] [] (hokt 5) (Or.inl rfl)]
        simp only [List.nil_append]
        rw [if_neg (by rw [hlt]; omega)]
        rw [show (cs.drop 5).take 6 = (cs.drop 5).take 6 ++ [] by simp]
        rw [lfnCollect_run ((cs.drop 5).take 6) [] (cs.take 5)
          (fun c hc => hokd 5 c (List.mem_of_mem_take hc)) (Or.inl rfl)]
        rw [htake11]
        rw [if_neg (by simp; omega)]
        rw [show cs.drop 11 = cs.drop 11 ++ [] by simp]
        rw [lfnCollect_run (cs.drop 11) [] (cs.take 11) (hokd 11) (Or.inl rfl)]
        rw [List.take_append_drop]

end Fat32

namespace Fat32

theorem or64_and64 (x : Nat) : (x ||| 64) &&& 64 = 64 := by
  have h := Nat.and_two_pow (x ||| 64) 6
  norm_num at h
  rw [h]
  have h64 : Nat.testBit 64 6 = true := by decide
  rw [h64]
  simp

theorem lt64_and64 (x : Nat) (h : x < 64) : x &&& 64 = 0 := by
  have h2 := Nat.and_two_pow x 6
  norm_num at h2
  rw [h2, Nat.testBit_lt_two_pow (by norm_num; omega)]
  simp

theorem lfn_new_is_last (seq ck : Nat) (cs : List Nat) (last : Bool)
    (hseq : seq < 64) :
    (LfnEntry.new seq ck cs last).is_last = last := by
  unfold LfnEntry.is_last
  simp only [LfnEntry.new]
  cases last with
  | true =>
    rw [if_pos rfl]
    unfold LFN_LAST_ENTRY
    rw [or64_and64]
    simp
  | false =>
    rw [if_neg (by simp)]
    unfold LFN_LAST_ENTRY
    rw [lt64_and64 seq hseq]
    simp

theorem lfn_new_seq_val (seq ck : Nat) (cs : List Nat) (last : Bool)
    (hseq1 : 1 ≤ seq) (hseq : seq < 64) :
    1 ≤ (LfnEntry.new seq ck cs last).seq ∧ (LfnEntry.new seq ck cs last).seq < 128 := by
  simp only [LfnEntry.new]
  cases last with
  | true =>
    rw [if_pos rfl]
    unfold LFN_LAST_ENTRY
    constructor
    · by_contra hz
      push_neg at hz
      have h0 : seq ||| 64 = 0 := by omega
      have hb := congrArg (fun t => Nat.testBit t 6) h0
      simp only at hb
      rw [Nat.testBit_or] at hb
      simp [Nat.zero_testBit] at hb
      exact absurd hb.2 (by decide)
    · have hor : seq ||| 64 < 2 ^ 7 := Nat.or_lt_two_pow (by omega) (by norm_num)
      norm_num at hor
      exact hor
  | false =>
    rw [if_neg (by simp)]
    omega

theorem lfn_new_lengths (seq ck : Nat) (cs : List Nat) (last : Bool) :
    (LfnEntry.new seq ck cs last).name1.length = 5 ∧
    (LfnEntry.new seq ck cs last).name2.length = 6 ∧
    (LfnEntry.new seq ck cs last).name3.length = 2 := by
  simp only [LfnEntry.new]
  refine ⟨?_, ?_, ?_⟩
  · split <;> simp [padSlots_length]
  · split <;> simp [padSlots_length]
  · split <;> simp [padSlots_length]

theorem padSlots_bounds (cs : List Nat) (w : Nat) :
    ∀ x ∈ padSlots cs w, x < 65536 := by
  intro x hx
  unfold padSlots at hx
  rcases List.mem_append.mp hx with hx | hx
  · obtain ⟨c, _, hc⟩ := List.mem_map.mp (List.mem_of_mem_take hx)
    omega
  · rw [List.eq_of_mem_replicate hx]
    omega

theorem lfn_new_bounds (seq ck : Nat) (cs : List Nat) (last : Bool) :
    (∀ x ∈ (LfnEntry.new seq ck cs last).name1, x < 65536) ∧
    (∀ x ∈ (LfnEntry.new seq ck cs last).name2, x < 65536) ∧
    (∀ x ∈ (LfnEntry.new seq ck cs last).name3, x < 65536) := by
  simp only [LfnEntry.new]
  refine ⟨?_, ?_, ?_⟩
  · split
    · intro x hx
      rcases List.mem_or_eq_of_mem_set hx with hx | hx
      · exact padSlots_bounds _ _ x hx
      · omega
    · exact padSlots_bounds _ _
  · split
    · intro x hx
      rcases List.mem_or_eq_of_mem_set hx with hx | hx
      · exact padSlots_bounds _ _ x hx
      · omega
    · exact padSlots_bounds _ _
  · split
    · intro x hx
      rcases List.mem_or_eq_of_mem_set hx with hx | hx
      · exact padSlots_bounds _ _ x hx
      · omega
    · exact padSlots_bounds _ _

theorem lfn_new_fields (seq ck : Nat) (cs : List Nat) (last : Bool) :
    (LfnEntry.new seq ck cs last).attr = ATTR_LFN ∧
    (LfnEntry.new seq ck cs last).entry_type = 0 ∧
    (LfnEntry.new seq ck cs last).cluster = 0 ∧
    (LfnEntry.new seq ck cs last).checksum = ck := by
  refine ⟨?_, ?_, ?_, ?_⟩ <;> rfl

end Fat32

namespace Fat32

theorem create_lfn_go_length (cs : List Nat) (ck num : Nat) :
    ∀ j, (create_lfn_go cs ck num j).length = j := by
  intro j
  induction j with
  | zero => rfl
  | succ i ih => simp [create_lfn_go, ih]

theorem create_lfn_go_mem (cs : List Nat) (ck num : Nat) :
    ∀ j, ∀ e ∈ create_lfn_go cs ck num j,
    ∃ i, i < j ∧ e = LfnEntry.new (i + 1) ck ((cs.drop (i * 13)).take 13)
      (i + 1 == num) := by
  intro j
  induction j with
  | zero => intro e he; simp [create_lfn_go] at he
  | succ i ih =>
    intro e he
    rcases List.mem_cons.mp he with he | he
    · exact ⟨i, by omega, he⟩
    · obtain ⟨k, hk, hke⟩ := ih e he
      exact ⟨k, by omega, hke⟩

theorem create_lfn_go_flatten (cs : List Nat) (ck num : Nat)
    (hval : ∀ c ∈ cs, 1 ≤ c ∧ c < 55296) :
    ∀ j, (((create_lfn_go cs ck num j).reverse.map LfnEntry.chars)).flatten
      = cs.take (j * 13) := by
  intro j
  induction j with
  | zero => simp [create_lfn_go]
  | succ i ih =>
    have hchunk : (LfnEntry.new (i + 1) ck ((cs.drop (i * 13)).take 13)
        (i + 1 == num)).chars = (cs.drop (i * 13)).take 13 :=
      lfn_new_chars _ (by simp) (fun c hc =>
        hval c (List.mem_of_mem_drop (List.mem_of_mem_take hc))) _ _ _
    simp only [create_lfn_go, List.reverse_cons, List.map_append, List.map_cons,
      List.map_nil, List.flatten_append, List.flatten_cons, List.flatten_nil,
      List.append_nil]
    rw [ih, hchunk]
    have hsm : (i + 1) * 13 = i * 13 + 13 := by ring
    rw [hsm, List.take_add]

end Fat32

namespace Fat32

/-- The facts about one serialized LFN entry that drive the directory scan:
it re-parses to itself, spans exactly one slot, and its first and attribute
bytes route the scan into the LFN branch. -/
def LfnGood (e : LfnEntry) : Prop :=
  LfnEntry.parse e.serialize = some e ∧ e.serialize.length = 32 ∧
  e.serialize.getD 0 0 ≠ 0 ∧ e.serialize.getD 0 0 ≠ DELETED_MARKER ∧
  e.serialize.getD 11 0 = ATTR_LFN

theorem drop_block (data : List Nat) (i : Nat) (B tail : List Nat)
    (hB : B.length = 32) (hdrop : data.drop i = B ++ tail) (hi : i ≤ data.length) :
    (data.drop i).take 32 = B ∧ i + 32 ≤ data.length ∧ data.drop (i + 32) = tail := by
  refine ⟨by rw [hdrop]; exact List.take_left' hB, ?_, ?_⟩
  · have hlen := congrArg List.length hdrop
    simp [hB] at hlen
    omega
  · have h32 : data.drop (i + 32) = (data.drop i).drop 32 := by
      rw [List.drop_drop]
    rw [h32, hdrop, List.drop_append_eq_append_drop, hB]
    simp [List.drop_eq_nil_of_le (le_of_eq hB)]

theorem getD0_of_take (data : List Nat) (i : Nat) (h : i + 32 ≤ data.length) :
    ((data.drop i).take 32).getD 0 0 = data.getD i 0 := by
  rw [List.getD_eq_getElem?_getD, List.getD_eq_getElem?_getD]
  rw [List.getElem?_take, if_pos (by omega : (0 : Nat) < 32), List.getElem?_drop]
  simp

theorem read_dir_go_stop (data : List Nat) (fuel i st : Nat) (parts : List LfnEntry)
    (hz : data.getD i 0 = 0 ∨ data.length < i + 32) :
    read_dir_go data fuel i parts st = [] := by
  cases fuel with
  | zero => rfl
  | succ f =>
    unfold read_dir_go
    simp only [DIR_ENTRY_SIZE]
    rcases hz with hz | hz
    · by_cases hle : i + 32 ≤ data.length
      · rw [if_pos hle, getD0_of_take data i hle, hz]
        simp
      · rw [if_neg hle]
    · rw [if_neg (by omega)]

theorem read_dir_go_lfn_step (data : List Nat) (fuel i st : Nat)
    (parts : List LfnEntry) (e : LfnEntry) (tail : List Nat)
    (hi : i ≤ data.length) (hdrop : data.drop i = e.serialize ++ tail)
    (hg : LfnGood e) :
    read_dir_go data (fuel + 1) i parts st =
      (if e.is_last then read_dir_go data fuel (i + 32) [e] i
       else read_dir_go data fuel (i + 32) (parts ++ [e]) st) := by
  obtain ⟨hparse, hlen, hn0, hne5, ha11⟩ := hg
  obtain ⟨htake, hle, _⟩ := drop_block data i e.serialize tail hlen hdrop hi
  conv_lhs => unfold read_dir_go
  simp only [DIR_ENTRY_SIZE]
  rw [if_pos hle]
  simp only [htake]
  rw [if_neg hn0, if_neg hne5, if_pos ha11, hparse]

theorem read_dir_go_lfn_run (data : List Nat) (L : List LfnEntry) :
    ∀ fuel i st parts tail,
    i ≤ data.length →
    data.drop i = (L.map LfnEntry.serialize).flatten ++ tail →
    (∀ e ∈ L, LfnGood e ∧ e.is_last = false) →
    read_dir_go data (fuel + L.length) i parts st
      = read_dir_go data fuel (i + 32 * L.length) (parts ++ L) st := by
  induction L with
  | nil =>
    intro fuel i st parts tail hi hdrop hL
    simp
  | cons e L ih =>
    intro fuel i st parts tail hi hdrop hL
    have hge := hL e (by simp)
    have hser32 : e.serialize.length = 32 := hge.1.2.1
    rw [List.map_cons, List.flatten_cons, List.append_assoc] at hdrop
    obtain ⟨_, hle, hdrop2⟩ := drop_block data i e.serialize _ hser32 hdrop hi
    have hstep := read_dir_go_lfn_step data (fuel + L.length) i st parts e _ hi hdrop
      hge.1
    have hL2 : ∀ x ∈ L, LfnGood x ∧ x.is_last = false :=
      fun x hx => hL x (by simp [hx])
    have hrec := ih fuel (i + 32) st (parts ++ [e]) tail (by omega) hdrop2 hL2
    have h1 : fuel + (e :: L).length = fuel + L.length + 1 := by
      simp only [List.length_cons]
      omega
    have hstep2 : read_dir_go data (fuel + L.length + 1) i parts st
        = read_dir_go data (fuel + L.length) (i + 32) (parts ++ [e]) st := by
      rw [hstep, hge.2]
      simp
    have h2 : i + 32 + 32 * L.length = i + 32 * (e :: L).length := by
      simp only [List.length_cons]
      have hm : 32 * (L.length + 1) = 32 * L.length + 32 := by ring
      omega
    have h3 : parts ++ [e] ++ L = parts ++ e :: L := by simp
    rw [h1, hstep2, hrec, h2, h3]

end Fat32

namespace Fat32

/-- The facts about one serialized short entry that drive the directory
scan into the listing branch. -/
def ShortGood (s : ShortDirEntry) : Prop :=
  ShortDirEntry.parse s.serialize = some s ∧ s.serialize.length = 32 ∧
  s.serialize.getD 0 0 ≠ 0 ∧ s.serialize.getD 0 0 ≠ DELETED_MARKER ∧
  s.serialize.getD 11 0 ≠ ATTR_LFN ∧ s.is_volume_label = false

theorem read_dir_go_short_step (data : List Nat) (fuel i st : Nat)
    (parts : List LfnEntry) (s : ShortDirEntry) (tail : List Nat)
    (hi : i ≤ data.length) (hdrop : data.drop i = s.serialize ++ tail)
    (hg : ShortGood s)
    (hdot : short_name s ≠ [46] ∧ short_name s ≠ [46, 46]) :
    read_dir_go data (fuel + 1) i parts st =
      { name := if parts.isEmpty then short_name s
          else if parts.all (fun e => e.checksum == lfn_checksum s.name) then
            assemble_lfn parts
          else short_name s,
        short_entry := s, lfn_entries := parts,
        entry_offset := if parts.isEmpty then i else st,
        entry_count := parts.length + 1 }
        :: read_dir_go data fuel (i + 32) [] st := by
  obtain ⟨hparse, hlen, hn0, hne5, hna, hnv⟩ := hg
  obtain ⟨htake, hle, _⟩ := drop_block data i s.serialize tail hlen hdrop hi
  conv_lhs => unfold read_dir_go
  simp only [DIR_ENTRY_SIZE]
  rw [if_pos hle]
  simp only [htake]
  rw [if_neg hn0, if_neg hne5, if_neg hna, hparse]
  dsimp only
  rw [if_neg (by rw [hnv]; simp), if_pos hdot]

end Fat32

namespace Fat32

theorem created_lfn_facts (N sn : List Nat) (hlen255 : N.length ≤ 255) :
    ∀ e ∈ create_lfn_entries N sn,
    LfnGood e ∧ e.checksum = lfn_checksum sn := by
  intro e he
  unfold create_lfn_entries at he
  obtain ⟨i, hi, hie⟩ := create_lfn_go_mem N (lfn_checksum sn) _ _ e he
  have hnum : (N.length + 12) / 13 ≤ 20 := by omega
  subst hie
  have hseq64 : i + 1 < 64 := by omega
  obtain ⟨hl1, hl2, hl3⟩ := lfn_new_lengths (i + 1) (lfn_checksum sn)
    ((N.drop (i * 13)).take 13) (i + 1 == (N.length + 12) / 13)
  obtain ⟨hb1, hb2, hb3⟩ := lfn_new_bounds (i + 1) (lfn_checksum sn)
    ((N.drop (i * 13)).take 13) (i + 1 == (N.length + 12) / 13)
  obtain ⟨hfa, hft, hfc, hfk⟩ := lfn_new_fields (i + 1) (lfn_checksum sn)
    ((N.drop (i * 13)).take 13) (i + 1 == (N.length + 12) / 13)
  obtain ⟨hs1, hs2⟩ := lfn_new_seq_val (i + 1) (lfn_checksum sn)
    ((N.drop (i * 13)).take 13) (i + 1 == (N.length + 12) / 13) (by omega) hseq64
  have hckl : lfn_checksum sn < 256 := lfn_checksum_lt sn
  have hparse := lfn_parse_serialize _ hl1 hl2 hl3 hb1 hb2 hb3 (by omega)
    (by rw [hfk]; exact hckl) hfa hft hfc
  have hg0 := lfn_serialize_getD0 (LfnEntry.new (i + 1) (lfn_checksum sn)
    ((N.drop (i * 13)).take 13) (i + 1 == (N.length + 12) / 13))
  refine ⟨⟨hparse, lfn_serialize_length _ hl1 hl2 hl3, ?_, ?_, lfn_serialize_getD11 _ hl1⟩, hfk⟩
  · rw [hg0, Nat.mod_eq_of_lt (by omega)]
    omega
  · rw [hg0, Nat.mod_eq_of_lt (by omega)]
    unfold DELETED_MARKER
    omega

theorem created_lfn_shape (N sn : List Nat) (hlen1 : 1 ≤ N.length)
    (hlen255 : N.length ≤ 255) :
    ∃ e0 L2, create_lfn_entries N sn = e0 :: L2 ∧ e0.is_last = true ∧
      (∀ e ∈ L2, e.is_last = false) := by
  unfold create_lfn_entries
  have hnum1 : 1 ≤ (N.length + 12) / 13 := by omega
  have hnum20 : (N.length + 12) / 13 ≤ 20 := by omega
  obtain ⟨m, hm⟩ : ∃ m, (N.length + 12) / 13 = m + 1 :=
    ⟨(N.length + 12) / 13 - 1, by omega⟩
  rw [hm]
  refine ⟨_, _, rfl, ?_, ?_⟩
  · rw [lfn_new_is_last _ _ _ _ (by omega)]
    simp
  · intro e he
    obtain ⟨i, hi, hie⟩ := create_lfn_go_mem N (lfn_checksum sn) (m + 1) m e he
    subst hie
    rw [lfn_new_is_last _ _ _ _ (by omega)]
    simp
    omega

theorem created_lfn_assemble (N sn : List Nat)
    (hascii : ∀ c ∈ N, 1 ≤ c ∧ c < 128) :
    assemble_lfn (create_lfn_entries N sn) = N := by
  unfold assemble_lfn create_lfn_entries
  rw [create_lfn_go_flatten N _ _ (fun c hc =>
    ⟨(hascii c hc).1, by have := (hascii c hc).2; omega⟩)]
  have h1 : N.length + 12 = N.length + 13 - 1 := by omega
  have h2 : N.length ≤ ((N.length + 13 - 1) / 13) * 13 :=
    ceil_mul_ge N.length 13 (by omega)
  rw [List.take_of_length_le (by rw [h1]; exact h2)]

end Fat32

namespace Fat32

theorem flatten_ser_length (L : List LfnEntry)
    (h : ∀ e ∈ L, e.serialize.length = 32) :
    ((L.map LfnEntry.serialize).flatten).length = 32 * L.length := by
  induction L with
  | nil => simp
  | cons e L ih =>
    simp only [List.map_cons, List.flatten_cons, List.length_append,
      List.length_cons]
    rw [h e (by simp), ih (fun x hx => h x (by simp [hx]))]
    ring

theorem writeEntriesAt_spec : ∀ (L : List LfnEntry) (data : List Nat) (off : Nat),
    (∀ e ∈ L, e.serialize.length = 32) → off + 32 * L.length ≤ data.length →
    writeEntriesAt L data off
      = data.take off ++ ((L.map LfnEntry.serialize).flatten
          ++ data.drop (off + 32 * L.length)) := by
  intro L
  induction L with
  | nil =>
    intro data off hL hle
    simp [writeEntriesAt, List.take_append_drop]
  | cons e L ih =>
    intro data off hL hle
    have he32 : e.serialize.length = 32 := hL e (by simp)
    have hm : 32 * (e :: L).length = 32 * L.length + 32 := by
      simp [List.length_cons]
      ring
    rw [hm] at hle
    have hoff : off + 32 ≤ data.length := by omega
    have hofflen : (data.take off).length = off := by
      simp
      omega
    unfold writeEntriesAt
    simp only [DIR_ENTRY_SIZE]
    have hwlen : (writeAt data off e.serialize).length = data.length := by
      rw [writeAt_length data off e.serialize (by omega)]
    rw [ih (writeAt data off e.serialize) (off + 32)
      (fun x hx => hL x (by simp [hx])) (by rw [hwlen]; omega)]
    have hl2 : (data.take off ++ e.serialize).length = off + 32 := by
      simp [he32]
      omega
    have h1 : (writeAt data off e.serialize).take (off + 32)
        = data.take off ++ e.serialize := by
      unfold writeAt
      rw [he32, List.take_append_eq_append_take,
        List.take_of_length_le (le_of_eq hl2), hl2, Nat.sub_self, List.take_zero,
        List.append_nil]
    have h2 : (writeAt data off e.serialize).drop (off + 32 + 32 * L.length)
        = data.drop (off + (32 * L.length + 32)) := by
      unfold writeAt
      rw [he32, List.drop_append_eq_append_drop,
        List.drop_eq_nil_of_le (by rw [hl2]; omega), hl2, List.nil_append,
        List.drop_drop]
      congr 1
      omega
    rw [h1, h2, hm]
    simp [List.append_assoc]

theorem find_slots_go_zeros (data : List Nat) (slots : Nat)
    (hz : ∀ j, data.getD j 0 = 0) :
    ∀ rem fuel i cf so, 1 ≤ rem → slots ≤ cf + rem → i + rem * 32 ≤ data.length →
    rem ≤ fuel →
    ∃ cf2 so2, find_slots_go data slots fuel i cf so
      = (some (if cf = 0 then i else so), cf2, so2) := by
  intro rem
  induction rem with
  | zero =>
    intro fuel i cf so h1
    exact absurd h1 (by omega)
  | succ r ihr =>
    intro fuel i cf so h1 hslots hle hfuel
    have hmul : (r + 1) * 32 = r * 32 + 32 := by ring
    obtain ⟨f2, hf⟩ : ∃ f2, fuel = f2 + 1 := ⟨fuel - 1, by omega⟩
    subst hf
    unfold find_slots_go
    simp only [DIR_ENTRY_SIZE]
    rw [if_pos (by omega : i + 32 ≤ data.length)]
    rw [if_pos (Or.inl (hz i))]
    by_cases hdone : slots ≤ cf + 1
    · rw [if_pos hdone]
      exact ⟨cf + 1, _, rfl⟩
    · rw [if_neg hdone]
      obtain ⟨cf2, so2, hrec⟩ := ihr f2 (i + 32) (cf + 1) (if cf = 0 then i else so)
        (by omega) (by omega) (by omega) (by omega)
      rw [hrec, if_neg (by omega : ¬ cf + 1 = 0)]
      exact ⟨cf2, so2, rfl⟩

theorem read_chain_single (d : Disk) (c : Nat) (hc2 : 2 ≤ c)
    (hclt : c < d.fat.length) (hlt : c < FAT32_EOC)
    (he : FAT32_EOC ≤ get_fat_entry d c) :
    read_chain d c = read_cluster d c := by
  unfold read_chain
  obtain ⟨l2, hl⟩ : ∃ l2, d.fat.length = l2 + 1 := ⟨d.fat.length - 1, by omega⟩
  rw [hl]
  unfold read_chain_fuel
  rw [if_neg (by push_neg; exact ⟨by omega, by omega⟩)]
  unfold read_chain_fuel
  rw [if_pos (Or.inr he)]
  simp

end Fat32

namespace Fat32

theorem mem_of_mem_takeWhile {p : Nat → Bool} {l : List Nat} {x : Nat}
    (h : x ∈ l.takeWhile p) : x ∈ l :=
  (List.takeWhile_prefix p).subset h

theorem replicate_getD_zero (n j : Nat) :
    (List.replicate n (0 : Nat)).getD j 0 = 0 := by
  rw [List.getD_eq_getElem?_getD, List.getElem?_replicate]
  split <;> simp

theorem short_new_good (N : List Nat) (attr cluster size : Nat)
    (hattr : attr < 256) (hattr15 : attr ≠ ATTR_LFN)
    (hvol : attr &&& ATTR_VOLUME_ID = 0) (hsize : size < 4294967296) :
    ShortGood (ShortDirEntry.new N attr cluster size) := by
  have hname : (ShortDirEntry.new N attr cluster size).name = make_short_name N := rfl
  have hlen : (ShortDirEntry.new N attr cluster size).name.length = 11 := by
    rw [hname]
    exact make_short_name_length N
  have hbytes : ∀ b ∈ (ShortDirEntry.new N attr cluster size).name, b < 256 := by
    rw [hname]
    intro b hb
    have := make_short_name_bytes N b hb
    omega
  have hhead : (ShortDirEntry.new N attr cluster size).name.getD 0 0 ≠ 0 := by
    rw [hname]
    exact make_short_name_head N
  refine ⟨?_, short_serialize_length _ hlen hbytes, ?_, ?_, ?_, ?_⟩
  · exact short_parse_serialize _ hlen hbytes hhead hattr
      (by show (0 : Nat) < 256; norm_num) (by show (0 : Nat) < 256; norm_num)
      (by show (0 : Nat) < 65536; norm_num) (by show (0 : Nat) < 65536; norm_num)
      (by show (0 : Nat) < 65536; norm_num)
      (by show cluster / 65536 % 65536 < 65536; exact Nat.mod_lt _ (by norm_num))
      (by show (0 : Nat) < 65536; norm_num) (by show (0 : Nat) < 65536; norm_num)
      (by show cluster % 65536 < 65536; exact Nat.mod_lt _ (by norm_num)) hsize
  · rw [short_serialize_getD0 _ hlen hbytes]
    exact hhead
  · rw [short_serialize_getD0 _ hlen hbytes, hname]
    have hm : (make_short_name N).getD 0 0 ∈ make_short_name N :=
      getD_mem_of_lt _ _ _ (by rw [make_short_name_length]; omega)
    have := make_short_name_bytes N _ hm
    unfold DELETED_MARKER
    omega
  · rw [short_serialize_getD11 _ hlen hbytes]
    have ha : (ShortDirEntry.new N attr cluster size).attr = attr := rfl
    rw [ha, Nat.mod_eq_of_lt hattr]
    exact hattr15
  · unfold ShortDirEntry.is_volume_label
    have ha : (ShortDirEntry.new N attr cluster size).attr = attr := rfl
    rw [ha, hvol]
    simp

theorem short_name_shape (s : ShortDirEntry) (N : List Nat)
    (hname : s.name = make_short_name N) :
    short_name s ≠ [46] ∧ short_name s ≠ [46, 46] := by
  have hby : ∀ b ∈ s.name, 32 ≤ b ∧ b ≤ 122 ∧ b ≠ 46 := by
    rw [hname]
    exact make_short_name_bytes N
  have hlow : ∀ b, 32 ≤ b → b ≤ 122 → b ≠ 46 → toLowerChar b ≠ 46 := by
    intro b h1 h2 h3
    unfold toLowerChar
    split <;> omega
  have hnp : ∀ c ∈ ((s.name.take 8).takeWhile (fun c => c != 32)).map toLowerChar,
      c ≠ 46 := by
    intro c hc
    obtain ⟨b, hb, hbc⟩ := List.mem_map.mp hc
    obtain ⟨h1, h2, h3⟩ := hby b (List.mem_of_mem_take (mem_of_mem_takeWhile hb))
    rw [← hbc]
    exact hlow b h1 h2 h3
  have hep : ∀ c ∈ (((s.name.drop 8).take 3).takeWhile (fun c => c != 32)).map
      toLowerChar, c ≠ 46 := by
    intro c hc
    obtain ⟨b, hb, hbc⟩ := List.mem_map.mp hc
    obtain ⟨h1, h2, h3⟩ := hby b
      (List.mem_of_mem_drop (List.mem_of_mem_take (mem_of_mem_takeWhile hb)))
    rw [← hbc]
    exact hlow b h1 h2 h3
  simp only [short_name]
  split
  · constructor
    · intro h
      exact hnp 46 (by rw [h]; simp) rfl
    · intro h
      exact hnp 46 (by rw [h]; simp) rfl
  · rename_i hne
    have hep1 : (List.takeWhile (fun c => c != 32)
        (List.take 3 (List.drop 8 s.name))).length ≠ 0 := by
      intro hzz
      rw [List.eq_nil_of_length_eq_zero hzz] at hne
      simp at hne
    constructor
    · intro h
      have hlen := congrArg List.length h
      simp at hlen
      omega
    · intro h
      have hlen := congrArg List.length h
      simp at hlen
      have hz1 : (List.takeWhile (fun c => c != 32)
          (List.take 8 s.name)).length = 0 := by omega
      rw [List.eq_nil_of_length_eq_zero hz1] at h
      simp at h
      exact hep 46 (by rw [h]; simp) rfl

end Fat32

namespace Fat32

theorem getD_drop (l : List Nat) (i : Nat) : (l.drop i).getD 0 0 = l.getD i 0 := by
  rw [List.getD_eq_getElem?_getD, List.getD_eq_getElem?_getD, List.getElem?_drop]
  simp

theorem find_free_slots_empty (d : Disk) (slots : Nat)
    (hrc : read_chain d 2 = List.replicate d.clusterSize 0)
    (hs1 : 1 ≤ slots) (hs32 : slots * 32 ≤ d.clusterSize) :
    find_free_dir_slots d 2 slots = Except.ok (List.replicate d.clusterSize 0, 0) := by
  have hcs32 : 32 ≤ d.clusterSize := by
    have hmul : slots * 32 = (slots - 1) * 32 + 32 := by
      have : slots = (slots - 1) + 1 := by omega
      rw [this]
      ring_nf
      omega
    omega
  simp only [find_free_dir_slots]
  rw [hrc]
  have hdiv : slots ≤ d.clusterSize / 32 := (Nat.le_div_iff_mul_le (by omega)).mpr hs32
  obtain ⟨cf2, so2, hgo⟩ := find_slots_go_zeros (List.replicate d.clusterSize 0)
    slots (fun j => replicate_getD_zero _ j) slots
    ((List.replicate d.clusterSize (0 : Nat)).length / DIR_ENTRY_SIZE + 1) 0 0 0
    (by omega) (by omega)
    (by simp only [List.length_replicate]; omega)
    (by simp only [List.length_replicate, DIR_ENTRY_SIZE]; omega)
  rw [hgo]
  rfl

theorem write_chain_one (d : Disk) (D : List Nat)
    (hD : D.length = d.clusterSize) (hcs : 0 < d.clusterSize) :
    write_chain d 2 D = Except.ok (set_fat_entry (write_cluster d 2 D) 2 FAT32_EOC, 2) := by
  unfold write_chain
  have hneed : (D.length + d.clusterSize - 1) / d.clusterSize = 1 := by
    rw [hD]
    exact Nat.div_eq_of_lt_le (by omega) (by omega)
  rw [hneed]
  rw [if_neg (by omega)]
  rw [if_neg (by omega : ¬ (2 : Nat) < 2)]
  dsimp only
  have hloop : write_chain_loop D d 2 0 1
      = Except.ok (write_cluster d 2 (chunkAt D 0 d.clusterSize), 2) := by
    unfold write_chain_loop
    rfl
  rw [hloop]
  have hchunk : chunkAt D 0 d.clusterSize = D := by
    unfold chunkAt
    simp only [Nat.zero_mul, List.drop_zero]
    rw [List.take_of_length_le (le_of_eq hD)]
    exact padTo_of_length _ _ hD
  rw [hchunk]

theorem read_chain_after_write (d : Disk) (D : List Nat)
    (hD : D.length = d.clusterSize) (h2f : 2 < d.fat.length)
    (h2d : 2 < d.data.length) :
    read_chain (set_fat_entry (write_cluster d 2 D) 2 FAT32_EOC) 2 = D := by
  have hfat : (set_fat_entry (write_cluster d 2 D) 2 FAT32_EOC).fat.length
      = d.fat.length := by
    rw [set_fat_fat_length, write_cluster_fat]
  have hget : get_fat_entry (set_fat_entry (write_cluster d 2 D) 2 FAT32_EOC) 2
      = FAT32_EOC := by
    rw [get_fat_set_self _ 2 _ (by rw [write_cluster_fat]; exact h2f)]
    exact mask_small (by decide)
  rw [read_chain_single _ 2 (by omega) (by rw [hfat]; exact h2f) (by decide)
    (by simp [hget])]
  unfold read_cluster
  have hdat : (set_fat_entry (write_cluster d 2 D) 2 FAT32_EOC).data
      = d.data.set 2 (D.take d.clusterSize) := rfl
  have hcsd : (set_fat_entry (write_cluster d 2 D) 2 FAT32_EOC).clusterSize
      = d.clusterSize := rfl
  rw [hdat, hcsd, getD_set_self_any _ _ _ _ h2d, List.take_of_length_le (le_of_eq hD)]
  exact padTo_of_length _ _ hD

end Fat32

namespace Fat32

theorem scan_buffer (data : List Nat) (L : List LfnEntry) (s : ShortDirEntry)
    (z F : Nat)
    (hdata : data = (L.map LfnEntry.serialize).flatten
      ++ (s.serialize ++ List.replicate z 0))
    (hL : ∀ e ∈ L, LfnGood e)
    (hshape : L = [] ∨ ∃ e0 L2, L = e0 :: L2 ∧ e0.is_last = true ∧
      ∀ e ∈ L2, e.is_last = false)
    (hsg : ShortGood s)
    (hdots : short_name s ≠ [46] ∧ short_name s ≠ [46, 46])
    (hF : L.length + 2 ≤ F) :
    (read_dir_go data F 0 [] 0).map FatDirEntry.name
      = [if L.isEmpty then short_name s
         else if L.all (fun e => e.checksum == lfn_checksum s.name) then
           assemble_lfn L
         else short_name s] := by
  have hser32 : s.serialize.length = 32 := hsg.2.1
  rcases hshape with hnil | ⟨e0, L2, hsp, hlast0, hlast2⟩
  · subst hnil
    simp only [List.map_nil, List.flatten_nil, List.nil_append] at hdata
    obtain ⟨f, hf⟩ : ∃ f, F = f + 1 := ⟨F - 1, by simp at hF; omega⟩
    subst hf
    have hdrop0 : data.drop 0 = s.serialize ++ List.replicate z 0 := by
      rw [List.drop_zero, hdata]
    have hstep := read_dir_go_short_step data f 0 0 [] s _ (by omega) hdrop0 hsg hdots
    rw [hstep]
    obtain ⟨_, hle0, hdrop32⟩ := drop_block data 0 s.serialize _ hser32 hdrop0 (by omega)
    have hg32 : data.getD (0 + 32) 0 = 0 := by
      rw [← getD_drop, hdrop32]
      exact replicate_getD_zero z 0
    rw [read_dir_go_stop data f (0 + 32) 0 [] (Or.inl hg32)]
    simp
  · subst hsp
    obtain ⟨g, hg⟩ : ∃ g, F = ((g + 1) + L2.length) + 1 :=
      ⟨F - L2.length - 2, by simp at hF; omega⟩
    subst hg
    have he0g : LfnGood e0 := hL e0 (by simp)
    have he0_32 : e0.serialize.length = 32 := he0g.2.1
    have hdrop0 : data.drop 0 = e0.serialize
        ++ ((L2.map LfnEntry.serialize).flatten
          ++ (s.serialize ++ List.replicate z 0)) := by
      rw [List.drop_zero, hdata]
      simp [List.append_assoc]
    obtain ⟨_, hle32, hdrop32⟩ := drop_block data 0 e0.serialize _ he0_32 hdrop0
      (by omega)
    have hstep0 := read_dir_go_lfn_step data ((g + 1) + L2.length) 0 0 [] e0 _
      (by omega) hdrop0 he0g
    rw [hstep0, hlast0, if_pos rfl]
    have hL2good : ∀ e ∈ L2, LfnGood e ∧ e.is_last = false :=
      fun e he => ⟨hL e (by simp [he]), hlast2 e he⟩
    have hrun := read_dir_go_lfn_run data L2 (g + 1) (0 + 32) 0 [e0] _
      (by omega) hdrop32 hL2good
    rw [hrun]
    have hfl : ((L2.map LfnEntry.serialize).flatten).length = 32 * L2.length :=
      flatten_ser_length L2 (fun e he => (hL2good e he).1.2.1)
    have hdropi2 : data.drop (0 + 32 + 32 * L2.length)
        = s.serialize ++ List.replicate z 0 := by
      have hdd : data.drop (0 + 32 + 32 * L2.length)
          = (data.drop (0 + 32)).drop (32 * L2.length) := by
        rw [List.drop_drop]
      rw [hdd, hdrop32, List.drop_append_eq_append_drop,
        List.drop_eq_nil_of_le (le_of_eq hfl), hfl, Nat.sub_self, List.drop_zero,
        List.nil_append]
    have hi2 : 0 + 32 + 32 * L2.length ≤ data.length := by
      have hlen2 := congrArg List.length hdropi2
      simp [hser32] at hlen2
      omega
    have hstepS := read_dir_go_short_step data g (0 + 32 + 32 * L2.length) 0
      ([e0] ++ L2) s _ hi2 hdropi2 hsg hdots
    rw [hstepS]
    obtain ⟨_, _, hdropEnd⟩ := drop_block data (0 + 32 + 32 * L2.length)
      s.serialize _ hser32 hdropi2 hi2
    have hgEnd : data.getD (0 + 32 + 32 * L2.length + 32) 0 = 0 := by
      rw [← getD_drop, hdropEnd]
      exact replicate_getD_zero z 0
    rw [read_dir_go_stop data g (0 + 32 + 32 * L2.length + 32) 0 [] (Or.inl hgEnd)]
    simp

end Fat32

namespace Fat32

set_option maxHeartbeats 2000000 in
theorem add_readdir_spec (d : Disk) (N : List Nat) (attr cluster size : Nat)
    (d2 : Disk) (hwf : DiskWF d) (hvc : ValidChain d 2 [2])
    (hdata2 : d.data.getD 2 [] = [])
    (hascii : ∀ c ∈ N, 1 ≤ c ∧ c < 128) (hlen1 : 1 ≤ N.length)
    (hlen255 : N.length ≤ 255)
    (h83 : needs_lfn N = false → N.count 46 ≤ 1 ∧ N.getLast? ≠ some 46)
    (hattr : attr < 256) (hattr15 : attr ≠ ATTR_LFN)
    (hvol : attr &&& ATTR_VOLUME_ID = 0) (hsize : size < 4294967296)
    (hcs : ((N.length + 12) / 13 + 1) * 32 ≤ d.clusterSize)
    (hw : add_dir_entry d 2 N attr cluster size = Except.ok d2) :
    (read_directory d2 2).map FatDirEntry.name
      = [if needs_lfn N then N else N.map toLowerChar] := by
  have hchain : 2 < d.fat.length ∧ FAT32_EOC ≤ get_fat_entry d 2 := by
    cases hvc with
    | last h2 hc he => exact ⟨hc, he⟩
    | step h2 hc hn2 hnext hrest => exact absurd rfl (validChain_ne_nil hrest)
  obtain ⟨hc2lt, heoc2⟩ := hchain
  have h2d : 2 < d.data.length := lt_of_lt_of_le hc2lt hwf.data_ge
  have hcs32 : 32 ≤ d.clusterSize := by
    have hmul : ((N.length + 12) / 13 + 1) * 32
        = ((N.length + 12) / 13) * 32 + 32 := by ring
    omega
  have hcspos : 0 < d.clusterSize := by omega
  have hrc : read_chain d 2 = List.replicate d.clusterSize 0 := by
    rw [read_chain_single d 2 (by omega) hc2lt (by decide) heoc2]
    unfold read_cluster padTo
    rw [hdata2]
    simp
  have hsg : ShortGood (ShortDirEntry.new N attr cluster size) :=
    short_new_good N attr cluster size hattr hattr15 hvol hsize
  have hser32s : (ShortDirEntry.new N attr cluster size).serialize.length = 32 :=
    hsg.2.1
  have hdotok := short_name_shape (ShortDirEntry.new N attr cluster size) N rfl
  simp only [add_dir_entry] at hw
  by_cases hlfn : needs_lfn N = true
  · rw [if_pos hlfn] at hw
    have hnum1 : 1 ≤ (N.length + 12) / 13 := by omega
    have hLlen : (create_lfn_entries N (make_short_name N)).length
        = (N.length + 12) / 13 := by
      unfold create_lfn_entries
      exact create_lfn_go_length N _ _ _
    have hLgood := created_lfn_facts N (make_short_name N) hlen255
    have hL32 : ∀ e ∈ create_lfn_entries N (make_short_name N),
        (LfnEntry.serialize e).length = 32 :=
      fun e he => (hLgood e he).1.2.1
    have hslots32 : ((create_lfn_entries N (make_short_name N)).length + 1) * 32
        ≤ d.clusterSize := by
      rw [hLlen]
      exact hcs
    rw [find_free_slots_empty d _ hrc (by omega) hslots32] at hw
    dsimp only at hw
    have hflat : (((create_lfn_entries N (make_short_name N)).map
        LfnEntry.serialize).flatten).length
        = 32 * (create_lfn_entries N (make_short_name N)).length :=
      flatten_ser_length _ hL32
    have hmul32 : 32 * (create_lfn_entries N (make_short_name N)).length + 32
        ≤ d.clusterSize := by
      have hm2 : ((create_lfn_entries N (make_short_name N)).length + 1) * 32
          = 32 * (create_lfn_entries N (make_short_name N)).length + 32 := by ring
      omega
    have hbuf : writeEntriesAt (create_lfn_entries N (make_short_name N))
        (List.replicate d.clusterSize 0) 0
        = ((create_lfn_entries N (make_short_name N)).map LfnEntry.serialize).flatten
          ++ List.replicate
            (d.clusterSize - 32 * (create_lfn_entries N (make_short_name N)).length)
            0 := by
      rw [writeEntriesAt_spec _ _ 0 hL32
        (by simp only [List.length_replicate]; omega)]
      simp [List.drop_replicate]
    rw [hbuf] at hw
    have hoff : 0 + (create_lfn_entries N (make_short_name N)).length
        * DIR_ENTRY_SIZE
        = 32 * (create_lfn_entries N (make_short_name N)).length := by
      simp [DIR_ENTRY_SIZE]
      ring
    rw [hoff] at hw
    have hD3 : writeAt
        (((create_lfn_entries N (make_short_name N)).map LfnEntry.serialize).flatten
          ++ List.replicate
            (d.clusterSize - 32 * (create_lfn_entries N (make_short_name N)).length) 0)
        (32 * (create_lfn_entries N (make_short_name N)).length)
        (ShortDirEntry.new N attr cluster size).serialize
        = ((create_lfn_entries N (make_short_name N)).map LfnEntry.serialize).flatten
          ++ ((ShortDirEntry.new N attr cluster size).serialize
            ++ List.replicate (d.clusterSize
              - 32 * (create_lfn_entries N (make_short_name N)).length - 32) 0) := by
      unfold writeAt
      rw [hser32s]
      rw [List.take_append_eq_append_take, List.take_of_length_le (le_of_eq hflat),
        hflat, Nat.sub_self, List.take_zero, List.append_nil]
      rw [List.drop_append_eq_append_drop, List.drop_eq_nil_of_le (by omega), hflat,
        List.drop_replicate, List.nil_append]
      have hd32 : 32 * (create_lfn_entries N (make_short_name N)).length + 32
          - 32 * (create_lfn_entries N (make_short_name N)).length = 32 := by omega
      rw [hd32]
      simp [List.append_assoc]
    rw [hD3] at hw
    have hlen3 : (((create_lfn_entries N (make_short_name N)).map
        LfnEntry.serialize).flatten
        ++ ((ShortDirEntry.new N attr cluster size).serialize
          ++ List.replicate (d.clusterSize
            - 32 * (create_lfn_entries N (make_short_name N)).length - 32) 0)).length
        = d.clusterSize := by
      simp [hflat, hser32s]
      omega
    rw [write_chain_one d _ hlen3 hcspos] at hw
    dsimp only at hw
    injection hw with hval
    subst hval
    simp only [read_directory]
    rw [read_chain_after_write d _ hlen3 hc2lt h2d, hlen3]
    rw [scan_buffer _ (create_lfn_entries N (make_short_name N))
      (ShortDirEntry.new N attr cluster size) _
      (d.clusterSize / DIR_ENTRY_SIZE + 1) rfl
      (fun e he => (hLgood e he).1)
      (Or.inr (created_lfn_shape N (make_short_name N) hlen1 hlen255))
      hsg hdotok
      (by
        have hdiv : (create_lfn_entries N (make_short_name N)).length + 1
            ≤ d.clusterSize / 32 :=
          (Nat.le_div_iff_mul_le (by omega)).mpr hslots32
        simp only [DIR_ENTRY_SIZE]
        omega)]
    have hne : (create_lfn_entries N (make_short_name N)).isEmpty = false := by
      rcases hq : create_lfn_entries N (make_short_name N) with _ | ⟨q, t⟩
      · have := hLlen
        rw [hq] at this
        simp at this
        omega
      · simp
    rw [hne]
    have hall : (create_lfn_entries N (make_short_name N)).all
        (fun e => e.checksum
          == lfn_checksum (ShortDirEntry.new N attr cluster size).name) = true := by
      rw [List.all_eq_true]
      intro e he
      have hck := (hLgood e he).2
      have hn : (ShortDirEntry.new N attr cluster size).name = make_short_name N :=
        rfl
      rw [hn, hck]
      simp
    rw [if_neg (by simp), if_pos hall, created_lfn_assemble N _ hascii, if_pos hlfn]
  · rw [if_neg hlfn] at hw
    have hlfn0 : needs_lfn N = false := by simpa using hlfn
    simp only [List.length_nil, Nat.zero_add] at hw
    rw [find_free_slots_empty d 1 hrc (by omega) (by omega)] at hw
    dsimp only at hw
    simp only [writeEntriesAt, List.length_nil, Nat.zero_mul, Nat.add_zero,
      Nat.zero_add] at hw
    have hD3 : writeAt (List.replicate d.clusterSize 0) 0
        (ShortDirEntry.new N attr cluster size).serialize
        = (([] : List LfnEntry).map LfnEntry.serialize).flatten
          ++ ((ShortDirEntry.new N attr cluster size).serialize
            ++ List.replicate (d.clusterSize - 32) 0) := by
      unfold writeAt
      rw [hser32s]
      simp [List.drop_replicate]
    have hlen3 : ((([] : List LfnEntry).map LfnEntry.serialize).flatten
        ++ ((ShortDirEntry.new N attr cluster size).serialize
          ++ List.replicate (d.clusterSize - 32) 0)).length = d.clusterSize := by
      simp [hser32s]
      omega
    rw [hD3] at hw
    rw [write_chain_one d _ hlen3 hcspos] at hw
    dsimp only at hw
    simp only [Except.ok.injEq] at hw
    subst hw
    simp only [read_directory]
    rw [read_chain_after_write d _ hlen3 hc2lt h2d, hlen3]
    rw [scan_buffer _ ([] : List LfnEntry)
      (ShortDirEntry.new N attr cluster size) _
      (d.clusterSize / DIR_ENTRY_SIZE + 1) rfl
      (by intro e he; simp at he)
      (Or.inl rfl) hsg hdotok
      (by simp only [DIR_ENTRY_SIZE, List.length_nil]
          have hdiv : 1 ≤ d.clusterSize / 32 :=
            (Nat.le_div_iff_mul_le (by omega)).mpr (by omega)
          omega)]
    simp only [List.isEmpty_nil, if_true]
    obtain ⟨hd1, hd2e⟩ := h83 hlfn0
    rw [short_name_make_83 N hlen1 hlfn0 hd1 hd2e _ rfl]
    rw [if_neg (by rw [hlfn0]; simp)]

end Fat32

set_option maxRecDepth 10000 in
/-- C2 counterexample: on a well-formed disk whose directory cluster 2 is an
empty chain, adding an entry named "A" (byte 65) with add_dir_entry and then
listing the directory with read_directory returns the name "a" (byte 97):
the original letter case of a name stored as a bare 8.3 short entry is lost,
so the name does not round-trip exactly. -/
theorem fat_dir_name_case_counterexample :
    (Fat32.add_dir_entry ⟨[0, 0, 268435448, 0], List.replicate 4 [], 64⟩
        2 [65] 0 0 0).map
      (fun d2 => (Fat32.read_directory d2 2).map Fat32.FatDirEntry.name)
      = Except.ok [[97]] ∧ ([[97]] : List (List Nat)) ≠ [[65]] :=
  ⟨by rfl, by decide⟩

/-- C2 (amended): on a well-formed disk whose directory cluster 2 is an
empty single-cluster chain, after add_dir_entry with an ASCII name N of 1 to
255 chars (with at most one dot and no trailing dot when N is stored as a
bare 8.3 entry), an attribute byte that is neither the LFN marker nor a
volume label, and a cluster size with room for the entry's slots,
read_directory lists exactly one name: N itself when N needs a long file
name, and the lowercased N when N is stored as a bare 8.3 short entry — the
original case of a bare 8.3 name is not preserved. -/
theorem fat_add_readdir_name (d : Fat32.Disk) (N : List Nat)
    (attr cluster size : Nat) (d2 : Fat32.Disk)
    (hwf : Fat32.DiskWF d) (hvc : Fat32.ValidChain d 2 [2])
    (hdata2 : d.data.getD 2 [] = [])
    (hascii : ∀ c ∈ N, 1 ≤ c ∧ c < 128) (hlen1 : 1 ≤ N.length)
    (hlen255 : N.length ≤ 255)
    (h83 : Fat32.needs_lfn N = false → N.count 46 ≤ 1 ∧ N.getLast? ≠ some 46)
    (hattr : attr < 256) (hattr15 : attr ≠ Fat32.ATTR_LFN)
    (hvol : attr &&& Fat32.ATTR_VOLUME_ID = 0) (hsize : size < 4294967296)
    (hcs : ((N.length + 12) / 13 + 1) * 32 ≤ d.clusterSize)
    (hw : Fat32.add_dir_entry d 2 N attr cluster size = Except.ok d2) :
    (Fat32.read_directory d2 2).map Fat32.FatDirEntry.name
      = [if Fat32.needs_lfn N then N else N.map Fat32.toLowerChar] :=
  Fat32.add_readdir_spec d N attr cluster size d2 hwf hvc hdata2 hascii hlen1
    hlen255 h83 hattr hattr15 hvol hsize hcs hw

set_option maxRecDepth 10000 in
/-- Witness for C2 at a concrete disk: the lowercase name "a" needs a long
file name, and add_dir_entry followed by read_directory returns it exactly. -/
theorem fat_add_readdir_name_witness :
    Fat32.add_dir_entry ⟨[0, 0, 268435448, 0], List.replicate 4 [], 64⟩ 2 [97] 0 0 0
      = Except.ok ⟨[0, 0, 268435448, 0],
          [[], [],
            [65, 97, 0, 0, 0, 255, 255, 255, 255, 255, 255, 15, 0, 128, 255, 255,
              255, 255, 255, 255, 255, 255, 255, 255, 255, 255, 0, 0, 255, 255,
              255, 255, 65, 32, 32, 32, 32, 32, 32, 32, 32, 32, 32, 0, 0, 0, 0, 0,
              0, 0, 0, 0, 0, 0, 0, 0, 0, 0, 0, 0, 0, 0, 0, 0], []], 64⟩ ∧
    (Fat32.read_directory ⟨[0, 0, 268435448, 0],
        [[], [],
          [65, 97, 0, 0, 0, 255, 255, 255, 255, 255, 255, 15, 0, 128, 255, 255,
            255, 255, 255, 255, 255, 255, 255, 255, 255, 255, 0, 0, 255, 255,
            255, 255, 65, 32, 32, 32, 32, 32, 32, 32, 32, 32, 32, 0, 0, 0, 0, 0,
            0, 0, 0, 0, 0, 0, 0, 0, 0, 0, 0, 0, 0, 0, 0, 0], []], 64⟩ 2).map
      Fat32.FatDirEntry.name
      = [if Fat32.needs_lfn [97] then [97] else [97].map Fat32.toLowerChar] :=
  ⟨by rfl,
    fat_add_readdir_name ⟨[0, 0, 268435448, 0], List.replicate 4 [], 64⟩ [97] 0 0 0
      _ ⟨by decide, by decide, by decide⟩
      (Fat32.ValidChain.last (by decide) (by decide) (by decide))
      (by rfl) (by decide) (by decide) (by decide)
      (fun h => absurd h (by decide))
      (by decide) (by decide) (by decide) (by decide) (by decide) (by rfl)⟩
